import Mathlib

/-!
Shallow embedding of the BNF grammar engine of `trlc-lrm-generator.py`
(lexer `BNF_Lexer`, parser `BNF_Parser`, AST classes `BNF_Literal`,
`BNF_Optional`, `BNF_One_Or_More`, `BNF_String`, `BNF_Alternatives`,
semantic checks `sem_literal`, terminal registration, and the canonical
renderer `write_production` / `write_expansion`), together with theorems
settling the specification claims about it.

Modelling conventions, used throughout:

* Text is `List Char`.  The Python character-class predicates
  (`str.isspace`, `str.isalpha`, `str.islower`, `str.isupper`) are modelled
  by their ASCII behaviour, which coincides with Python for the ASCII
  grammar notation the program processes.
* The diagnostic collaborator `Message_Handler` (module `trlc.errors`,
  not part of the analysed source file) is modelled from the spec:
  `mh.error(location, msg)` raises `TRLC_Error` and is fatal, so every
  function that can call it returns `Except GenError α`; `mh.warning`
  only records a message, so the checker returns the list of warnings.
  Source locations carry no information used by any control decision of
  the engine, so they are dropped from the embedding.
* A Python `assert` failure or other uncaught exception (an
  `AttributeError` from `None.kind`, a `KeyError`) is `GenError.crash`.
* Error messages are represented by the constructors of `ErrMsg`; each
  constructor corresponds to exactly one format string of the source,
  given in its doc string.
-/

/-- Character constant: the single quote `'` (used by SYMBOL tokens). -/
def squote : Char := Char.ofNat 39

/-- Character constant: the backtick, used by `register_backtick_terminals`. -/
def backtickChar : Char := Char.ofNat 96

/-- Python `str.isspace` restricted to ASCII: space, tab, newline,
vertical tab, form feed, carriage return. -/
def pyIsSpace (c : Char) : Bool :=
  c = ' ' || c = '\t' || c = '\n' || c = Char.ofNat 11 || c = Char.ofNat 12 || c = '\r'

/-- Token kinds, the `BNF_Token.KIND` tuple of the source. -/
inductive TokKind where
  | NONTERMINAL
  | TERMINAL
  | PRODUCTION
  | ALTERNATIVE
  | SYMBOL
  | S_BRA
  | S_KET
  | C_BRA
  | C_KET
  | RULE_END
deriving DecidableEq, Repr

/-- A `BNF_Token` with its kind-dependent `value` payload fused into the
constructor (`(base, suffix)` pairs for identifiers, the quoted text for
SYMBOL, `None` otherwise).  The `start`/`end`/`location` fields carry
source positions only and are dropped. -/
inductive BNF_Token where
  | NONTERMINAL (base : List Char) (suffix : Option (List Char))
  | TERMINAL (base : List Char) (suffix : Option (List Char))
  | PRODUCTION
  | ALTERNATIVE
  | SYMBOL (text : List Char)
  | S_BRA
  | S_KET
  | C_BRA
  | C_KET
  | RULE_END
deriving DecidableEq, Repr

/-- The `kind` field of a token. -/
def BNF_Token.kind : BNF_Token → TokKind
  | .NONTERMINAL _ _ => .NONTERMINAL
  | .TERMINAL _ _ => .TERMINAL
  | .PRODUCTION => .PRODUCTION
  | .ALTERNATIVE => .ALTERNATIVE
  | .SYMBOL _ => .SYMBOL
  | .S_BRA => .S_BRA
  | .S_KET => .S_KET
  | .C_BRA => .C_BRA
  | .C_KET => .C_KET
  | .RULE_END => .RULE_END

/-- Error messages raised through `mh.error`.  Each constructor stands for
one format string of the source. -/
inductive ErrMsg where
  /-- Message `BNF text must use ''' strings` (in `BNF_Parser.parse`). -/
  | tripleQuote
  /-- Message `malformed ::= operator` (in `BNF_Lexer.token`). -/
  | malformedOperator
  /-- Message `unclosed token literal` (in `BNF_Lexer.token`). -/
  | unclosedLiteral
  /-- Message `unexpected character %s` (in `BNF_Lexer.token`). -/
  | unexpectedChar (c : Char)
  /-- Message `expected %s, encountered EOS instead` (in `BNF_Parser.match`). -/
  | expectedEos (k : TokKind)
  /-- Message `expected %s, encountered %s instead` (in `BNF_Parser.match`). -/
  | expectedKind (expected actual : TokKind)
  /-- Message `expected bnf fragment` (in `BNF_Parser.parse_fragment`). -/
  | expectedFragment
  /-- Message `duplicated definition` (in `BNF_Parser.parse_production`). -/
  | duplicatedDefinition
  /-- Message `duplicate definition of terminal` (in `register_terminal`). -/
  | duplicateTerminal
  /-- Message `duplicate definition of terminal '%s'` (in
  `register_backtick_terminals`). -/
  | duplicateTerminalNamed (t : List Char)
  /-- Message `empty terminal is not permitted` (in
  `register_backtick_terminals`). -/
  | emptyTerminal
deriving DecidableEq, Repr

/-- Failure of the engine.  `trlc m` is a `TRLC_Error` raised through the
diagnostic sink with message `m` (modelled from the spec: an error raised
through the sink is fatal for the run).  `crash` is an uncaught Python
exception (a failed `assert`, `None.kind`, or a `KeyError`).  `fuelOut`
marks exhaustion of the recursion fuel of the embedding; every theorem
about a run either supplies enough fuel or assumes the run succeeded. -/
inductive GenError where
  | trlc (m : ErrMsg)
  | crash
  | fuelOut
deriving DecidableEq, Repr

/-!
## The lexer `BNF_Lexer`

The Python object keeps the whole fragment together with a cursor
`lexpos` and the cached characters `cc = fragment[lexpos]` and
`nc = fragment[lexpos + 1]`.  `advance` only moves the cursor (the
`line_no`/`col_no` counters feed source locations only and are dropped),
so the state is represented by the current character `cc` and the list
`rest` of the characters after it (`nc = rest.head?`); `advance` pops
`rest`.  The `raw_text = fragment[start_pos : end_pos + 1]` slices are
reconstructed by accumulating the consumed characters.
-/

structure BNF_Lexer where
  cc : Option Char
  rest : List Char
  eof_token_generated : Bool
deriving DecidableEq, Repr

/-- Constructor `BNF_Lexer.__init__`: after the initial `advance`,
`cc = None` and `nc` is the first fragment character. -/
def initLexer (fragment : List Char) : BNF_Lexer :=
  ⟨none, fragment, false⟩

/-- Method `BNF_Lexer.advance` (cursor movement only). -/
def BNF_Lexer.advance (s : BNF_Lexer) : BNF_Lexer :=
  ⟨s.rest.head?, s.rest.tail, s.eof_token_generated⟩

/-- The whitespace-skipping loop opening `BNF_Lexer.token`:
`while self.nc and self.nc.isspace(): self.advance(); if self.cc == "\n": num_nl += 1`.
Returns the final `cc`, the final `rest` and the newline count. -/
def skip_whitespace : Option Char → List Char → Nat → Option Char × List Char × Nat
  | cc, [], numNl => (cc, [], numNl)
  | cc, c :: rs, numNl =>
    if pyIsSpace c then
      skip_whitespace (some c) rs (if c = '\n' then numNl + 1 else numNl)
    else
      (cc, c :: rs, numNl)

/-- The identifier loop of `BNF_Lexer.token`:
`while self.nc and (self.nc.isalpha() or self.nc == "_"): self.advance()`.
Returns the consumed characters and the remaining input. -/
def consume_word : List Char → List Char × List Char
  | [] => ([], [])
  | c :: rs =>
    if c.isAlpha || c = '_' then
      let (w, r) := consume_word rs
      (c :: w, r)
    else
      ([], c :: rs)

/-- The quoted-literal loop of `BNF_Lexer.token`:
`while self.nc and self.nc != "'": self.advance()`, followed by the
unclosed-quote check and the advance over the closing quote.  `none`
means the quote is unterminated. -/
def consume_symbol_body : List Char → Option (List Char × List Char)
  | [] => none
  | c :: rs =>
    if c = squote then
      some ([], rs)
    else
      match consume_symbol_body rs with
      | none => none
      | some (v, r) => some (c :: v, r)

/-- The TERMINAL value computation of `BNF_Lexer.token`: walk `raw_text`
accumulating `t_kind` until the first lowercase character, which must be
preceded by `_` (`assert t_kind.endswith("_")`, modelled by `none`), then
the rest is the suffix.  Returns `(t_kind, t_name)`. -/
def split_terminal_value : List Char → List Char → Option (List Char × Option (List Char))
  | tKind, [] => some (tKind, none)
  | tKind, c :: rs =>
    if c.isLower then
      if tKind.getLast? = some '_' then
        some (tKind.dropLast, some (c :: rs))
      else
        none
    else
      split_terminal_value (tKind ++ [c]) rs

/-- The NONTERMINAL value computation of `BNF_Lexer.token`, symmetric to
`split_terminal_value` with the roles of the cases swapped
(`assert t_prod.endswith("_")` modelled by `none`). -/
def split_nonterminal_value : List Char → List Char → Option (List Char × Option (List Char))
  | tProd, [] => some (tProd, none)
  | tProd, c :: rs =>
    if c.isUpper then
      if tProd.getLast? = some '_' then
        some (tProd.dropLast, some (c :: rs))
      else
        none
    else
      split_nonterminal_value (tProd ++ [c]) rs

/-- Continuation of `BNF_Lexer.token` after the whitespace skip and the
conditional `advance`: `s2` is the state at the start character of the
token, `numNl` the newline count of the skip. -/
def token_core (numNl : Nat) (s2 : BNF_Lexer) : Except GenError (Option BNF_Token × BNF_Lexer) :=
  match s2.cc with
  | none =>
    if s2.eof_token_generated then
      .ok (none, s2)
    else
      .ok (some .RULE_END, ⟨s2.cc, s2.rest, true⟩)
  | some c =>
    if numNl ≥ 2 then
      .ok (some .RULE_END, s2)
    else if c = '[' then
      .ok (some .S_BRA, s2)
    else if c = ']' then
      .ok (some .S_KET, s2)
    else if c = '{' then
      .ok (some .C_BRA, s2)
    else if c = '}' then
      .ok (some .C_KET, s2)
    else if c = '|' then
      .ok (some .ALTERNATIVE, s2)
    else if c = ':' then
      let s3 := s2.advance
      if s3.cc ≠ some ':' then
        .error (.trlc .malformedOperator)
      else
        let s4 := s3.advance
        if s4.cc ≠ some '=' then
          .error (.trlc .malformedOperator)
        else
          .ok (some .PRODUCTION, s4)
    else if c.isLower then
      let (w, rest') := consume_word s2.rest
      match split_nonterminal_value [] (c :: w) with
      | none => .error .crash
      | some (base, suffix) =>
        .ok (some (.NONTERMINAL base suffix), ⟨some (w.getLastD c), rest', s2.eof_token_generated⟩)
    else if c.isUpper then
      let (w, rest') := consume_word s2.rest
      match split_terminal_value [] (c :: w) with
      | none => .error .crash
      | some (base, suffix) =>
        .ok (some (.TERMINAL base suffix), ⟨some (w.getLastD c), rest', s2.eof_token_generated⟩)
    else if c = squote then
      match consume_symbol_body s2.rest with
      | none => .error (.trlc .unclosedLiteral)
      | some (v, rest') =>
        .ok (some (.SYMBOL v), ⟨some squote, rest', s2.eof_token_generated⟩)
    else
      .error (.trlc (.unexpectedChar c))

/-- Method `BNF_Lexer.token`.  Returns the next token (`some`), the end
marker `none` (Python `None`), or the raised error. -/
def BNF_Lexer.token (s : BNF_Lexer) : Except GenError (Option BNF_Token × BNF_Lexer) :=
  match skip_whitespace s.cc s.rest 0 with
  | (cc1, rest1, numNl) =>
    token_core numNl
      (if numNl < 2 then ⟨rest1.head?, rest1.tail, s.eof_token_generated⟩
       else ⟨cc1, rest1, s.eof_token_generated⟩)

/-- Repeatedly call `BNF_Lexer.token`, collecting tokens until the lexer
returns the `None` end marker.  The parser pulls tokens one at a time,
but lexing does not depend on parser state, so the stream is computed
eagerly.  Each call consumes at least one character until the end marker,
so `fragment.length + 2` fuel (supplied by `lexAll`) always suffices. -/
def lexAllAux : Nat → BNF_Lexer → Except GenError (List BNF_Token)
  | 0, _ => .error .fuelOut
  | fuel + 1, s =>
    match s.token with
    | .error e => .error e
    | .ok (none, _) => .ok []
    | .ok (some t, s') =>
      match lexAllAux fuel s' with
      | .error e => .error e
      | .ok ts => .ok (t :: ts)

/-- The token stream of a fragment. -/
def lexAll (fragment : List Char) : Except GenError (List BNF_Token) :=
  lexAllAux (fragment.length + 2) (initLexer fragment)

/-!
## The AST

One inductive with a constructor per `BNF_Expansion` subclass:
`literal` is `BNF_Literal` (whose constructor asserts the kind is one of
TERMINAL / NONTERMINAL / SYMBOL, hence the dedicated `LitKind`),
`optional` is `BNF_Optional`, `one_or_more` is `BNF_One_Or_More`,
`string` is `BNF_String` and `alternatives` is `BNF_Alternatives`.
The `location` fields are dropped.  The `len(members) >= 2` assertions
of `BNF_String` / `BNF_Alternatives` are proved as an invariant of the
parser rather than baked into the type.
-/

/-- The kinds allowed by the `BNF_Literal` constructor assertion. -/
inductive LitKind where
  | TERMINAL
  | NONTERMINAL
  | SYMBOL
deriving DecidableEq, Repr

inductive BNF_Expansion where
  | literal (kind : LitKind) (value : List Char) (name : Option (List Char))
  | optional (expansion : BNF_Expansion)
  | one_or_more (expansion : BNF_Expansion)
  | string (members : List BNF_Expansion)
  | alternatives (members : List BNF_Expansion)
deriving Repr

/-!
## The parser `BNF_Parser`

The symbol table (`terminals`, `productions`, `bundles`) is the mutable
state of the `BNF_Parser` object; `ct`/`nt` and the nested lexer are the
token cursor, modelled by the pair of the current token and the list of
tokens from `nt` on.  Python `dict`s only ever receive fresh keys here
(duplicate insertion raises first), except `bundles[obj.name] = []`
which overwrites, so they are association lists with first-match lookup
and `setAssoc` overwrite.
-/

/-- First-match lookup in an association list (Python `dict` access /
`in`). -/
def lookupAssoc {α : Type} [DecidableEq α] {β : Type} : List (α × β) → α → Option β
  | [], _ => none
  | (k, v) :: rest, key => if k = key then some v else lookupAssoc rest key

/-- Python `dict` assignment `d[k] = v`: overwrite the first binding of
`k`, or append a new one. -/
def setAssoc {α : Type} [DecidableEq α] {β : Type} : List (α × β) → α → β → List (α × β)
  | [], key, v => [(key, v)]
  | (k, w) :: rest, key, v =>
    if k = key then (key, v) :: rest else (k, w) :: setAssoc rest key v

/-- The symbol-table state of the `BNF_Parser` object. -/
structure BNF_ParserState where
  terminals : List (List Char)
  productions : List (List Char × BNF_Expansion)
  bundles : List (List Char × List (List Char))
deriving Repr

/-- A fresh `BNF_Parser` (constructor `BNF_Parser.__init__`). -/
def initParserState : BNF_ParserState :=
  ⟨[], [], []⟩

/-- The token cursor: `ct` (current token) and the stream from `nt` on. -/
abbrev Toks := Option BNF_Token × List BNF_Token

/-- Method `BNF_Parser.peek`: `self.nt and self.nt.kind == kind`. -/
def peekKind (k : TokKind) (st : Toks) : Bool :=
  match st.2 with
  | [] => false
  | t :: _ => t.kind = k

/-- Method `BNF_Parser.match`: consume the next token or raise.  With no
next token it raises through `self.error(self.ct, ...)`, which asserts
`ct` is a token (crash when `ct` is `None`). -/
def pmatch (k : TokKind) (st : Toks) : Except GenError Toks :=
  match st.2 with
  | [] =>
    match st.1 with
    | none => .error .crash
    | some _ => .error (.trlc (.expectedEos k))
  | t :: ts =>
    if t.kind ≠ k then .error (.trlc (.expectedKind k t.kind))
    else .ok (some t, ts)

/-- The token kinds continuing a string in `BNF_Parser.parse_string`. -/
def fragmentStartKinds : List TokKind :=
  [.C_BRA, .S_BRA, .TERMINAL, .NONTERMINAL, .SYMBOL]

mutual

/-- Method `BNF_Parser.parse_fragment`.  Reading `self.nt.location` with
no next token is an `AttributeError` (crash). -/
def parse_fragment : Nat → Toks → Except GenError (BNF_Expansion × Toks)
  | 0, _ => .error .fuelOut
  | fuel + 1, st =>
    match st.2 with
    | [] => .error .crash
    | t :: _ =>
      if t.kind = .C_BRA then do
        let st ← pmatch .C_BRA st
        let (rv, st) ← parse_expansion fuel st
        let st ← pmatch .C_KET st
        .ok (.one_or_more rv, st)
      else if t.kind = .S_BRA then do
        let st ← pmatch .S_BRA st
        let (rv, st) ← parse_expansion fuel st
        let st ← pmatch .S_KET st
        .ok (.optional rv, st)
      else if t.kind = .TERMINAL then do
        let st ← pmatch .TERMINAL st
        match st.1 with
        | some (.TERMINAL base suffix) => .ok (.literal .TERMINAL base suffix, st)
        | _ => .error .crash
      else if t.kind = .NONTERMINAL then do
        let st ← pmatch .NONTERMINAL st
        match st.1 with
        | some (.NONTERMINAL base suffix) => .ok (.literal .NONTERMINAL base suffix, st)
        | _ => .error .crash
      else if t.kind = .SYMBOL then do
        let st ← pmatch .SYMBOL st
        match st.1 with
        | some (.SYMBOL v) => .ok (.literal .SYMBOL v none, st)
        | _ => .error .crash
      else
        .error (.trlc .expectedFragment)

/-- Method `BNF_Parser.parse_string`: one fragment, then the
`while self.nt.kind in (...)` loop. -/
def parse_string : Nat → Toks → Except GenError (BNF_Expansion × Toks)
  | 0, _ => .error .fuelOut
  | fuel + 1, st => do
    let (f, st) ← parse_fragment fuel st
    parse_string_loop fuel [f] st

/-- The collection loop of `parse_string`.  `self.nt.kind` with `nt`
`None` is an `AttributeError` (crash).  On exit, a single collected
fragment is returned unwrapped, otherwise a `BNF_String` is built. -/
def parse_string_loop : Nat → List BNF_Expansion → Toks → Except GenError (BNF_Expansion × Toks)
  | 0, _, _ => .error .fuelOut
  | fuel + 1, rv, st =>
    match st.2 with
    | [] => .error .crash
    | t :: _ =>
      if t.kind ∈ fragmentStartKinds then do
        let (f, st) ← parse_fragment fuel st
        parse_string_loop fuel (rv ++ [f]) st
      else
        match rv with
        | [e] => .ok (e, st)
        | _ => .ok (.string rv, st)

/-- Method `BNF_Parser.parse_expansion`: one string, then the
alternative loop. -/
def parse_expansion : Nat → Toks → Except GenError (BNF_Expansion × Toks)
  | 0, _ => .error .fuelOut
  | fuel + 1, st => do
    let (s, st) ← parse_string fuel st
    parse_expansion_loop fuel [s] st

/-- The `while self.peek("ALTERNATIVE")` loop of `parse_expansion`.  On
exit, a single collected string is returned unwrapped, otherwise a
`BNF_Alternatives` is built. -/
def parse_expansion_loop : Nat → List BNF_Expansion → Toks → Except GenError (BNF_Expansion × Toks)
  | 0, _, _ => .error .fuelOut
  | fuel + 1, rv, st =>
    if peekKind .ALTERNATIVE st then do
      let st ← pmatch .ALTERNATIVE st
      let (s, st) ← parse_string fuel st
      parse_expansion_loop fuel (rv ++ [s]) st
    else
      match rv with
      | [e] => .ok (e, st)
      | _ => .ok (.alternatives rv, st)

end

/-- Method `BNF_Parser.parse_production`: match a NONTERMINAL, check for
a duplicated production, match `::=`, parse the expansion and register
it.  Returns the production name. -/
def parse_production (fuel : Nat) (p : BNF_ParserState) (st : Toks) :
    Except GenError (List Char × BNF_ParserState × Toks) := do
  let st ← pmatch .NONTERMINAL st
  match st.1 with
  | some (.NONTERMINAL prodName _) =>
    if (lookupAssoc p.productions prodName).isSome then
      .error (.trlc .duplicatedDefinition)
    else do
      let st ← pmatch .PRODUCTION st
      let (exp, st) ← parse_expansion fuel st
      .ok (prodName, ⟨p.terminals, p.productions ++ [(prodName, exp)], p.bundles⟩, st)
  | _ => .error .crash

/-- The `while self.nt:` loop of `BNF_Parser.parse`: parse a production,
append its name to this object's bundle, and match the RULE_END. -/
def parse_loop : Nat → BNF_ParserState → List Char → Toks → Except GenError BNF_ParserState
  | 0, _, _, _ => .error .fuelOut
  | fuel + 1, p, objName, st =>
    match st.2 with
    | [] => .ok p
    | _ :: _ => do
      let (prodName, p, st) ← parse_production fuel p st
      let p : BNF_ParserState :=
        ⟨p.terminals, p.productions,
         setAssoc p.bundles objName ((lookupAssoc p.bundles objName).getD [] ++ [prodName])⟩
      let st ← pmatch .RULE_END st
      parse_loop fuel p objName st

/-- Method `BNF_Parser.parse`.  `rawText` is the unprocessed text of the
object's `bnf` field (`obj.field["bnf"].location.text()`, external to
the engine), `objName` is `obj.name`.  The text must start with `'''`
(only the start is checked); three characters are then stripped from
both ends, the stripped fragment is lexed, `bundles[obj.name]` is set to
`[]`, and productions are parsed until the token stream is exhausted.
The Python recursive descent has no depth limit; the fuel
`3 * toks.length + 1` bounds the call depth of the model (every third
nested call consumes a token), so the model never runs out of fuel
(theorem `parse_ne_fuelOut` below) and agrees with the source on every
input. -/
def parse (p : BNF_ParserState) (objName : List Char) (rawText : List Char) :
    Except GenError BNF_ParserState :=
  if rawText.take 3 ≠ [squote, squote, squote] then
    .error (.trlc .tripleQuote)
  else
    let fragment := (rawText.drop 3).take (rawText.length - 6)
    match lexAll fragment with
    | .error e => .error e
    | .ok toks =>
      let p : BNF_ParserState := ⟨p.terminals, p.productions, setAssoc p.bundles objName []⟩
      parse_loop (3 * toks.length + 1) p objName (none, toks)

/-!
## Terminal registration and the semantic checker
-/

/-- Method `BNF_Parser.register_terminal`.  `value` is the Python string
value of the `ast.String_Literal` argument. -/
def register_terminal (p : BNF_ParserState) (value : List Char) :
    Except GenError BNF_ParserState :=
  if value ∈ p.terminals then
    .error (.trlc .duplicateTerminal)
  else
    .ok ⟨p.terminals ++ [value], p.productions, p.bundles⟩

/-- Scanner for `backtickRuns`.  In the `false` mode it looks for an
opening backtick; in the `true` mode it accumulates the current run in
`acc` until the closing backtick (an unclosed run is not a match). -/
def backtickRunsAux : Bool → List Char → List Char → List (List Char)
  | false, _, [] => []
  | false, acc, c :: rs =>
    if c = backtickChar then backtickRunsAux true [] rs
    else backtickRunsAux false acc rs
  | true, _, [] => []
  | true, acc, c :: rs =>
    if c = backtickChar then acc :: backtickRunsAux false [] rs
    else backtickRunsAux true (acc ++ [c]) rs

/-- The back-quoted runs matched by `re.finditer("`([^`]*)`", value)`,
in order: scan for a backtick, take the (possibly empty) run up to the
next backtick (no match if it is missing), continue after it. -/
def backtickRuns (value : List Char) : List (List Char) :=
  backtickRunsAux false [] value

/-- The body of the `for match in re.finditer(...)` loop of
`register_backtick_terminals`, for one back-quoted run. -/
def register_one_backtick (p : BNF_ParserState) (run : List Char) :
    Except GenError BNF_ParserState :=
  if run ≠ [] then
    if run ∈ p.terminals then
      .error (.trlc (.duplicateTerminalNamed run))
    else
      .ok ⟨p.terminals ++ [run], p.productions, p.bundles⟩
  else
    .error (.trlc .emptyTerminal)

/-- Folding `register_one_backtick` over a list of runs. -/
def register_backtick_runs : BNF_ParserState → List (List Char) → Except GenError BNF_ParserState
  | p, [] => .ok p
  | p, run :: runs =>
    match register_one_backtick p run with
    | .error e => .error e
    | .ok p => register_backtick_runs p runs

/-- Method `BNF_Parser.register_backtick_terminals`.  `value` is the
Python string value of the `ast.String_Literal` argument. -/
def register_backtick_terminals (p : BNF_ParserState) (value : List Char) :
    Except GenError BNF_ParserState :=
  register_backtick_runs p (backtickRuns value)

/-- Warnings emitted through `mh.warning` (non-fatal). -/
inductive SemWarning where
  /-- Message `unknown terminal` (in `sem_literal`). -/
  | unknownTerminal
  /-- Message `unknown production` (in `sem_literal`). -/
  | unknownProduction
deriving DecidableEq, Repr

/-- Method `BNF_Parser.sem_literal`: SYMBOL values are looked up in
`terminals`, TERMINAL leaves are skipped (`# TODO`), NONTERMINAL values
are looked up in `productions`.  Warnings are returned, nothing is
raised. -/
def sem_literal (p : BNF_ParserState) (kind : LitKind) (value : List Char) : List SemWarning :=
  match kind with
  | .SYMBOL => if value ∈ p.terminals then [] else [.unknownTerminal]
  | .TERMINAL => []
  | .NONTERMINAL =>
    if (lookupAssoc p.productions value).isSome then [] else [.unknownProduction]

mutual

/-- Method `BNF_Parser.sem_expansion`: recurse into wrappers and member
lists, check literals at the leaves. -/
def sem_expansion (p : BNF_ParserState) : BNF_Expansion → List SemWarning
  | .one_or_more e => sem_expansion p e
  | .optional e => sem_expansion p e
  | .string ms => sem_members p ms
  | .alternatives ms => sem_members p ms
  | .literal kind value _ => sem_literal p kind value

/-- The member loop of `sem_expansion`. -/
def sem_members (p : BNF_ParserState) : List BNF_Expansion → List SemWarning
  | [] => []
  | m :: ms => sem_expansion p m ++ sem_members p ms

end

/-!
## The canonical renderer

`write_production` / `write_expansion` emit text through `fd.write`;
the embedding returns the written characters.
-/

mutual

/-- Function `write_expansion`: alternatives are joined by `" | "`,
strings by `" "`, optionals are wrapped in `"[ "`/`" ]"`, repetitions in
`"{ "`/`" }"`, SYMBOL literals are re-quoted, TERMINAL literals print
the value plus an italicised `_suffix`, NONTERMINAL literals print a
hyperlink to the production anchor plus the `_suffix`. -/
def write_expansion : BNF_Expansion → List Char
  | .alternatives ms => write_members [' ', '|', ' '] ms
  | .string ms => write_members [' '] ms
  | .optional e => '[' :: ' ' :: write_expansion e ++ [' ', ']']
  | .one_or_more e => '{' :: ' ' :: write_expansion e ++ [' ', '}']
  | .literal .SYMBOL v _ => squote :: v ++ [squote]
  | .literal .TERMINAL v name =>
    v ++ (match name with
          | some n => ['<', 'i', '>', '_'] ++ n ++ ['<', '/', 'i', '>']
          | none => [])
  | .literal .NONTERMINAL v name =>
    ['<', 'a', ' ', 'h', 'r', 'e', 'f', '=', '"', '#', 'b', 'n', 'f', '-'] ++ v ++ ['"', '>'] ++
      v ++ ['<', '/', 'a', '>'] ++
      (match name with
       | some n => ['<', 'i', '>', '_'] ++ n ++ ['<', '/', 'i', '>']
       | none => [])

/-- The `first` flag loops of `write_expansion`: members separated by
`sep`. -/
def write_members (sep : List Char) : List BNF_Expansion → List Char
  | [] => []
  | [m] => write_expansion m
  | m :: ms => write_expansion m ++ sep ++ write_members sep ms

end

/-- The anchor and head `<a name="bnf-X"></a>X ::= ` written by
`write_production`. -/
def production_head (production : List Char) : List Char :=
  ['<', 'a', ' ', 'n', 'a', 'm', 'e', '=', '"', 'b', 'n', 'f', '-'] ++ production ++
    ['"', '>', '<', '/', 'a', '>'] ++ production ++ [' ', ':', ':', '=', ' ']

/-- Function `write_production`: look up the production (a missing key
is a Python `KeyError`), then write the head followed by the expansion;
a top-level `BNF_Alternatives` is written one alternative per line, the
continuation lines indented by `len(production) + 3` spaces before the
`"| "` (reading `members[0]` of an empty list would be an
`IndexError`). -/
def write_production (production : List Char) (p : BNF_ParserState) :
    Except GenError (List Char) :=
  match lookupAssoc p.productions production with
  | none => .error .crash
  | some n_exp =>
    match n_exp with
    | .alternatives [] => .error .crash
    | .alternatives (m :: ms) =>
      .ok (production_head production ++ write_expansion m ++ ['\n'] ++
        (ms.map fun n_member =>
          List.replicate (production.length + 3) ' ' ++ '|' :: ' ' :: write_expansion n_member ++ ['\n']).flatten)
    | e => .ok (production_head production ++ write_expansion e ++ ['\n'])

/-!
## Iterated calls of the lexer (for the end-of-fragment behaviour)
-/

/-- The lexer state after `n` successful calls of `token` (`none` once a
call has raised). -/
def stateAfter (s : BNF_Lexer) : Nat → Option BNF_Lexer
  | 0 => some s
  | n + 1 =>
    match stateAfter s n with
    | none => none
    | some s' =>
      match s'.token with
      | .error _ => none
      | .ok (_, s'') => some s''

/-- Call number `n` (counting from 0) returns without raising. -/
def callSucceeds (s : BNF_Lexer) (n : Nat) : Bool :=
  match stateAfter s n with
  | none => false
  | some s' =>
    match s'.token with
    | .ok _ => true
    | .error _ => false

/-- Call number `n` emits the synthesized end-of-fragment RULE_END: it
returns a token and flips `eof_token_generated` from false to true. -/
def emitsEofAt (s : BNF_Lexer) (n : Nat) : Bool :=
  match stateAfter s n with
  | none => false
  | some s' =>
    !s'.eof_token_generated &&
      (match s'.token with
       | .ok (some _, s'') => s''.eof_token_generated
       | _ => false)

/-- Call number `n` returns the `None` end marker. -/
def returnsNoneAt (s : BNF_Lexer) (n : Nat) : Bool :=
  match stateAfter s n with
  | none => false
  | some s' =>
    match s'.token with
    | .ok (none, _) => true
    | _ => false

/-!
## Well-formedness predicates

`fragShape` / `strShape` / `expShape` describe the trees that
`parse_fragment` / `parse_string` / `parse_expansion` can return;
`minTwoInv` is the `len(members) >= 2` constructor invariant of
`BNF_String` / `BNF_Alternatives` over a whole tree; `leavesOK`
records the facts about literal payloads guaranteed by the lexer;
`noHtml` singles out the trees whose canonical rendering is plain BNF
text (no cross-reference links, no suffix markers).
-/

/-- Characters allowed in a suffix-free TERMINAL token value: letters or
underscore, not lowercase. -/
def goodWordChar (c : Char) : Bool :=
  (c.isAlpha || c = '_') && !c.isLower

/-- Shape of a suffix-free TERMINAL token value: nonempty, uppercase
first character, all characters letters or underscore with no lowercase
among them. -/
def goodWord : List Char → Bool
  | [] => false
  | c :: cs => c.isUpper && goodWordChar c && cs.all goodWordChar

/-- Facts about a token's payload guaranteed by the lexer. -/
def tokenWF : BNF_Token → Bool
  | .TERMINAL b none => goodWord b
  | .TERMINAL _ (some _) => true
  | .SYMBOL v => v.all (· ≠ squote)
  | _ => true

mutual

/-- Trees returnable by `parse_fragment`. -/
def fragShape : BNF_Expansion → Bool
  | .literal _ _ _ => true
  | .optional e => expShape e
  | .one_or_more e => expShape e
  | .string _ => false
  | .alternatives _ => false

/-- Trees returnable by `parse_string`. -/
def strShape : BNF_Expansion → Bool
  | .string ms => 2 ≤ ms.length && fragShapeAll ms
  | .alternatives _ => false
  | .literal _ _ _ => true
  | .optional e => expShape e
  | .one_or_more e => expShape e

/-- Trees returnable by `parse_expansion`. -/
def expShape : BNF_Expansion → Bool
  | .alternatives ms => 2 ≤ ms.length && strShapeAll ms
  | .string ms => 2 ≤ ms.length && fragShapeAll ms
  | .literal _ _ _ => true
  | .optional e => expShape e
  | .one_or_more e => expShape e

def fragShapeAll : List BNF_Expansion → Bool
  | [] => true
  | m :: ms => fragShape m && fragShapeAll ms

def strShapeAll : List BNF_Expansion → Bool
  | [] => true
  | m :: ms => strShape m && strShapeAll ms

end

mutual

/-- Every `BNF_String` and every `BNF_Alternatives` node of the tree has
at least two members (the constructor assertion of the source). -/
def minTwoInv : BNF_Expansion → Bool
  | .literal _ _ _ => true
  | .optional e => minTwoInv e
  | .one_or_more e => minTwoInv e
  | .string ms => 2 ≤ ms.length && minTwoAll ms
  | .alternatives ms => 2 ≤ ms.length && minTwoAll ms

def minTwoAll : List BNF_Expansion → Bool
  | [] => true
  | m :: ms => minTwoInv m && minTwoAll ms

end

mutual

/-- Leaf payload facts: suffix-free TERMINAL values are `goodWord`s and
SYMBOL values are suffix-free and contain no quote character. -/
def leavesOK : BNF_Expansion → Bool
  | .literal .TERMINAL v name => (match name with | none => goodWord v | some _ => true)
  | .literal .SYMBOL v name => name.isNone && v.all (· ≠ squote)
  | .literal .NONTERMINAL _ _ => true
  | .optional e => leavesOK e
  | .one_or_more e => leavesOK e
  | .string ms => leavesOKAll ms
  | .alternatives ms => leavesOKAll ms

def leavesOKAll : List BNF_Expansion → Bool
  | [] => true
  | m :: ms => leavesOK m && leavesOKAll ms

end

mutual

/-- Trees whose canonical rendering is plain BNF text: no NONTERMINAL
leaves (rendered as hyperlinks) and no TERMINAL suffixes (rendered as
italic markers). -/
def noHtml : BNF_Expansion → Bool
  | .literal .NONTERMINAL _ _ => false
  | .literal .TERMINAL _ name => name.isNone
  | .literal .SYMBOL _ _ => true
  | .optional e => noHtml e
  | .one_or_more e => noHtml e
  | .string ms => noHtmlAll ms
  | .alternatives ms => noHtmlAll ms

def noHtmlAll : List BNF_Expansion → Bool
  | [] => true
  | m :: ms => noHtml m && noHtmlAll ms

end

/-!
## Atoms of the canonical rendering

The canonical rendering of an expansion containing no cross-reference
links and no suffix markers is a list of atoms (quoted symbols, terminal
words, brackets, bars) joined by single spaces; `atomsOf` computes that
list, `atomToken` the token each atom lexes to.
-/

inductive BNF_Atom where
  | sym (v : List Char)
  | word (w : List Char)
  | sbra
  | sket
  | cbra
  | cket
  | alt
deriving DecidableEq, Repr

/-- The text of one atom in the canonical rendering. -/
def atomText : BNF_Atom → List Char
  | .sym v => squote :: v ++ [squote]
  | .word w => w
  | .sbra => ['[']
  | .sket => [']']
  | .cbra => ['{']
  | .cket => ['}']
  | .alt => ['|']

/-- The token an atom lexes back to. -/
def atomToken : BNF_Atom → BNF_Token
  | .sym v => .SYMBOL v
  | .word w => .TERMINAL w none
  | .sbra => .S_BRA
  | .sket => .S_KET
  | .cbra => .C_BRA
  | .cket => .C_KET
  | .alt => .ALTERNATIVE

/-- Atoms that re-lex as a single token: quote-free symbol bodies and
good terminal words. -/
def goodAtom : BNF_Atom → Bool
  | .sym v => v.all (· ≠ squote)
  | .word w => goodWord w
  | _ => true

mutual

/-- The atom list of the canonical rendering of an expansion (meaningful
for `noHtml` trees, whose rendering is exactly the atom texts joined by
single spaces). -/
def atomsOf : BNF_Expansion → List BNF_Atom
  | .literal .SYMBOL v _ => [.sym v]
  | .literal .TERMINAL v _ => [.word v]
  | .literal .NONTERMINAL v _ => [.word v]
  | .optional e => .sbra :: (atomsOf e ++ [.sket])
  | .one_or_more e => .cbra :: (atomsOf e ++ [.cket])
  | .string ms => atomsJoin [] ms
  | .alternatives ms => atomsJoin [.alt] ms

/-- Member atom lists joined by a separator atom list. -/
def atomsJoin (sep : List BNF_Atom) : List BNF_Expansion → List BNF_Atom
  | [] => []
  | [m] => atomsOf m
  | m :: ms => atomsOf m ++ sep ++ atomsJoin sep ms

end

/-- The token stream the canonical rendering of an expansion re-lexes to
(without the final synthesized RULE_END). -/
def tokensOf (e : BNF_Expansion) : List BNF_Token :=
  (atomsOf e).map atomToken

/-- Atom texts joined by single spaces: the canonical rendering of the
atom list (`write_expansion` produces exactly this for `noHtml` trees). -/
def atomsText : List BNF_Atom → List Char
  | [] => []
  | [a] => atomText a
  | a :: as => atomText a ++ ' ' :: atomsText as

/-- The member-collapsing returns of `parse_string` / `parse_expansion`:
a single collected member is returned unwrapped, otherwise the node `mk`
(`BNF_String` resp. `BNF_Alternatives`) is built over the members. -/
def collapse_members (mk : List BNF_Expansion → BNF_Expansion) :
    List BNF_Expansion → BNF_Expansion
  | [e] => e
  | l => mk l

/-- The token stream still pending when the alternative loop of
`parse_expansion` has `ms` members left to collect: each remaining member
is preceded by its ALTERNATIVE separator token. -/
def altLoopToks : List BNF_Expansion → List BNF_Token
  | [] => []
  | m :: ms => .ALTERNATIVE :: (atomsJoin [.alt] (m :: ms)).map atomToken

/-- Behaviour of `parse_fragment` on the re-lexed canonical token stream
of a fragment-shaped tree: the same tree is rebuilt and exactly the
tree's tokens are consumed. -/
abbrev InvFrag (e : BNF_Expansion) : Prop :=
  fragShape e = true → leavesOK e = true → noHtml e = true →
  ∀ (ct : Option BNF_Token) (rest : List BNF_Token) (fuel : Nat),
    3 * (atomsOf e).length ≤ fuel →
    ∃ ct', parse_fragment fuel (ct, tokensOf e ++ rest) = .ok (e, (ct', rest))

/-- Behaviour of `parse_string` on the re-lexed canonical token stream of
a string-shaped tree followed by a token that starts no fragment. -/
abbrev InvStr (e : BNF_Expansion) : Prop :=
  strShape e = true → leavesOK e = true → noHtml e = true →
  ∀ (ct : Option BNF_Token) (t : BNF_Token) (ts : List BNF_Token) (fuel : Nat),
    t.kind ∉ fragmentStartKinds →
    3 * (atomsOf e).length + 1 ≤ fuel →
    ∃ ct', parse_string fuel (ct, tokensOf e ++ t :: ts) = .ok (e, (ct', t :: ts))

/-- Behaviour of `parse_expansion` on the re-lexed canonical token stream
of an expansion-shaped tree followed by a stopping token. -/
abbrev InvExp (e : BNF_Expansion) : Prop :=
  expShape e = true → leavesOK e = true → noHtml e = true →
  ∀ (ct : Option BNF_Token) (t : BNF_Token) (ts : List BNF_Token) (fuel : Nat),
    t.kind ∉ fragmentStartKinds → t.kind ≠ .ALTERNATIVE →
    3 * (atomsOf e).length + 2 ≤ fuel →
    ∃ ct', parse_expansion fuel (ct, tokensOf e ++ t :: ts) = .ok (e, (ct', t :: ts))

/-- Behaviour of the fragment-collection loop of `parse_string` with the
tokens of the members `ms` still pending. -/
abbrev StrLoopInv (ms : List BNF_Expansion) : Prop :=
  fragShapeAll ms = true → leavesOKAll ms = true → noHtmlAll ms = true →
  ∀ (rv : List BNF_Expansion) (ct : Option BNF_Token) (t : BNF_Token)
      (ts : List BNF_Token) (fuel : Nat),
    rv ≠ [] → t.kind ∉ fragmentStartKinds →
    3 * (atomsJoin [] ms).length + 1 ≤ fuel →
    ∃ ct', parse_string_loop fuel rv (ct, (atomsJoin [] ms).map atomToken ++ t :: ts) =
      .ok (collapse_members .string (rv ++ ms), (ct', t :: ts))

/-- Behaviour of the alternative-collection loop of `parse_expansion`
with the members `ms` (each preceded by its ALTERNATIVE) still pending. -/
abbrev AltLoopInv (ms : List BNF_Expansion) : Prop :=
  strShapeAll ms = true → leavesOKAll ms = true → noHtmlAll ms = true →
  ∀ (rv : List BNF_Expansion) (ct : Option BNF_Token) (t : BNF_Token)
      (ts : List BNF_Token) (fuel : Nat),
    rv ≠ [] → t.kind ∉ fragmentStartKinds → t.kind ≠ .ALTERNATIVE →
    3 * (atomsJoin [.alt] ms).length + 2 ≤ fuel →
    ∃ ct', parse_expansion_loop fuel rv (ct, altLoopToks ms ++ t :: ts) =
      .ok (collapse_members .alternatives (rv ++ ms), (ct', t :: ts))

/-- Behaviour of `parse_string` on the joined canonical token streams of
the members `ms` (the body of a `BNF_String` built from them). -/
abbrev StrFullInv (ms : List BNF_Expansion) : Prop :=
  ms ≠ [] → fragShapeAll ms = true → leavesOKAll ms = true → noHtmlAll ms = true →
  ∀ (ct : Option BNF_Token) (t : BNF_Token) (ts : List BNF_Token) (fuel : Nat),
    t.kind ∉ fragmentStartKinds →
    3 * (atomsJoin [] ms).length + 1 ≤ fuel →
    ∃ ct', parse_string fuel (ct, (atomsJoin [] ms).map atomToken ++ t :: ts) =
      .ok (collapse_members .string ms, (ct', t :: ts))

/-- Behaviour of `parse_expansion` on the ALTERNATIVE-joined canonical
token streams of the members `ms` (the body of a `BNF_Alternatives`
built from them). -/
abbrev AltFullInv (ms : List BNF_Expansion) : Prop :=
  ms ≠ [] → strShapeAll ms = true → leavesOKAll ms = true → noHtmlAll ms = true →
  ∀ (ct : Option BNF_Token) (t : BNF_Token) (ts : List BNF_Token) (fuel : Nat),
    t.kind ∉ fragmentStartKinds → t.kind ≠ .ALTERNATIVE →
    3 * (atomsJoin [.alt] ms).length + 2 ≤ fuel →
    ∃ ct', parse_expansion fuel (ct, (atomsJoin [.alt] ms).map atomToken ++ t :: ts) =
      .ok (collapse_members .alternatives ms, (ct', t :: ts))

/-!
## Concrete example inputs used by witnesses and counterexamples
-/

/-- The triple-quote marker. -/
def tq3 : List Char := [squote, squote, squote]

/-- Raw field text starting, but not ending, with the triple-quote
marker: the marker followed by `foo ::= BAR  xx`. -/
def exRawTerm : List Char := tq3 ++ ("foo ::= BAR  xx").toList

/-- The symbol table produced by parsing `exRawTerm` (object name `g`). -/
def exStateTerm : BNF_ParserState :=
  ⟨[], [(['f', 'o', 'o'], .literal .TERMINAL ['B', 'A', 'R'] none)],
    [(['g'], [['f', 'o', 'o']])]⟩

/-- Raw field text: `foo ::= ` followed by two quoted symbols `a` and
`b`, wrapped in the triple-quote marker. -/
def exRawSyms : List Char :=
  tq3 ++ ("foo ::= ").toList ++ [squote, 'a', squote, ' ', squote, 'b', squote] ++ tq3

/-- The AST of the production in `exRawSyms`. -/
def exAstSyms : BNF_Expansion :=
  .string [.literal .SYMBOL ['a'] none, .literal .SYMBOL ['b'] none]

/-- The symbol table produced by parsing `exRawSyms` (object name `g`). -/
def exStateSyms : BNF_ParserState :=
  ⟨[], [(['f', 'o', 'o'], exAstSyms)], [(['g'], [['f', 'o', 'o']])]⟩

/-- Raw field text `foo ::= bar` wrapped in the triple-quote marker (a
production whose expansion is a nonterminal reference). -/
def exRawNT : List Char := tq3 ++ ("foo ::= bar").toList ++ tq3

/-- The AST of the production in `exRawNT`. -/
def exAstNT : BNF_Expansion := .literal .NONTERMINAL ['b', 'a', 'r'] none

/-- The symbol table produced by parsing `exRawNT` (object name `g`). -/
def exStateNT : BNF_ParserState :=
  ⟨[], [(['f', 'o', 'o'], exAstNT)], [(['g'], [['f', 'o', 'o']])]⟩

/-- Raw field text with nesting depth two (a repetition inside a
repetition) wrapped in the triple-quote marker. -/
def exRawNested : List Char :=
  tq3 ++ ("foo ::= ").toList ++ ['{', '{', squote, 'a', squote, '}', '}'] ++ tq3

/-- The AST of the production in `exRawNested`. -/
def exAstNested : BNF_Expansion :=
  .one_or_more (.one_or_more (.literal .SYMBOL ['a'] none))

/-- The symbol table produced by parsing `exRawNested` (object name `g`). -/
def exStateNested : BNF_ParserState :=
  ⟨[], [(['f', 'o', 'o'], exAstNested)], [(['g'], [['f', 'o', 'o']])]⟩

/-!
## Association-list lemmas
-/

theorem lookupAssoc_append_left {α : Type} [DecidableEq α] {β : Type}
    (l₁ l₂ : List (α × β)) (k : α) (h : (lookupAssoc l₁ k).isSome) :
    lookupAssoc (l₁ ++ l₂) k = lookupAssoc l₁ k := by
  induction l₁ with
  | nil => simp [lookupAssoc] at h
  | cons hd tl ih =>
    by_cases hk : hd.1 = k
    · simp [lookupAssoc, hk]
    · simp only [lookupAssoc, hk, if_false, List.cons_append] at h ⊢
      exact ih h

theorem lookupAssoc_append_right {α : Type} [DecidableEq α] {β : Type}
    (l₁ l₂ : List (α × β)) (k : α) (h : lookupAssoc l₁ k = none) :
    lookupAssoc (l₁ ++ l₂) k = lookupAssoc l₂ k := by
  induction l₁ with
  | nil => simp [lookupAssoc]
  | cons hd tl ih =>
    by_cases hk : hd.1 = k
    · simp [lookupAssoc, hk] at h
    · simp only [lookupAssoc, hk, if_false, List.cons_append] at h ⊢
      exact ih h

theorem lookupAssoc_isSome_of_mem {α : Type} [DecidableEq α] {β : Type}
    (l : List (α × β)) (kv : α × β) (h : kv ∈ l) : (lookupAssoc l kv.1).isSome := by
  induction l with
  | nil => simp at h
  | cons hd tl ih =>
    by_cases hk : hd.1 = kv.1
    · simp [lookupAssoc, hk]
    · simp only [lookupAssoc, hk, if_false]
      rcases List.mem_cons.mp h with h | h
      · subst h; simp at hk
      · exact ih h

theorem lookupAssoc_set_same {α : Type} [DecidableEq α] {β : Type}
    (l : List (α × β)) (k : α) (v : β) : lookupAssoc (setAssoc l k v) k = some v := by
  induction l with
  | nil => simp [setAssoc, lookupAssoc]
  | cons hd tl ih =>
    by_cases hk : hd.1 = k
    · simp [setAssoc, hk, lookupAssoc]
    · simp [setAssoc, hk, lookupAssoc, ih]

theorem lookupAssoc_set_other {α : Type} [DecidableEq α] {β : Type}
    (l : List (α × β)) (k k' : α) (v : β) (h : k ≠ k') :
    lookupAssoc (setAssoc l k v) k' = lookupAssoc l k' := by
  induction l with
  | nil => simp [setAssoc, lookupAssoc, h]
  | cons hd tl ih =>
    by_cases hk : hd.1 = k
    · simp [setAssoc, hk, lookupAssoc, h]
    · simp [setAssoc, hk, lookupAssoc, ih]

theorem setAssoc_set_same {α : Type} [DecidableEq α] {β : Type}
    (l : List (α × β)) (k : α) (v w : β) :
    setAssoc (setAssoc l k v) k w = setAssoc l k w := by
  induction l with
  | nil => simp [setAssoc]
  | cons hd tl ih =>
    by_cases hk : hd.1 = k
    · simp [setAssoc, hk]
    · simp [setAssoc, hk, ih]

/-!
## Basic parser lemmas
-/

theorem pmatch_ok {k : TokKind} {st st' : Toks} (h : pmatch k st = .ok st') :
    ∃ t ts, st.2 = t :: ts ∧ t.kind = k ∧ st' = (some t, ts) := by
  unfold pmatch at h
  rcases st with ⟨ct, ts⟩
  cases ts with
  | nil =>
    cases ct <;> simp at h
  | cons t rest =>
    simp only at h
    split at h
    · simp at h
    · rename_i hk
      simp only [ne_eq, not_not] at hk
      exact ⟨t, rest, rfl, hk, by simpa using h.symm⟩

theorem fragShape_strShape {e : BNF_Expansion} (h : fragShape e = true) : strShape e = true := by
  cases e <;> simp_all [fragShape, strShape]

theorem strShape_expShape {e : BNF_Expansion} (h : strShape e = true) : expShape e = true := by
  cases e <;> simp_all [strShape, expShape]

theorem fragShapeAll_append (l₁ l₂ : List BNF_Expansion) :
    fragShapeAll (l₁ ++ l₂) = (fragShapeAll l₁ && fragShapeAll l₂) := by
  induction l₁ with
  | nil => simp [fragShapeAll]
  | cons m ms ih => simp [fragShapeAll, ih, Bool.and_assoc]

theorem strShapeAll_append (l₁ l₂ : List BNF_Expansion) :
    strShapeAll (l₁ ++ l₂) = (strShapeAll l₁ && strShapeAll l₂) := by
  induction l₁ with
  | nil => simp [strShapeAll]
  | cons m ms ih => simp [strShapeAll, ih, Bool.and_assoc]

theorem leavesOKAll_append (l₁ l₂ : List BNF_Expansion) :
    leavesOKAll (l₁ ++ l₂) = (leavesOKAll l₁ && leavesOKAll l₂) := by
  induction l₁ with
  | nil => simp [leavesOKAll]
  | cons m ms ih => simp [leavesOKAll, ih, Bool.and_assoc]



theorem except_bind_ok {α β : Type} {x : Except GenError α} {f : α → Except GenError β} {b : β} :
    (x >>= f) = .ok b ↔ ∃ a, x = .ok a ∧ f a = .ok b := by
  cases x <;> simp [Bind.bind, Except.bind]

theorem parse_string_loop_eq (fuel : Nat) (rv : List BNF_Expansion) (st : Toks) :
    parse_string_loop (fuel + 1) rv st =
      (match st.2 with
      | [] => .error .crash
      | t :: _ =>
        if t.kind ∈ fragmentStartKinds then do
          let (f, st) ← parse_fragment fuel st
          parse_string_loop fuel (rv ++ [f]) st
        else
          match rv with
          | [e] => .ok (e, st)
          | _ => .ok (.string rv, st)) := rfl

theorem parse_expansion_loop_eq (fuel : Nat) (rv : List BNF_Expansion) (st : Toks) :
    parse_expansion_loop (fuel + 1) rv st =
      (if peekKind .ALTERNATIVE st then do
        let st ← pmatch .ALTERNATIVE st
        let (s, st) ← parse_string fuel st
        parse_expansion_loop fuel (rv ++ [s]) st
      else
        match rv with
        | [e] => .ok (e, st)
        | _ => .ok (.alternatives rv, st)) := rfl

theorem parse_inv : ∀ fuel : Nat,
    (∀ st e st', parse_fragment fuel st = .ok (e, st') →
      (∀ t ∈ st.2, tokenWF t = true) →
      fragShape e = true ∧ leavesOK e = true ∧ st'.2 <:+ st.2) ∧
    (∀ st e st', parse_string fuel st = .ok (e, st') →
      (∀ t ∈ st.2, tokenWF t = true) →
      strShape e = true ∧ leavesOK e = true ∧ st'.2 <:+ st.2) ∧
    (∀ rv st e st', parse_string_loop fuel rv st = .ok (e, st') →
      (∀ t ∈ st.2, tokenWF t = true) →
      rv ≠ [] → fragShapeAll rv = true → leavesOKAll rv = true →
      strShape e = true ∧ leavesOK e = true ∧ st'.2 <:+ st.2) ∧
    (∀ st e st', parse_expansion fuel st = .ok (e, st') →
      (∀ t ∈ st.2, tokenWF t = true) →
      expShape e = true ∧ leavesOK e = true ∧ st'.2 <:+ st.2) ∧
    (∀ rv st e st', parse_expansion_loop fuel rv st = .ok (e, st') →
      (∀ t ∈ st.2, tokenWF t = true) →
      rv ≠ [] → strShapeAll rv = true → leavesOKAll rv = true →
      expShape e = true ∧ leavesOK e = true ∧ st'.2 <:+ st.2) := by
  intro fuel
  induction fuel with
  | zero =>
    refine ⟨?_, ?_, ?_, ?_, ?_⟩ <;> intros <;>
      simp_all [parse_fragment, parse_string, parse_string_loop, parse_expansion,
        parse_expansion_loop]
  | succ n ih =>
    obtain ⟨ihF, ihS, ihSL, ihE, ihEL⟩ := ih
    refine ⟨?_, ?_, ?_, ?_, ?_⟩
    -- parse_fragment
    · intro st e st' h hwf
      unfold parse_fragment at h
      split at h
      · exact absurd h (by simp)
      · rename_i t rest hts
        split at h
        · -- C_BRA
          rw [except_bind_ok] at h
          obtain ⟨st₁, hm, h⟩ := h
          rw [except_bind_ok] at h
          obtain ⟨⟨rv, st₂⟩, he, h⟩ := h
          rw [except_bind_ok] at h
          obtain ⟨st₃, hk, h⟩ := h
          obtain ⟨rfl, rfl⟩ : BNF_Expansion.one_or_more rv = e ∧ st₃ = st' := by
            simpa using h
          obtain ⟨t₁, ts₁, hts₁, -, rfl⟩ := pmatch_ok hm
          have hwf₁ : ∀ x ∈ ts₁, tokenWF x = true := by
            intro x hx; exact hwf x (by rw [hts₁]; exact List.mem_cons_of_mem _ hx)
          obtain ⟨hsh, hlv, hsfx⟩ := ihE _ _ _ he hwf₁
          obtain ⟨t₂, ts₂, hts₂, -, rfl⟩ := pmatch_ok hk
          refine ⟨by simpa [fragShape] using hsh, by simpa [leavesOK] using hlv, ?_⟩
          have h1 : ts₂ <:+ st₂.2 := hts₂ ▸ List.suffix_cons t₂ ts₂
          have h2 : ts₁ <:+ st.2 := hts₁ ▸ List.suffix_cons t₁ ts₁
          exact (h1.trans hsfx).trans h2
        · split at h
          · -- S_BRA
            rw [except_bind_ok] at h
            obtain ⟨st₁, hm, h⟩ := h
            rw [except_bind_ok] at h
            obtain ⟨⟨rv, st₂⟩, he, h⟩ := h
            rw [except_bind_ok] at h
            obtain ⟨st₃, hk, h⟩ := h
            obtain ⟨rfl, rfl⟩ : BNF_Expansion.optional rv = e ∧ st₃ = st' := by
              simpa using h
            obtain ⟨t₁, ts₁, hts₁, -, rfl⟩ := pmatch_ok hm
            have hwf₁ : ∀ x ∈ ts₁, tokenWF x = true := by
              intro x hx; exact hwf x (by rw [hts₁]; exact List.mem_cons_of_mem _ hx)
            obtain ⟨hsh, hlv, hsfx⟩ := ihE _ _ _ he hwf₁
            obtain ⟨t₂, ts₂, hts₂, -, rfl⟩ := pmatch_ok hk
            refine ⟨by simpa [fragShape] using hsh, by simpa [leavesOK] using hlv, ?_⟩
            have h1 : ts₂ <:+ st₂.2 := hts₂ ▸ List.suffix_cons t₂ ts₂
            have h2 : ts₁ <:+ st.2 := hts₁ ▸ List.suffix_cons t₁ ts₁
            exact (h1.trans hsfx).trans h2
          · split at h
            · -- TERMINAL
              rw [except_bind_ok] at h
              obtain ⟨st₁, hm, h⟩ := h
              obtain ⟨t₁, ts₁, hts₁, -, rfl⟩ := pmatch_ok hm
              split at h
              · rename_i base suffix hct
                obtain ⟨rfl, rfl⟩ :
                    BNF_Expansion.literal .TERMINAL base suffix = e ∧ (some t₁, ts₁) = st' := by
                  simpa using h
                have ht₁ : t₁ = .TERMINAL base suffix := by simpa using hct
                have hwt : tokenWF t₁ = true :=
                  hwf t₁ (by rw [hts₁]; exact List.mem_cons_self _ _)
                refine ⟨rfl, ?_, hts₁ ▸ List.suffix_cons t₁ ts₁⟩
                cases suffix with
                | none => simpa [leavesOK, tokenWF, ht₁] using hwt
                | some s => simp [leavesOK]
              · exact absurd h (by simp)
            · split at h
              · -- NONTERMINAL
                rw [except_bind_ok] at h
                obtain ⟨st₁, hm, h⟩ := h
                obtain ⟨t₁, ts₁, hts₁, -, rfl⟩ := pmatch_ok hm
                split at h
                · rename_i base suffix hct
                  obtain ⟨rfl, rfl⟩ :
                      BNF_Expansion.literal .NONTERMINAL base suffix = e ∧ (some t₁, ts₁) = st' := by
                    simpa using h
                  exact ⟨rfl, by simp [leavesOK], hts₁ ▸ List.suffix_cons t₁ ts₁⟩
                · exact absurd h (by simp)
              · split at h
                · -- SYMBOL
                  rw [except_bind_ok] at h
                  obtain ⟨st₁, hm, h⟩ := h
                  obtain ⟨t₁, ts₁, hts₁, -, rfl⟩ := pmatch_ok hm
                  split at h
                  · rename_i v hct
                    obtain ⟨rfl, rfl⟩ :
                        BNF_Expansion.literal .SYMBOL v none = e ∧ (some t₁, ts₁) = st' := by
                      simpa using h
                    have ht₁ : t₁ = .SYMBOL v := by simpa using hct
                    have hwt : tokenWF t₁ = true :=
                      hwf t₁ (by rw [hts₁]; exact List.mem_cons_self _ _)
                    refine ⟨rfl, ?_, hts₁ ▸ List.suffix_cons t₁ ts₁⟩
                    simpa [leavesOK, tokenWF, ht₁] using hwt
                  · exact absurd h (by simp)
                · exact absurd h (by simp)
    -- parse_string
    · intro st e st' h hwf
      unfold parse_string at h
      rw [except_bind_ok] at h
      obtain ⟨⟨f, st₁⟩, hf, h⟩ := h
      obtain ⟨hsh, hlv, hsfx⟩ := ihF _ _ _ hf hwf
      have hwf₁ : ∀ x ∈ st₁.2, tokenWF x = true := fun x hx => hwf x (hsfx.subset hx)
      have := ihSL [f] _ _ _ h hwf₁ (by simp)
        (by simp [fragShapeAll, hsh]) (by simp [leavesOKAll, hlv])
      exact ⟨this.1, this.2.1, this.2.2.trans hsfx⟩
    -- parse_string_loop
    · intro rv st e st' h hwf hne hfr hlv
      rw [parse_string_loop_eq] at h
      split at h
      · exact absurd h (by simp)
      · rename_i t rest hts
        split at h
        · -- continue with another fragment
          rw [except_bind_ok] at h
          obtain ⟨⟨f, st₁⟩, hf, h⟩ := h
          obtain ⟨hsh, hlv', hsfx⟩ := ihF _ _ _ hf hwf
          have hwf₁ : ∀ x ∈ st₁.2, tokenWF x = true := fun x hx => hwf x (hsfx.subset hx)
          have := ihSL (rv ++ [f]) _ _ _ h hwf₁ (by simp)
            (by simp [fragShapeAll_append, hfr, fragShapeAll, hsh])
            (by simp [leavesOKAll_append, hlv, leavesOKAll, hlv'])
          exact ⟨this.1, this.2.1, this.2.2.trans hsfx⟩
        · -- stop
          rcases rv with - | ⟨a, rest'⟩
          · exact absurd rfl hne
          rcases rest' with - | ⟨b, l⟩
          · obtain ⟨rfl, rfl⟩ : a = e ∧ st = st' := by simpa using h
            simp only [fragShapeAll, Bool.and_true] at hfr
            simp only [leavesOKAll, Bool.and_true] at hlv
            exact ⟨fragShape_strShape hfr, hlv, List.suffix_refl _⟩
          · obtain ⟨rfl, rfl⟩ : BNF_Expansion.string (a :: b :: l) = e ∧ st = st' := by
              simpa using h
            refine ⟨?_, by simpa [leavesOK] using hlv, List.suffix_refl _⟩
            simp only [strShape, hfr, Bool.and_true]
            simp
    -- parse_expansion
    · intro st e st' h hwf
      unfold parse_expansion at h
      rw [except_bind_ok] at h
      obtain ⟨⟨s, st₁⟩, hs, h⟩ := h
      obtain ⟨hsh, hlv, hsfx⟩ := ihS _ _ _ hs hwf
      have hwf₁ : ∀ x ∈ st₁.2, tokenWF x = true := fun x hx => hwf x (hsfx.subset hx)
      have := ihEL [s] _ _ _ h hwf₁ (by simp)
        (by simp [strShapeAll, hsh]) (by simp [leavesOKAll, hlv])
      exact ⟨this.1, this.2.1, this.2.2.trans hsfx⟩
    -- parse_expansion_loop
    · intro rv st e st' h hwf hne hstr hlv
      rw [parse_expansion_loop_eq] at h
      split at h
      · -- continue with another string
        rw [except_bind_ok] at h
        obtain ⟨st₁, hm, h⟩ := h
        rw [except_bind_ok] at h
        obtain ⟨⟨s, st₂⟩, hs, h⟩ := h
        obtain ⟨t₁, ts₁, hts₁, -, rfl⟩ := pmatch_ok hm
        have hwf₁ : ∀ x ∈ ts₁, tokenWF x = true := by
          intro x hx; exact hwf x (by rw [hts₁]; exact List.mem_cons_of_mem _ hx)
        obtain ⟨hsh, hlv', hsfx⟩ := ihS _ _ _ hs hwf₁
        have hwf₂ : ∀ x ∈ st₂.2, tokenWF x = true := fun x hx => hwf₁ x (hsfx.subset hx)
        have := ihEL (rv ++ [s]) _ _ _ h hwf₂ (by simp)
          (by simp [strShapeAll_append, hstr, strShapeAll, hsh])
          (by simp [leavesOKAll_append, hlv, leavesOKAll, hlv'])
        refine ⟨this.1, this.2.1, ?_⟩
        have h2 : ts₁ <:+ st.2 := hts₁ ▸ List.suffix_cons t₁ ts₁
        exact (this.2.2.trans hsfx).trans h2
      · -- stop
        rcases rv with - | ⟨a, rest'⟩
        · exact absurd rfl hne
        rcases rest' with - | ⟨b, l⟩
        · obtain ⟨rfl, rfl⟩ : a = e ∧ st = st' := by simpa using h
          simp only [strShapeAll, Bool.and_true] at hstr
          simp only [leavesOKAll, Bool.and_true] at hlv
          exact ⟨strShape_expShape hstr, hlv, List.suffix_refl _⟩
        · obtain ⟨rfl, rfl⟩ : BNF_Expansion.alternatives (a :: b :: l) = e ∧ st = st' := by
            simpa using h
          refine ⟨?_, by simpa [leavesOK] using hlv, List.suffix_refl _⟩
          simp only [expShape, hstr, Bool.and_true]
          simp

theorem lookupAssoc_append_none {α : Type} [DecidableEq α] {β : Type}
    (l₁ l₂ : List (α × β)) (k : α) :
    lookupAssoc (l₁ ++ l₂) k = none ↔ lookupAssoc l₁ k = none ∧ lookupAssoc l₂ k = none := by
  induction l₁ with
  | nil => simp [lookupAssoc]
  | cons hd tl ih =>
    by_cases hk : hd.1 = k
    · simp [lookupAssoc, hk]
    · simp [lookupAssoc, hk, ih]

theorem parse_production_ok {fuel : Nat} {p : BNF_ParserState} {st : Toks}
    {nm : List Char} {p' : BNF_ParserState} {st' : Toks}
    (h : parse_production fuel p st = .ok (nm, p', st'))
    (hwf : ∀ t ∈ st.2, tokenWF t = true) :
    ∃ exp, p' = ⟨p.terminals, p.productions ++ [(nm, exp)], p.bundles⟩ ∧
      lookupAssoc p.productions nm = none ∧
      expShape exp = true ∧ leavesOK exp = true ∧ st'.2 <:+ st.2 := by
  unfold parse_production at h
  rw [except_bind_ok] at h
  obtain ⟨st₁, hm, h⟩ := h
  obtain ⟨t₁, ts₁, hts₁, -, rfl⟩ := pmatch_ok hm
  split at h
  · rename_i prodName suffix hct
    split at h
    · exact absurd h (by simp)
    · rename_i hdup
      rw [except_bind_ok] at h
      obtain ⟨st₂, hk, h⟩ := h
      rw [except_bind_ok] at h
      obtain ⟨⟨exp, st₃⟩, he, h⟩ := h
      obtain ⟨rfl, rfl, rfl⟩ : prodName = nm ∧
          (⟨p.terminals, p.productions ++ [(prodName, exp)], p.bundles⟩ : BNF_ParserState) = p' ∧
          st₃ = st' := by
        simpa using h
      obtain ⟨t₂, ts₂, hts₂, -, rfl⟩ := pmatch_ok hk
      have hts₂' : ts₁ = t₂ :: ts₂ := hts₂
      have hwf₁ : ∀ x ∈ ts₁, tokenWF x = true := by
        intro x hx; exact hwf x (by rw [hts₁]; exact List.mem_cons_of_mem _ hx)
      have hwf₂ : ∀ x ∈ ts₂, tokenWF x = true := by
        intro x hx; exact hwf₁ x (by rw [hts₂']; exact List.mem_cons_of_mem _ hx)
      obtain ⟨hsh, hlv, hsfx⟩ := (parse_inv fuel).2.2.2.1 _ _ _ he hwf₂
      refine ⟨exp, rfl, Option.not_isSome_iff_eq_none.mp hdup, hsh, hlv, ?_⟩
      have h1 : ts₂ <:+ ts₁ := hts₂' ▸ List.suffix_cons t₂ ts₂
      have h2 : ts₁ <:+ st.2 := hts₁ ▸ List.suffix_cons t₁ ts₁
      exact (hsfx.trans h1).trans h2
  · exact absurd h (by simp)

theorem parse_loop_ok : ∀ (fuel : Nat) (p : BNF_ParserState) (objName : List Char)
    (ct : Option BNF_Token) (toks : List BNF_Token) (p' : BNF_ParserState),
    parse_loop fuel p objName (ct, toks) = .ok p' →
    (∀ t ∈ toks, tokenWF t = true) →
    ∃ new : List (List Char × BNF_Expansion),
      p'.terminals = p.terminals ∧
      p'.productions = p.productions ++ new ∧
      (new.map Prod.fst).Nodup ∧
      (∀ pr ∈ new, lookupAssoc p.productions pr.1 = none ∧
        expShape pr.2 = true ∧ leavesOK pr.2 = true) ∧
      (toks = [] ↔ new = []) ∧
      (p'.bundles = if toks = [] then p.bundles
       else setAssoc p.bundles objName
         ((lookupAssoc p.bundles objName).getD [] ++ new.map Prod.fst)) := by
  intro fuel
  induction fuel with
  | zero =>
    intro p objName ct toks p' h hwf
    simp [parse_loop] at h
  | succ n ih =>
    intro p objName ct toks p' h hwf
    unfold parse_loop at h
    split at h
    · rename_i hts
      have hts' : toks = [] := hts
      obtain rfl : p = p' := by simpa using h
      exact ⟨[], rfl, by simp, by simp, by simp, by simp [hts'], by simp [hts']⟩
    · rename_i t rest hts
      have hts' : toks = t :: rest := hts
      rw [except_bind_ok] at h
      obtain ⟨⟨nm, p₁, st₁⟩, hp, h⟩ := h
      rw [except_bind_ok] at h
      obtain ⟨st₂, hk, h⟩ := h
      obtain ⟨exp, rfl, hfresh, hsh, hlv, hsfx⟩ := parse_production_ok hp hwf
      obtain ⟨t₂, ts₂, hts₂, -, rfl⟩ := pmatch_ok hk
      have hwf₁ : ∀ x ∈ ts₂, tokenWF x = true := by
        intro x hx
        have hx₁ : x ∈ st₁.2 := by rw [hts₂]; exact List.mem_cons_of_mem _ hx
        exact hwf x (hsfx.subset hx₁)
      obtain ⟨new', ht', hp', hnd', hfr', hemp', hb'⟩ := ih _ objName _ _ _ h hwf₁
      have hnm : ∀ pr ∈ new', pr.1 ≠ nm := by
        intro pr hpr hc
        have h1 := (hfr' pr hpr).1
        rw [lookupAssoc_append_none] at h1
        have h2 := h1.2
        simp [lookupAssoc, hc] at h2
      refine ⟨(nm, exp) :: new', by simpa using ht', ?_, ?_, ?_, by simp [hts'], ?_⟩
      · rw [hp']
        simp
      · refine List.nodup_cons.mpr ⟨?_, hnd'⟩
        intro hc
        obtain ⟨pr, hpr, hpr1⟩ := List.mem_map.mp hc
        exact hnm pr hpr hpr1
      · intro pr hpr
        rcases List.mem_cons.mp hpr with rfl | hpr'
        · exact ⟨hfresh, hsh, hlv⟩
        · have h1 := (hfr' pr hpr').1
          rw [lookupAssoc_append_none] at h1
          exact ⟨h1.1, (hfr' pr hpr').2⟩
      · -- bundles
        have hlook : lookupAssoc
            (setAssoc p.bundles objName ((lookupAssoc p.bundles objName).getD [] ++ [nm]))
            objName = some ((lookupAssoc p.bundles objName).getD [] ++ [nm]) :=
          lookupAssoc_set_same _ _ _
        by_cases hts₂e : ts₂ = []
        · have hnew' : new' = [] := hemp'.mp hts₂e
          subst hnew'
          rw [hb']
          simp [hts₂e, hts']
        · rw [hb']
          simp only [hts₂e, if_false, hts', hlook]
          simp only [Option.getD_some, setAssoc_set_same]
          simp [List.append_assoc]

/-!
## Lexer lemmas
-/

theorem except_bind_error {α β : Type} {x : Except GenError α} {f : α → Except GenError β}
    {e : GenError} :
    (x >>= f) = .error e ↔ x = .error e ∨ ∃ a, x = .ok a ∧ f a = .error e := by
  cases x <;> simp [Bind.bind, Except.bind]

theorem consume_word_spec : ∀ l : List Char,
    (∀ c ∈ (consume_word l).1, (c.isAlpha || c = '_') = true) ∧
    (consume_word l).1 ++ (consume_word l).2 = l := by
  intro l
  induction l with
  | nil => simp [consume_word]
  | cons c rs ih =>
    by_cases hc : (c.isAlpha || c = '_') = true
    · rcases hcw : consume_word rs with ⟨w, r⟩
      rw [hcw] at ih
      refine ⟨?_, ?_⟩
      · intro x hx
        simp only [consume_word, hc, if_true, hcw] at hx
        rcases List.mem_cons.mp hx with rfl | hx'
        · exact hc
        · exact ih.1 x hx'
      · simp only [consume_word, hc, if_true, hcw]
        simpa using ih.2
    · constructor
      · intro x hx
        simp only [consume_word, hc, if_false] at hx
        simp at hx
      · simp [consume_word, hc]

theorem consume_symbol_body_spec : ∀ l v r : List Char,
    consume_symbol_body l = some (v, r) →
    (∀ c ∈ v, c ≠ squote) ∧ v ++ squote :: r = l := by
  intro l
  induction l with
  | nil => intro v r h; simp [consume_symbol_body] at h
  | cons c rs ih =>
    intro v r h
    by_cases hc : c = squote
    · subst hc
      simp only [consume_symbol_body, if_pos rfl] at h
      obtain ⟨rfl, rfl⟩ : ([] : List Char) = v ∧ rs = r := by simpa using h
      simp
    · simp only [consume_symbol_body, if_neg hc] at h
      rcases hrec : consume_symbol_body rs with - | ⟨v', r'⟩
      · rw [hrec] at h; simp at h
      · rw [hrec] at h
        obtain ⟨rfl, rfl⟩ : c :: v' = v ∧ r' = r := by simpa using h
        obtain ⟨hv', hl'⟩ := ih v' r' hrec
        constructor
        · intro x hx
          rcases List.mem_cons.mp hx with rfl | hx'
          · exact hc
          · exact hv' x hx'
        · simp [← hl']

theorem split_terminal_value_none : ∀ (raw acc b : List Char),
    split_terminal_value acc raw = some (b, none) →
    b = acc ++ raw ∧ ∀ c ∈ raw, c.isLower = false := by
  intro raw
  induction raw with
  | nil =>
    intro acc b h
    obtain rfl : acc = b := by simpa [split_terminal_value] using h
    simp
  | cons c rs ih =>
    intro acc b h
    by_cases hc : c.isLower = true
    · simp only [split_terminal_value, hc, if_true] at h
      split at h <;> simp at h
    · have hc' : c.isLower = false := by simpa using hc
      simp only [split_terminal_value, hc', Bool.false_eq_true, if_false] at h
      obtain ⟨hb, hall⟩ := ih (acc ++ [c]) b h
      refine ⟨by simpa using hb, ?_⟩
      intro x hx
      rcases List.mem_cons.mp hx with rfl | hx'
      · exact hc'
      · exact hall x hx'

theorem split_nonterminal_value_none : ∀ (raw acc b : List Char),
    split_nonterminal_value acc raw = some (b, none) →
    b = acc ++ raw ∧ ∀ c ∈ raw, c.isUpper = false := by
  intro raw
  induction raw with
  | nil =>
    intro acc b h
    obtain rfl : acc = b := by simpa [split_nonterminal_value] using h
    simp
  | cons c rs ih =>
    intro acc b h
    by_cases hc : c.isUpper = true
    · simp only [split_nonterminal_value, hc, if_true] at h
      split at h <;> simp at h
    · have hc' : c.isUpper = false := by simpa using hc
      simp only [split_nonterminal_value, hc', Bool.false_eq_true, if_false] at h
      obtain ⟨hb, hall⟩ := ih (acc ++ [c]) b h
      refine ⟨by simpa using hb, ?_⟩
      intro x hx
      rcases List.mem_cons.mp hx with rfl | hx'
      · exact hc'
      · exact hall x hx'

theorem skip_whitespace_spec : ∀ (rest : List Char) (cc : Option Char) (n : Nat),
    n ≤ (skip_whitespace cc rest n).2.2 ∧
    (skip_whitespace cc rest n).2.1.length + ((skip_whitespace cc rest n).2.2 - n) ≤ rest.length ∧
    (skip_whitespace cc rest n = (cc, rest, n) ∨ ∃ c, (skip_whitespace cc rest n).1 = some c) := by
  intro rest
  induction rest with
  | nil => intro cc n; simp [skip_whitespace]
  | cons c rs ih =>
    intro cc n
    by_cases hc : pyIsSpace c = true
    · by_cases hn : c = '\n'
      · subst hn
        have heq : skip_whitespace cc ('\n' :: rs) n = skip_whitespace (some '\n') rs (n + 1) := by
          simp [skip_whitespace, hc]
        rw [heq]
        obtain ⟨h1, h2, h3⟩ := ih (some '\n') (n + 1)
        refine ⟨by omega, by simp only [List.length_cons]; omega, ?_⟩
        rcases h3 with h3 | ⟨c', h3⟩
        · rw [h3]; right; exact ⟨'\n', rfl⟩
        · right; exact ⟨c', h3⟩
      · have heq : skip_whitespace cc (c :: rs) n = skip_whitespace (some c) rs n := by
          simp [skip_whitespace, hc, hn]
        rw [heq]
        obtain ⟨h1, h2, h3⟩ := ih (some c) n
        refine ⟨by omega, by simp only [List.length_cons]; omega, ?_⟩
        rcases h3 with h3 | ⟨c', h3⟩
        · rw [h3]; right; exact ⟨c, rfl⟩
        · right; exact ⟨c', h3⟩
    · have heq : skip_whitespace cc (c :: rs) n = (cc, c :: rs, n) := by
        simp [skip_whitespace, hc]
      rw [heq]
      simp

theorem goodWord_of_split {c : Char} {w base : List Char}
    (hsp : split_terminal_value [] (c :: w) = some (base, none))
    (hup : c.isUpper = true)
    (hw : ∀ x ∈ w, (x.isAlpha || x = '_') = true) :
    goodWord base = true := by
  obtain ⟨hb, hlow⟩ := split_terminal_value_none (c :: w) [] base hsp
  subst hb
  simp only [List.nil_append, goodWord, Bool.and_eq_true]
  refine ⟨⟨hup, ?_⟩, ?_⟩
  · simp only [goodWordChar, Bool.and_eq_true]
    constructor
    · simp [Char.isAlpha, hup]
    · simpa using hlow c (List.mem_cons_self _ _)
  · rw [List.all_eq_true]
    intro x hx
    simp only [goodWordChar, Bool.and_eq_true]
    constructor
    · exact hw x hx
    · simpa using hlow x (List.mem_cons_of_mem _ hx)

theorem token_core_cases (numNl : Nat) (s2 : BNF_Lexer) :
    (s2.cc = none ∧ s2.eof_token_generated = true ∧
      token_core numNl s2 = .ok (none, s2)) ∨
    (s2.cc = none ∧ s2.eof_token_generated = false ∧
      token_core numNl s2 = .ok (some .RULE_END, ⟨none, s2.rest, true⟩)) ∨
    (2 ≤ numNl ∧ (∃ c, s2.cc = some c) ∧
      token_core numNl s2 = .ok (some .RULE_END, s2)) ∨
    (numNl < 2 ∧ (∃ c0, s2.cc = some c0) ∧
      ∃ t s', token_core numNl s2 = .ok (some t, s') ∧
      s'.eof_token_generated = s2.eof_token_generated ∧ tokenWF t = true ∧
      s'.rest.length ≤ s2.rest.length ∧ t.kind ≠ .RULE_END) ∨
    (∃ e, token_core numNl s2 = .error e ∧ e ≠ .trlc .tripleQuote) := by
  cases hcc : s2.cc with
  | none =>
    cases hb : s2.eof_token_generated with
    | true =>
      left
      refine ⟨rfl, rfl, ?_⟩
      unfold token_core
      rw [hcc]
      dsimp only
      rw [hb, if_pos rfl]
    | false =>
      right; left
      refine ⟨rfl, rfl, ?_⟩
      unfold token_core
      rw [hcc]
      dsimp only
      rw [hb, if_neg (by simp)]
  | some c =>
    by_cases h2 : numNl ≥ 2
    · right; right; left
      refine ⟨h2, ⟨c, rfl⟩, ?_⟩
      unfold token_core
      rw [hcc]
      dsimp only
      rw [if_pos h2]
    · by_cases hc1 : c = '['
      · right; right; right; left
        refine ⟨by omega, ⟨c, rfl⟩, .S_BRA, s2, ?_, rfl, rfl, le_refl _, by simp [BNF_Token.kind]⟩
        unfold token_core
        rw [hcc]
        dsimp only
        rw [if_neg h2, if_pos hc1]
      · by_cases hc2 : c = ']'
        · right; right; right; left
          refine ⟨by omega, ⟨c, rfl⟩, .S_KET, s2, ?_, rfl, rfl, le_refl _, by simp [BNF_Token.kind]⟩
          unfold token_core
          rw [hcc]
          dsimp only
          rw [if_neg h2, if_neg hc1, if_pos hc2]
        · by_cases hc3 : c = '{'
          · right; right; right; left
            refine ⟨by omega, ⟨c, rfl⟩, .C_BRA, s2, ?_, rfl, rfl, le_refl _, by simp [BNF_Token.kind]⟩
            unfold token_core
            rw [hcc]
            dsimp only
            rw [if_neg h2, if_neg hc1, if_neg hc2, if_pos hc3]
          · by_cases hc4 : c = '}'
            · right; right; right; left
              refine ⟨by omega, ⟨c, rfl⟩, .C_KET, s2, ?_, rfl, rfl, le_refl _, by simp [BNF_Token.kind]⟩
              unfold token_core
              rw [hcc]
              dsimp only
              rw [if_neg h2, if_neg hc1, if_neg hc2, if_neg hc3, if_pos hc4]
            · by_cases hc5 : c = '|'
              · right; right; right; left
                refine ⟨by omega, ⟨c, rfl⟩, .ALTERNATIVE, s2, ?_, rfl, rfl, le_refl _,
                  by simp [BNF_Token.kind]⟩
                unfold token_core
                rw [hcc]
                dsimp only
                rw [if_neg h2, if_neg hc1, if_neg hc2, if_neg hc3, if_neg hc4, if_pos hc5]
              · by_cases hc6 : c = ':'
                · -- the ::= operator
                  by_cases hq1 : s2.advance.cc ≠ some ':'
                  · right; right; right; right
                    refine ⟨.trlc .malformedOperator, ?_, by simp⟩
                    unfold token_core
                    rw [hcc]
                    dsimp only
                    rw [if_neg h2, if_neg hc1, if_neg hc2, if_neg hc3, if_neg hc4, if_neg hc5,
                      if_pos hc6, if_pos hq1]
                  · by_cases hq2 : s2.advance.advance.cc ≠ some '='
                    · right; right; right; right
                      refine ⟨.trlc .malformedOperator, ?_, by simp⟩
                      unfold token_core
                      rw [hcc]
                      dsimp only
                      rw [if_neg h2, if_neg hc1, if_neg hc2, if_neg hc3, if_neg hc4, if_neg hc5,
                        if_pos hc6, if_neg hq1, if_pos hq2]
                    · right; right; right; left
                      refine ⟨by omega, ⟨c, rfl⟩, .PRODUCTION, s2.advance.advance, ?_, rfl, rfl, ?_,
                        by simp [BNF_Token.kind]⟩
                      · unfold token_core
                        rw [hcc]
                        dsimp only
                        rw [if_neg h2, if_neg hc1, if_neg hc2, if_neg hc3, if_neg hc4, if_neg hc5,
                          if_pos hc6, if_neg hq1, if_neg hq2]
                      · show s2.rest.tail.tail.length ≤ s2.rest.length
                        have h1 : s2.rest.tail.tail.length = s2.rest.tail.length - 1 :=
                          List.length_tail _
                        have h2 : s2.rest.tail.length = s2.rest.length - 1 := List.length_tail _
                        omega
                · by_cases hc7 : c.isLower = true
                  · -- NONTERMINAL
                    rcases hcw : consume_word s2.rest with ⟨w, rest'⟩
                    cases hsp : split_nonterminal_value [] (c :: w) with
                    | none =>
                      right; right; right; right
                      refine ⟨.crash, ?_, by simp⟩
                      unfold token_core
                      rw [hcc]
                      dsimp only
                      rw [if_neg h2, if_neg hc1, if_neg hc2, if_neg hc3, if_neg hc4, if_neg hc5,
                        if_neg hc6, if_pos hc7, hcw]
                      dsimp only
                      rw [hsp]
                    | some pr =>
                      obtain ⟨base, suffix⟩ := pr
                      right; right; right; left
                      refine ⟨by omega, ⟨c, rfl⟩, .NONTERMINAL base suffix,
                        ⟨some (w.getLastD c), rest', s2.eof_token_generated⟩, ?_, rfl, rfl, ?_,
                        by simp [BNF_Token.kind]⟩
                      · unfold token_core
                        rw [hcc]
                        dsimp only
                        rw [if_neg h2, if_neg hc1, if_neg hc2, if_neg hc3, if_neg hc4, if_neg hc5,
                          if_neg hc6, if_pos hc7, hcw]
                        dsimp only
                        rw [hsp]
                      · show rest'.length ≤ s2.rest.length
                        have := (consume_word_spec s2.rest).2
                        rw [hcw] at this
                        have : w.length + rest'.length = s2.rest.length := by
                          simpa using congrArg List.length this
                        omega
                  · by_cases hc8 : c.isUpper = true
                    · -- TERMINAL
                      rcases hcw : consume_word s2.rest with ⟨w, rest'⟩
                      cases hsp : split_terminal_value [] (c :: w) with
                      | none =>
                        right; right; right; right
                        refine ⟨.crash, ?_, by simp⟩
                        unfold token_core
                        rw [hcc]
                        dsimp only
                        rw [if_neg h2, if_neg hc1, if_neg hc2, if_neg hc3, if_neg hc4, if_neg hc5,
                          if_neg hc6, if_neg (by simp [hc7]), if_pos hc8, hcw]
                        dsimp only
                        rw [hsp]
                      | some pr =>
                        obtain ⟨base, suffix⟩ := pr
                        right; right; right; left
                        refine ⟨by omega, ⟨c, rfl⟩, .TERMINAL base suffix,
                          ⟨some (w.getLastD c), rest', s2.eof_token_generated⟩, ?_, rfl, ?_, ?_,
                          by simp [BNF_Token.kind]⟩
                        · unfold token_core
                          rw [hcc]
                          dsimp only
                          rw [if_neg h2, if_neg hc1, if_neg hc2, if_neg hc3, if_neg hc4, if_neg hc5,
                            if_neg hc6, if_neg (by simp [hc7]), if_pos hc8, hcw]
                          dsimp only
                          rw [hsp]
                        · cases suffix with
                          | none =>
                            have hwch : ∀ x ∈ w, (x.isAlpha || x = '_') = true := by
                              intro x hx
                              have := (consume_word_spec s2.rest).1
                              rw [hcw] at this
                              exact this x hx
                            simpa [tokenWF] using goodWord_of_split hsp hc8 hwch
                          | some nmv => simp [tokenWF]
                        · show rest'.length ≤ s2.rest.length
                          have := (consume_word_spec s2.rest).2
                          rw [hcw] at this
                          have : w.length + rest'.length = s2.rest.length := by
                            simpa using congrArg List.length this
                          omega
                    · by_cases hc9 : c = squote
                      · -- SYMBOL
                        cases hcs : consume_symbol_body s2.rest with
                        | none =>
                          right; right; right; right
                          refine ⟨.trlc .unclosedLiteral, ?_, by simp⟩
                          unfold token_core
                          rw [hcc]
                          dsimp only
                          rw [if_neg h2, if_neg hc1, if_neg hc2, if_neg hc3, if_neg hc4, if_neg hc5,
                            if_neg hc6, if_neg (by simp [hc7]), if_neg (by simp [hc8]), if_pos hc9,
                            hcs]
                        | some pr =>
                          obtain ⟨v, rest'⟩ := pr
                          obtain ⟨hv, hl⟩ := consume_symbol_body_spec s2.rest v rest' hcs
                          right; right; right; left
                          refine ⟨by omega, ⟨c, rfl⟩, .SYMBOL v,
                            ⟨some squote, rest', s2.eof_token_generated⟩, ?_, rfl, ?_, ?_,
                            by simp [BNF_Token.kind]⟩
                          · unfold token_core
                            rw [hcc]
                            dsimp only
                            rw [if_neg h2, if_neg hc1, if_neg hc2, if_neg hc3, if_neg hc4,
                              if_neg hc5, if_neg hc6, if_neg (by simp [hc7]),
                              if_neg (by simp [hc8]), if_pos hc9, hcs]
                          · simp only [tokenWF, List.all_eq_true]
                            intro x hx
                            simpa using hv x hx
                          · show rest'.length ≤ s2.rest.length
                            have : v.length + (rest'.length + 1) = s2.rest.length := by
                              simpa using congrArg List.length hl
                            omega
                      · -- unexpected character
                        right; right; right; right
                        refine ⟨.trlc (.unexpectedChar c), ?_, by simp⟩
                        unfold token_core
                        rw [hcc]
                        dsimp only
                        rw [if_neg h2, if_neg hc1, if_neg hc2, if_neg hc3, if_neg hc4, if_neg hc5,
                          if_neg hc6, if_neg (by simp [hc7]), if_neg (by simp [hc8]), if_neg hc9]

theorem token_cases (s : BNF_Lexer) :
    (∃ s', s.token = .ok (none, s') ∧ s.eof_token_generated = true ∧
      s' = ⟨none, [], true⟩) ∨
    (∃ t s', s.token = .ok (some t, s') ∧
      s'.eof_token_generated = s.eof_token_generated ∧ s'.rest.length < s.rest.length ∧
      tokenWF t = true) ∨
    (∃ s', s.token = .ok (some .RULE_END, s') ∧ s.eof_token_generated = false ∧
      s' = ⟨none, [], true⟩) ∨
    (∃ e, s.token = .error e ∧ e ≠ .trlc .tripleQuote) := by
  unfold BNF_Lexer.token
  rcases hsk : skip_whitespace s.cc s.rest 0 with ⟨cc1, rest1, numNl⟩
  dsimp only
  have hspec := skip_whitespace_spec s.rest s.cc 0
  rw [hsk] at hspec
  dsimp only at hspec
  obtain ⟨-, hlen, halt⟩ := hspec
  by_cases hn : numNl < 2
  · rw [if_pos hn]
    rcases token_core_cases numNl ⟨rest1.head?, rest1.tail, s.eof_token_generated⟩ with
      ⟨hcc, hflag, heq⟩ | ⟨hcc, hflag, heq⟩ | ⟨h2, -, -⟩ |
      ⟨-, ⟨c0, hcc⟩, t, s', heq, hflag, hwf, hrl, -⟩ | ⟨e, heq, hne⟩
    · -- end marker
      left
      have hrest1 : rest1 = [] := by simpa using hcc
      subst hrest1
      refine ⟨_, heq, by simpa using hflag, ?_⟩
      simp [BNF_Lexer.mk.injEq]
      simpa using hflag
    · -- synthesized RULE_END
      right; right; left
      have hrest1 : rest1 = [] := by simpa using hcc
      subst hrest1
      refine ⟨_, heq, by simpa using hflag, by simp⟩
    · omega
    · -- ordinary token
      right; left
      refine ⟨t, s', heq, hflag, ?_, hwf⟩
      have hhead : rest1 ≠ [] := by
        intro hc
        subst hc
        simp at hcc
      have h1 : rest1.tail.length = rest1.length - 1 := List.length_tail _
      have h2 : 1 ≤ rest1.length := by
        cases rest1 with
        | nil => exact absurd rfl hhead
        | cons a l => simp
      dsimp only at hrl
      omega
    · right; right; right
      exact ⟨e, heq, hne⟩
  · rw [if_neg hn]
    rcases token_core_cases numNl ⟨cc1, rest1, s.eof_token_generated⟩ with
      ⟨hcc, hflag, heq⟩ | ⟨hcc, hflag, heq⟩ | ⟨-, -, heq⟩ | ⟨h2, -, -⟩ | ⟨e, heq, hne⟩
    · -- cc1 = none contradicts numNl ≥ 2
      exfalso
      rcases halt with hid | ⟨c, hc⟩
      · have : numNl = 0 := by
          have := congrArg (fun x => x.2.2) hid
          simpa using this
        omega
      · rw [hc] at hcc
        simp at hcc
    · exfalso
      rcases halt with hid | ⟨c, hc⟩
      · have : numNl = 0 := by
          have := congrArg (fun x => x.2.2) hid
          simpa using this
        omega
      · rw [hc] at hcc
        simp at hcc
    · -- blank-line RULE_END
      right; left
      refine ⟨.RULE_END, _, heq, rfl, ?_, rfl⟩
      dsimp only
      omega
    · omega
    · right; right; right
      exact ⟨e, heq, hne⟩

theorem token_no_tq {s : BNF_Lexer} {e : GenError} (h : s.token = .error e) :
    e ≠ .trlc .tripleQuote := by
  rcases token_cases s with ⟨s', heq, -⟩ | ⟨t, s', heq, -, -, -⟩ | ⟨s', heq, -⟩ |
    ⟨e', heq, hne⟩ <;> rw [heq] at h
  · exact Except.noConfusion h
  · exact Except.noConfusion h
  · exact Except.noConfusion h
  · injection h with h'
    exact h' ▸ hne

theorem lexAllAux_no_tq : ∀ (fuel : Nat) (s : BNF_Lexer),
    lexAllAux fuel s ≠ .error (.trlc .tripleQuote) := by
  intro fuel
  induction fuel with
  | zero => intro s h; simp [lexAllAux] at h
  | succ n ih =>
    intro s h
    unfold lexAllAux at h
    split at h
    · rename_i e htok
      injection h with h'
      exact token_no_tq htok (h' ▸ rfl)
    · exact Except.noConfusion h
    · rename_i t s' htok
      split at h
      · rename_i e hrec
        injection h with h'
        exact ih s' (h' ▸ hrec)
      · exact Except.noConfusion h

theorem lexAll_no_tq (fragment : List Char) : lexAll fragment ≠ .error (.trlc .tripleQuote) :=
  lexAllAux_no_tq _ _

theorem pmatch_no_tq (k : TokKind) (st : Toks) : pmatch k st ≠ .error (.trlc .tripleQuote) := by
  intro h
  unfold pmatch at h
  split at h
  · split at h <;> simp at h
  · split at h <;> simp at h

theorem parse_no_tq : ∀ fuel : Nat,
    (∀ st, parse_fragment fuel st ≠ .error (.trlc .tripleQuote)) ∧
    (∀ st, parse_string fuel st ≠ .error (.trlc .tripleQuote)) ∧
    (∀ rv st, parse_string_loop fuel rv st ≠ .error (.trlc .tripleQuote)) ∧
    (∀ st, parse_expansion fuel st ≠ .error (.trlc .tripleQuote)) ∧
    (∀ rv st, parse_expansion_loop fuel rv st ≠ .error (.trlc .tripleQuote)) := by
  intro fuel
  induction fuel with
  | zero =>
    refine ⟨?_, ?_, ?_, ?_, ?_⟩ <;> intros <;>
      simp [parse_fragment, parse_string, parse_string_loop, parse_expansion,
        parse_expansion_loop]
  | succ n ih =>
    obtain ⟨ihF, ihS, ihSL, ihE, ihEL⟩ := ih
    refine ⟨?_, ?_, ?_, ?_, ?_⟩
    · intro st h
      unfold parse_fragment at h
      split at h
      · simp at h
      · split at h
        · rw [except_bind_error] at h
          rcases h with h | ⟨a, -, h⟩
          · exact pmatch_no_tq _ _ h
          · rw [except_bind_error] at h
            rcases h with h | ⟨⟨rv, stb⟩, -, h⟩
            · exact ihE _ h
            · rw [except_bind_error] at h
              rcases h with h | ⟨b, -, h⟩
              · exact pmatch_no_tq _ _ h
              · simp at h
        · split at h
          · rw [except_bind_error] at h
            rcases h with h | ⟨a, -, h⟩
            · exact pmatch_no_tq _ _ h
            · rw [except_bind_error] at h
              rcases h with h | ⟨⟨rv, stb⟩, -, h⟩
              · exact ihE _ h
              · rw [except_bind_error] at h
                rcases h with h | ⟨b, -, h⟩
                · exact pmatch_no_tq _ _ h
                · simp at h
          · split at h
            · rw [except_bind_error] at h
              rcases h with h | ⟨a, -, h⟩
              · exact pmatch_no_tq _ _ h
              · split at h <;> simp at h
            · split at h
              · rw [except_bind_error] at h
                rcases h with h | ⟨a, -, h⟩
                · exact pmatch_no_tq _ _ h
                · split at h <;> simp at h
              · split at h
                · rw [except_bind_error] at h
                  rcases h with h | ⟨a, -, h⟩
                  · exact pmatch_no_tq _ _ h
                  · split at h <;> simp at h
                · simp at h
    · intro st h
      unfold parse_string at h
      rw [except_bind_error] at h
      rcases h with h | ⟨⟨f, stb⟩, -, h⟩
      · exact ihF _ h
      · exact ihSL _ _ h
    · intro rv st h
      rw [parse_string_loop_eq] at h
      split at h
      · simp at h
      · split at h
        · rw [except_bind_error] at h
          rcases h with h | ⟨⟨f, stb⟩, -, h⟩
          · exact ihF _ h
          · exact ihSL _ _ h
        · split at h <;> simp at h
    · intro st h
      unfold parse_expansion at h
      rw [except_bind_error] at h
      rcases h with h | ⟨⟨sv, stb⟩, -, h⟩
      · exact ihS _ h
      · exact ihEL _ _ h
    · intro rv st h
      rw [parse_expansion_loop_eq] at h
      split at h
      · rw [except_bind_error] at h
        rcases h with h | ⟨a, -, h⟩
        · exact pmatch_no_tq _ _ h
        · rw [except_bind_error] at h
          rcases h with h | ⟨⟨sv, stb⟩, -, h⟩
          · exact ihS _ h
          · exact ihEL _ _ h
      · split at h <;> simp at h

theorem parse_production_no_tq (fuel : Nat) (p : BNF_ParserState) (st : Toks) :
    parse_production fuel p st ≠ .error (.trlc .tripleQuote) := by
  intro h
  unfold parse_production at h
  rw [except_bind_error] at h
  rcases h with h | ⟨a, -, h⟩
  · exact pmatch_no_tq _ _ h
  · split at h
    · split at h
      · simp at h
      · rw [except_bind_error] at h
        rcases h with h | ⟨b, -, h⟩
        · exact pmatch_no_tq _ _ h
        · rw [except_bind_error] at h
          rcases h with h | ⟨⟨exp, stb⟩, -, h⟩
          · exact (parse_no_tq fuel).2.2.2.1 _ h
          · simp at h
    · simp at h

theorem parse_loop_no_tq : ∀ (fuel : Nat) (p : BNF_ParserState) (objName : List Char) (st : Toks),
    parse_loop fuel p objName st ≠ .error (.trlc .tripleQuote) := by
  intro fuel
  induction fuel with
  | zero => intro p objName st h; simp [parse_loop] at h
  | succ n ih =>
    intro p objName st h
    unfold parse_loop at h
    split at h
    · simp at h
    · rw [except_bind_error] at h
      rcases h with h | ⟨⟨nm, p₁, st₁⟩, -, h⟩
      · exact parse_production_no_tq _ _ _ h
      · rw [except_bind_error] at h
        rcases h with h | ⟨b, -, h⟩
        · exact pmatch_no_tq _ _ h
        · exact ih _ objName _ h

theorem token_wf_of_some {s : BNF_Lexer} {t : BNF_Token} {s' : BNF_Lexer}
    (h : s.token = .ok (some t, s')) : tokenWF t = true := by
  rcases token_cases s with ⟨s₁, heq, -⟩ | ⟨t₁, s₁, heq, -, -, hwf⟩ | ⟨s₁, heq, -⟩ |
    ⟨e, heq, -⟩ <;> rw [heq] at h
  · simp at h
  · obtain ⟨rfl, rfl⟩ : t₁ = t ∧ s₁ = s' := by simpa using h
    exact hwf
  · obtain ⟨rfl, rfl⟩ : BNF_Token.RULE_END = t ∧ s₁ = s' := by simpa using h
    rfl
  · exact Except.noConfusion h

theorem lexAllAux_tokenWF : ∀ (fuel : Nat) (s : BNF_Lexer) (ts : List BNF_Token),
    lexAllAux fuel s = .ok ts → ∀ t ∈ ts, tokenWF t = true := by
  intro fuel
  induction fuel with
  | zero => intro s ts h; simp [lexAllAux] at h
  | succ n ih =>
    intro s ts h
    unfold lexAllAux at h
    split at h
    · exact absurd h (by simp)
    · rename_i htok
      obtain rfl : ([] : List BNF_Token) = ts := by simpa using h
      simp
    · rename_i t s' htok
      split at h
      · exact absurd h (by simp)
      · rename_i ts' hrec
        obtain rfl : t :: ts' = ts := by simpa using h
        intro x hx
        rcases List.mem_cons.mp hx with rfl | hx'
        · exact token_wf_of_some htok
        · exact ih s' ts' hrec x hx'

theorem lexAll_tokenWF {fragment : List Char} {ts : List BNF_Token}
    (h : lexAll fragment = .ok ts) : ∀ t ∈ ts, tokenWF t = true :=
  lexAllAux_tokenWF _ _ _ h

theorem token_init_not_none (fragment : List Char) (s' : BNF_Lexer) :
    (initLexer fragment).token ≠ .ok (none, s') := by
  intro h
  rcases token_cases (initLexer fragment) with ⟨s₁, heq, hflag, -⟩ | ⟨t, s₁, heq, -, -, -⟩ |
    ⟨s₁, heq, -⟩ | ⟨e, heq, -⟩ <;> rw [heq] at h
  · simp [initLexer] at hflag
  · simp at h
  · simp at h
  · exact Except.noConfusion h

theorem lexAll_ne_nil {fragment : List Char} (h : lexAll fragment = .ok []) : False := by
  unfold lexAll at h
  have h2 : lexAllAux (fragment.length + 1 + 1) (initLexer fragment) = .ok [] := h
  unfold lexAllAux at h2
  split at h2
  · exact Except.noConfusion h2
  · rename_i htok
    rename_i s''
    exact token_init_not_none fragment _ htok
  · rename_i t s' htok
    split at h2
    · exact Except.noConfusion h2
    · simp at h2

theorem parse_ok_spec {p : BNF_ParserState} {objName rawText : List Char} {p' : BNF_ParserState}
    (h : parse p objName rawText = .ok p') :
    ∃ new : List (List Char × BNF_Expansion),
      p'.terminals = p.terminals ∧
      p'.productions = p.productions ++ new ∧
      (new.map Prod.fst).Nodup ∧
      (∀ pr ∈ new, lookupAssoc p.productions pr.1 = none ∧
        expShape pr.2 = true ∧ leavesOK pr.2 = true) ∧
      new ≠ [] ∧
      lookupAssoc p'.bundles objName = some (new.map Prod.fst) ∧
      (∀ k, k ≠ objName → lookupAssoc p'.bundles k = lookupAssoc p.bundles k) := by
  unfold parse at h
  split at h
  · exact absurd h (by simp)
  · dsimp only at h
    split at h
    · exact absurd h (by simp)
    · rename_i toks hlex
      obtain ⟨new, ht, hp, hnd, hfr, hemp, hb⟩ :=
        parse_loop_ok _ _ objName none toks p' h (lexAll_tokenWF hlex)
      have htoksne : toks ≠ [] := by
        intro hc
        subst hc
        exact lexAll_ne_nil hlex
      have hnewne : new ≠ [] := by
        intro hc
        exact htoksne (hemp.mpr hc)
      rw [if_neg htoksne] at hb
      refine ⟨new, by simpa using ht, by simpa using hp, hnd, hfr, hnewne, ?_, ?_⟩
      · rw [hb]
        dsimp only
        rw [lookupAssoc_set_same]
        simp [setAssoc_set_same, lookupAssoc_set_same]
      · intro k hk
        rw [hb]
        dsimp only
        rw [lookupAssoc_set_other _ _ _ _ (fun hc => hk hc.symm),
          lookupAssoc_set_other _ _ _ _ (fun hc => hk hc.symm)]

theorem lookupAssoc_of_mem_nodup {α : Type} [DecidableEq α] {β : Type}
    {l : List (α × β)} {kv : α × β}
    (hnd : (l.map Prod.fst).Nodup) (h : kv ∈ l) : lookupAssoc l kv.1 = some kv.2 := by
  induction l with
  | nil => simp at h
  | cons hd tl ih =>
    obtain ⟨k, v⟩ := hd
    rcases List.mem_cons.mp h with rfl | h'
    · simp [lookupAssoc]
    · have hne : k ≠ kv.1 := by
        intro hc
        have hmem : kv.1 ∈ tl.map Prod.fst := List.mem_map.mpr ⟨kv, h', rfl⟩
        rw [← hc] at hmem
        exact (List.nodup_cons.mp hnd).1 hmem
      simp only [lookupAssoc, hne, if_false]
      exact ih (List.nodup_cons.mp hnd).2 h'

/-!
## Claim C2: the triple-quote delimiter check
-/

/-- C2 counterexample: the raw text `exRawTerm` starts with the marker
but does not end with it, yet `parse` does not raise the triple-quote
error: it succeeds.  This refutes the claim that the error is raised
if and only if the text is not delimited by the marker at both ends. -/
theorem c2_end_marker_not_checked_counterexample :
    exRawTerm.drop (exRawTerm.length - 3) ≠ tq3 ∧
    parse initParserState ['g'] exRawTerm = .ok exStateTerm := by
  constructor
  · decide
  · rfl

/-- C2 (amended): `parse` raises the parse error `BNF text must use '''
strings` if and only if the unprocessed fragment text does not START
with the triple-quote marker; the end of the text is never checked
(three characters are stripped from both ends unconditionally). -/
theorem c2_triple_quote_check_amended (p : BNF_ParserState) (objName rawText : List Char) :
    parse p objName rawText = .error (.trlc .tripleQuote) ↔
      rawText.take 3 ≠ [squote, squote, squote] := by
  constructor
  · intro h
    by_cases hc : rawText.take 3 = [squote, squote, squote]
    · exfalso
      unfold parse at h
      rw [if_neg (fun hne => hne hc)] at h
      dsimp only at h
      split at h
      · rename_i e hlex
        injection h with h'
        exact lexAll_no_tq _ (by rw [hlex, h'])
      · exact parse_loop_no_tq _ _ _ _ h
    · exact hc
  · intro hc
    unfold parse
    rw [if_pos hc]

/-!
## Claim C3: zero-or-more productions per fragment
-/

/-- C3 counterexample: the empty fragment (raw text consisting of the
two triple-quote markers only) does not parse successfully: the lexer
synthesizes a RULE_END as the very first token, the `while self.nt:`
loop is entered, and `match("NONTERMINAL")` raises.  This refutes the
claim that a fragment containing no production parses successfully. -/
theorem c3_empty_fragment_counterexample :
    parse initParserState ['g'] (tq3 ++ tq3) =
      .error (.trlc (.expectedKind .NONTERMINAL .RULE_END)) := by
  rfl

/-- C3 (amended): `parse` accepts ONE or more productions terminated by
RULE_END: an empty, well-delimited fragment is rejected with a syntax
error (`expected NONTERMINAL, encountered RULE_END instead`), and every
successful call registers a nonempty list of productions, recording
their names, in declaration order, as the bundle of the parsed object. -/
theorem c3_parse_bundle_amended :
    (parse initParserState ['g'] (tq3 ++ tq3) =
      .error (.trlc (.expectedKind .NONTERMINAL .RULE_END))) ∧
    ∀ (p : BNF_ParserState) (objName rawText : List Char) (p' : BNF_ParserState),
      parse p objName rawText = .ok p' →
      ∃ new : List (List Char × BNF_Expansion), new ≠ [] ∧
        p'.productions = p.productions ++ new ∧
        lookupAssoc p'.bundles objName = some (new.map Prod.fst) := by
  refine ⟨by rfl, ?_⟩
  intro p objName rawText p' h
  obtain ⟨new, -, hp, -, -, hne, hb, -⟩ := parse_ok_spec h
  exact ⟨new, hne, hp, hb⟩

/-- Witness for the amended C3, at the concrete fragment `exRawSyms`. -/
theorem c3_parse_bundle_amended_witness :
    ∃ new : List (List Char × BNF_Expansion), new ≠ [] ∧
      exStateSyms.productions = initParserState.productions ++ new ∧
      lookupAssoc exStateSyms.bundles ['g'] = some (new.map Prod.fst) :=
  c3_parse_bundle_amended.2 initParserState ['g'] exRawSyms exStateSyms (by rfl)

/-!
## Claim C10: registration effects of a successful parse
-/

/-- C10: after every successful `parse` call, the bundle recorded for
the object lists exactly the names of the newly registered productions
in declaration order; each such name is a key of `productions` bound to
the AST parsed for it in this call; previously registered productions
and the bundles of other objects are unchanged. -/
theorem c10_parse_registration (p : BNF_ParserState) (objName rawText : List Char)
    (p' : BNF_ParserState) (h : parse p objName rawText = .ok p') :
    ∃ new : List (List Char × BNF_Expansion),
      lookupAssoc p'.bundles objName = some (new.map Prod.fst) ∧
      p'.productions = p.productions ++ new ∧
      (∀ pr ∈ new, lookupAssoc p'.productions pr.1 = some pr.2) ∧
      (∀ k, (lookupAssoc p.productions k).isSome = true →
        lookupAssoc p'.productions k = lookupAssoc p.productions k) ∧
      (∀ k, k ≠ objName → lookupAssoc p'.bundles k = lookupAssoc p.bundles k) := by
  obtain ⟨new, -, hp, hnd, hfr, -, hb, hbo⟩ := parse_ok_spec h
  refine ⟨new, hb, hp, ?_, ?_, hbo⟩
  · intro pr hpr
    rw [hp, lookupAssoc_append_right _ _ _ ((hfr pr hpr).1)]
    exact lookupAssoc_of_mem_nodup hnd hpr
  · intro k hk
    rw [hp, lookupAssoc_append_left _ _ _ hk]

/-- Witness for C10, at the concrete fragment `exRawTerm`. -/
theorem c10_parse_registration_witness :
    ∃ new : List (List Char × BNF_Expansion),
      lookupAssoc exStateTerm.bundles ['g'] = some (new.map Prod.fst) ∧
      exStateTerm.productions = initParserState.productions ++ new ∧
      (∀ pr ∈ new, lookupAssoc exStateTerm.productions pr.1 = some pr.2) ∧
      (∀ k, (lookupAssoc initParserState.productions k).isSome = true →
        lookupAssoc exStateTerm.productions k = lookupAssoc initParserState.productions k) ∧
      (∀ k, k ≠ ['g'] →
        lookupAssoc exStateTerm.bundles k = lookupAssoc initParserState.bundles k) :=
  c10_parse_registration initParserState ['g'] exRawTerm exStateTerm (by rfl)

/-!
## Claim C7: the per-leaf checks of the semantic checker
-/

/-- C7: for every literal leaf visited by the semantic checker: a SYMBOL
leaf warns `unknown terminal` exactly when its text is not a registered
terminal; a TERMINAL leaf is never validated; a NONTERMINAL leaf warns
`unknown production` exactly when its base name is not a key of
`productions`; and `sem_literal` only ever returns warnings (at most
one), never raising an error. -/
theorem c7_sem_literal_checks (p : BNF_ParserState) (v : List Char) :
    (SemWarning.unknownTerminal ∈ sem_literal p .SYMBOL v ↔ v ∉ p.terminals) ∧
    (sem_literal p .TERMINAL v = []) ∧
    (SemWarning.unknownProduction ∈ sem_literal p .NONTERMINAL v ↔
      lookupAssoc p.productions v = none) ∧
    (∀ k, sem_literal p k v = [] ∨ sem_literal p k v = [.unknownTerminal] ∨
      sem_literal p k v = [.unknownProduction]) := by
  refine ⟨?_, rfl, ?_, ?_⟩
  · by_cases hm : v ∈ p.terminals <;> simp [sem_literal, hm]
  · by_cases hm : (lookupAssoc p.productions v).isSome = true
    · have hne : lookupAssoc p.productions v ≠ none := by
        intro hc
        rw [hc] at hm
        simp at hm
      simp [sem_literal, hm, hne]
    · have hnone : lookupAssoc p.productions v = none := Option.not_isSome_iff_eq_none.mp hm
      simp [sem_literal, hm, hnone]
  · intro k
    cases k with
    | SYMBOL => by_cases hm : v ∈ p.terminals <;> simp [sem_literal, hm]
    | TERMINAL => left; rfl
    | NONTERMINAL =>
      by_cases hm : (lookupAssoc p.productions v).isSome = true <;> simp [sem_literal, hm]

/-!
## Claim C8: duplicate and empty terminal registration
-/

/-- Folding the backtick-run loop over runs containing the empty run
always errors. -/
theorem register_backtick_runs_empty_mem :
    ∀ (runs : List (List Char)) (p : BNF_ParserState), [] ∈ runs →
    ∃ e, register_backtick_runs p runs = .error e := by
  intro runs
  induction runs with
  | nil => intro p h; simp at h
  | cons run rest ih =>
    intro p h
    unfold register_backtick_runs
    rcases List.mem_cons.mp h with hrun | hmem
    · subst hrun
      exact ⟨.trlc .emptyTerminal, by simp [register_one_backtick]⟩
    · cases hreg : register_one_backtick p run with
      | error e => exact ⟨e, by simp [hreg]⟩
      | ok p₁ =>
        obtain ⟨e, he⟩ := ih p₁ hmem
        exact ⟨e, by simp [hreg, he]⟩

/-- C8: registering a terminal name already present in `terminals`
raises a duplicate-definition error through either registration path
(explicit declaration via `register_terminal`, or the back-quoted path,
whose per-run step raises the named duplicate error); an empty
back-quoted run always raises `empty terminal is not permitted` when it
is registered, and any text whose back-quoted runs include an empty one
makes `register_backtick_terminals` fail. -/
theorem c8_duplicate_and_empty_terminals (p : BNF_ParserState) (t text : List Char) :
    (t ∈ p.terminals → register_terminal p t = .error (.trlc .duplicateTerminal)) ∧
    (t ∈ p.terminals → t ≠ [] →
      register_one_backtick p t = .error (.trlc (.duplicateTerminalNamed t))) ∧
    (register_one_backtick p [] = .error (.trlc .emptyTerminal)) ∧
    ([] ∈ backtickRuns text → ∃ e, register_backtick_terminals p text = .error e) := by
  refine ⟨?_, ?_, rfl, ?_⟩
  · intro hm
    simp [register_terminal, hm]
  · intro hm hne
    simp [register_one_backtick, hne, hm]
  · intro hm
    exact register_backtick_runs_empty_mem _ p hm

/-- Witness for C8: terminal `x` is already registered; re-registering
it through either path errors, and a text containing an empty
back-quoted run errors. -/
theorem c8_duplicate_and_empty_terminals_witness :
    (register_terminal ⟨[['x']], [], []⟩ ['x'] = .error (.trlc .duplicateTerminal)) ∧
    (register_one_backtick ⟨[['x']], [], []⟩ ['x'] =
      .error (.trlc (.duplicateTerminalNamed ['x']))) ∧
    (∃ e, register_backtick_terminals ⟨[['x']], [], []⟩
      [backtickChar, backtickChar] = .error e) := by
  have h := c8_duplicate_and_empty_terminals ⟨[['x']], [], []⟩ ['x']
    [backtickChar, backtickChar]
  exact ⟨h.1 (by decide), h.2.1 (by decide) (by decide), h.2.2.2 (by decide)⟩

/-!
## Claim C6: the two-member invariant
-/

mutual

theorem shape_minTwo : (e : BNF_Expansion) →
    (fragShape e = true → minTwoInv e = true) ∧
    (strShape e = true → minTwoInv e = true) ∧
    (expShape e = true → minTwoInv e = true)
  | .literal k v n => ⟨fun _ => rfl, fun _ => rfl, fun _ => rfl⟩
  | .optional e => by
    have ih := shape_minTwo e
    refine ⟨?_, ?_, ?_⟩ <;> intro h
    · simp only [fragShape] at h
      simpa [minTwoInv] using ih.2.2 h
    · simp only [strShape] at h
      simpa [minTwoInv] using ih.2.2 h
    · simp only [expShape] at h
      simpa [minTwoInv] using ih.2.2 h
  | .one_or_more e => by
    have ih := shape_minTwo e
    refine ⟨?_, ?_, ?_⟩ <;> intro h
    · simp only [fragShape] at h
      simpa [minTwoInv] using ih.2.2 h
    · simp only [strShape] at h
      simpa [minTwoInv] using ih.2.2 h
    · simp only [expShape] at h
      simpa [minTwoInv] using ih.2.2 h
  | .string ms => by
    have ih := shapeAll_minTwoAll ms
    refine ⟨?_, ?_, ?_⟩ <;> intro h
    · simp [fragShape] at h
    · simp only [strShape, Bool.and_eq_true] at h
      simp only [minTwoInv, Bool.and_eq_true]
      exact ⟨h.1, ih.1 h.2⟩
    · simp only [expShape, Bool.and_eq_true] at h
      simp only [minTwoInv, Bool.and_eq_true]
      exact ⟨h.1, ih.1 h.2⟩
  | .alternatives ms => by
    have ih := shapeAll_minTwoAll ms
    refine ⟨?_, ?_, ?_⟩ <;> intro h
    · simp [fragShape] at h
    · simp [strShape] at h
    · simp only [expShape, Bool.and_eq_true] at h
      simp only [minTwoInv, Bool.and_eq_true]
      exact ⟨h.1, ih.2 h.2⟩

theorem shapeAll_minTwoAll : (ms : List BNF_Expansion) →
    (fragShapeAll ms = true → minTwoAll ms = true) ∧
    (strShapeAll ms = true → minTwoAll ms = true)
  | [] => ⟨fun _ => rfl, fun _ => rfl⟩
  | m :: ms => by
    have ih1 := shape_minTwo m
    have ih2 := shapeAll_minTwoAll ms
    constructor
    · intro h
      simp only [fragShapeAll, Bool.and_eq_true] at h
      simp only [minTwoAll, Bool.and_eq_true]
      exact ⟨ih1.1 h.1, ih2.1 h.2⟩
    · intro h
      simp only [strShapeAll, Bool.and_eq_true] at h
      simp only [minTwoAll, Bool.and_eq_true]
      exact ⟨ih1.2.1 h.1, ih2.2 h.2⟩

end

/-- C6: every `BNF_String` and every `BNF_Alternatives` node in any AST
produced by the parser has at least two members: `parse_string` and
`parse_expansion` collapse to their single member when only one
fragment, respectively one alternative, was parsed.  This holds for the
trees returned by `parse_string` and `parse_expansion` on any lexed
token stream, and for every production registered by a successful
`parse` call. -/
theorem c6_min_two_members :
    (∀ fuel st e st', parse_string fuel st = .ok (e, st') →
      (∀ t ∈ st.2, tokenWF t = true) → minTwoInv e = true) ∧
    (∀ fuel st e st', parse_expansion fuel st = .ok (e, st') →
      (∀ t ∈ st.2, tokenWF t = true) → minTwoInv e = true) ∧
    (∀ p objName rawText p', parse p objName rawText = .ok p' →
      ∀ pr ∈ p'.productions, pr ∈ p.productions ∨ minTwoInv pr.2 = true) := by
  refine ⟨?_, ?_, ?_⟩
  · intro fuel st e st' h hwf
    exact (shape_minTwo e).2.1 ((parse_inv fuel).2.1 _ _ _ h hwf).1
  · intro fuel st e st' h hwf
    exact (shape_minTwo e).2.2 ((parse_inv fuel).2.2.2.1 _ _ _ h hwf).1
  · intro p objName rawText p' h pr hpr
    obtain ⟨new, -, hp, -, hfr, -, -, -⟩ := parse_ok_spec h
    rw [hp] at hpr
    rcases List.mem_append.mp hpr with hold | hnew
    · exact Or.inl hold
    · exact Or.inr ((shape_minTwo pr.2).2.2 (hfr pr hnew).2.1)

/-- Witness for C6, at the parse of the concrete fragment `exRawSyms`
(whose only production is a two-member `BNF_String`). -/
theorem c6_min_two_members_witness :
    ∀ pr ∈ exStateSyms.productions,
      pr ∈ initParserState.productions ∨ minTwoInv pr.2 = true :=
  c6_min_two_members.2.2 initParserState ['g'] exRawSyms exStateSyms (by rfl)

/-!
## Claim C9: layout of the canonical renderer
-/

theorem write_members_intercalate (sep : List Char) : ∀ ms : List BNF_Expansion,
    write_members sep ms = List.intercalate sep (ms.map write_expansion) := by
  intro ms
  induction ms with
  | nil => simp [write_members, List.intercalate]
  | cons m rest ih =>
    cases rest with
    | nil => simp [write_members, List.intercalate]
    | cons b t =>
      rw [show write_members sep (m :: b :: t) =
        write_expansion m ++ sep ++ write_members sep (b :: t) from rfl, ih]
      simp [List.intercalate, List.intersperse]

/-- C9: a production whose root AST node is a `BNF_Alternatives` is laid
out one alternative per line, each continuation line indented by exactly
`length of the production name + 3` spaces before the `| `; any
`BNF_Alternatives` rendered by `write_expansion` (i.e. every alternation
nested below the root) is rendered inline with its members joined by
`" | "`; a production with any other root is rendered on a single
line. -/
theorem c9_alternatives_layout (production : List Char) (p : BNF_ParserState) :
    (∀ m ms, lookupAssoc p.productions production = some (.alternatives (m :: ms)) →
      write_production production p = .ok
        (production_head production ++ write_expansion m ++ ['\n'] ++
          (ms.map fun n => List.replicate (production.length + 3) ' ' ++
            '|' :: ' ' :: write_expansion n ++ ['\n']).flatten)) ∧
    (∀ members : List BNF_Expansion,
      write_expansion (.alternatives members) =
        List.intercalate [' ', '|', ' '] (members.map write_expansion)) ∧
    (∀ e, lookupAssoc p.productions production = some e →
      (∀ ms, e ≠ .alternatives ms) →
      write_production production p = .ok
        (production_head production ++ write_expansion e ++ ['\n'])) := by
  refine ⟨?_, ?_, ?_⟩
  · intro m ms h
    unfold write_production
    rw [h]
  · intro members
    exact write_members_intercalate _ members
  · intro e h hne
    unfold write_production
    rw [h]
    cases e with
    | alternatives ms => exact absurd rfl (hne ms)
    | literal k v n => rfl
    | optional e => rfl
    | one_or_more e => rfl
    | string ms => rfl

/-- Witness for C9, at a two-alternative production `foo`. -/
theorem c9_alternatives_layout_witness :
    write_production ['f', 'o', 'o']
      ⟨[], [(['f', 'o', 'o'], .alternatives [.literal .SYMBOL ['a'] none,
        .literal .SYMBOL ['b'] none])], []⟩ = .ok
      (production_head ['f', 'o', 'o'] ++
        write_expansion (.literal .SYMBOL ['a'] none) ++ ['\n'] ++
        ([.literal .SYMBOL ['b'] none].map fun n =>
          List.replicate (['f', 'o', 'o'].length + 3) ' ' ++
            '|' :: ' ' :: write_expansion n ++ ['\n']).flatten) :=
  (c9_alternatives_layout ['f', 'o', 'o'] _).1 (.literal .SYMBOL ['a'] none)
    [.literal .SYMBOL ['b'] none] (by rfl)

/-!
## Claim C5: the identifier case-transition split
-/

theorem split_nonterminal_no_transition : ∀ (raw acc : List Char),
    (∀ a ∈ raw, a.isUpper = false) →
    split_nonterminal_value acc raw = some (acc ++ raw, none) := by
  intro raw
  induction raw with
  | nil => intro acc h; simp [split_nonterminal_value]
  | cons c rs ih =>
    intro acc h
    have hc : c.isUpper = false := h c (List.mem_cons_self _ _)
    simp only [split_nonterminal_value, hc, Bool.false_eq_true, if_false]
    rw [ih (acc ++ [c]) (fun a ha => h a (List.mem_cons_of_mem _ ha))]
    simp

theorem split_nonterminal_transition : ∀ (pre : List Char) (c : Char) (post acc : List Char),
    (∀ a ∈ pre, a.isUpper = false) → c.isUpper = true →
    split_nonterminal_value acc (pre ++ c :: post) =
      if (acc ++ pre).getLast? = some '_' then
        some ((acc ++ pre).dropLast, some (c :: post))
      else none := by
  intro pre
  induction pre with
  | nil =>
    intro c post acc h hup
    simp only [List.nil_append, List.append_nil, split_nonterminal_value, hup, if_true]
  | cons a pre' ih =>
    intro c post acc h hup
    have ha : a.isUpper = false := h a (List.mem_cons_self _ _)
    simp only [List.cons_append, split_nonterminal_value, ha, Bool.false_eq_true, if_false]
    rw [List.append_eq, ih c post (acc ++ [a]) (fun x hx => h x (List.mem_cons_of_mem _ hx)) hup]
    simp

theorem split_terminal_no_transition : ∀ (raw acc : List Char),
    (∀ a ∈ raw, a.isLower = false) →
    split_terminal_value acc raw = some (acc ++ raw, none) := by
  intro raw
  induction raw with
  | nil => intro acc h; simp [split_terminal_value]
  | cons c rs ih =>
    intro acc h
    have hc : c.isLower = false := h c (List.mem_cons_self _ _)
    simp only [split_terminal_value, hc, Bool.false_eq_true, if_false]
    rw [ih (acc ++ [c]) (fun a ha => h a (List.mem_cons_of_mem _ ha))]
    simp

theorem split_terminal_transition : ∀ (pre : List Char) (c : Char) (post acc : List Char),
    (∀ a ∈ pre, a.isLower = false) → c.isLower = true →
    split_terminal_value acc (pre ++ c :: post) =
      if (acc ++ pre).getLast? = some '_' then
        some ((acc ++ pre).dropLast, some (c :: post))
      else none := by
  intro pre
  induction pre with
  | nil =>
    intro c post acc h hlow
    simp only [List.nil_append, List.append_nil, split_terminal_value, hlow, if_true]
  | cons a pre' ih =>
    intro c post acc h hlow
    have ha : a.isLower = false := h a (List.mem_cons_self _ _)
    simp only [List.cons_append, split_terminal_value, ha, Bool.false_eq_true, if_false]
    rw [List.append_eq, ih c post (acc ++ [a]) (fun x hx => h x (List.mem_cons_of_mem _ hx)) hlow]
    simp

/-- C5 counterexample: the lexer crashes (assertion failure in the value
split) on the identifier `fooBAR`, whose case transition is not preceded
by an underscore.  This refutes the claim that the split is defined, and
the lexer does not crash, for every identifier in the consumed character
class. -/
theorem c5_fooBAR_crashes_counterexample :
    lexAll (['f', 'o', 'o', 'B', 'A', 'R']) = .error .crash ∧
    split_nonterminal_value [] ['f', 'o', 'o', 'B', 'A', 'R'] = none := by
  constructor <;> rfl

/-- C5 (amended): the identifier split yields `(base, no suffix)` when
the identifier has no case transition, and `(base without the trailing
underscore, suffix from the first transition character on)` when the
single case transition is immediately preceded by an underscore; when
the transition is not preceded by an underscore (e.g. `fooBAR`) the
source assertion `t_prod.endswith("_")` fails and the lexer crashes
(modelled by `none`).  Symmetrically for TERMINAL identifiers. -/
theorem c5_identifier_split_amended :
    (∀ raw : List Char, (∀ a ∈ raw, a.isUpper = false) →
      split_nonterminal_value [] raw = some (raw, none)) ∧
    (∀ (pre : List Char) (c : Char) (post : List Char),
      (∀ a ∈ pre, a.isUpper = false) → c.isUpper = true →
      split_nonterminal_value [] (pre ++ c :: post) =
        if pre.getLast? = some '_' then some (pre.dropLast, some (c :: post)) else none) ∧
    (∀ raw : List Char, (∀ a ∈ raw, a.isLower = false) →
      split_terminal_value [] raw = some (raw, none)) ∧
    (∀ (pre : List Char) (c : Char) (post : List Char),
      (∀ a ∈ pre, a.isLower = false) → c.isLower = true →
      split_terminal_value [] (pre ++ c :: post) =
        if pre.getLast? = some '_' then some (pre.dropLast, some (c :: post)) else none) := by
  refine ⟨?_, ?_, ?_, ?_⟩
  · intro raw h
    simpa using split_nonterminal_no_transition raw [] h
  · intro pre c post h hup
    simpa using split_nonterminal_transition pre c post [] h hup
  · intro raw h
    simpa using split_terminal_no_transition raw [] h
  · intro pre c post h hlow
    simpa using split_terminal_transition pre c post [] h hlow

/-- Witness for the amended C5: `foo_BAR` splits into base `foo` and
suffix `BAR`; `foo` has no suffix. -/
theorem c5_identifier_split_amended_witness :
    split_nonterminal_value [] (['f', 'o', 'o', '_'] ++ 'B' :: ['A', 'R']) =
      some (['f', 'o', 'o'], some ['B', 'A', 'R']) ∧
    split_nonterminal_value [] ['f', 'o', 'o'] = some (['f', 'o', 'o'], none) := by
  constructor
  · have h := c5_identifier_split_amended.2.1 ['f', 'o', 'o', '_'] 'B' ['A', 'R']
      (by decide) (by decide)
    simpa using h
  · exact c5_identifier_split_amended.1 ['f', 'o', 'o'] (by decide)

/-!
## Claim C4: exactly one synthesized RULE_END at end of fragment
-/

theorem token_final : (⟨none, [], true⟩ : BNF_Lexer).token = .ok (none, ⟨none, [], true⟩) := rfl

theorem token_none_final {s : BNF_Lexer} {s' : BNF_Lexer} (h : s.token = .ok (none, s')) :
    s.eof_token_generated = true ∧ s' = ⟨none, [], true⟩ := by
  rcases token_cases s with ⟨s₁, heq, hflag, hfin⟩ | ⟨t, s₁, heq, -, -, -⟩ | ⟨s₁, heq, -, -⟩ |
    ⟨e, heq, -⟩ <;> rw [heq] at h
  · obtain rfl : s₁ = s' := by simpa using h
    exact ⟨hflag, hfin⟩
  · simp at h
  · simp at h
  · exact Except.noConfusion h

theorem token_flip_final {s : BNF_Lexer} {t : BNF_Token} {s' : BNF_Lexer}
    (h : s.token = .ok (some t, s')) (h₀ : s.eof_token_generated = false)
    (h₁ : s'.eof_token_generated = true) : s' = ⟨none, [], true⟩ := by
  rcases token_cases s with ⟨s₁, heq, -, -⟩ | ⟨t₁, s₁, heq, hflag, -, -⟩ | ⟨s₁, heq, -, hfin⟩ |
    ⟨e, heq, -⟩ <;> rw [heq] at h
  · simp at h
  · obtain ⟨rfl, rfl⟩ : t₁ = t ∧ s₁ = s' := by simpa using h
    rw [h₁, h₀] at hflag
    exact Bool.noConfusion hflag
  · obtain ⟨rfl, rfl⟩ : BNF_Token.RULE_END = t ∧ s₁ = s' := by simpa using h
    exact hfin
  · exact Except.noConfusion h

theorem token_mono {s : BNF_Lexer} {r : Option BNF_Token} {s' : BNF_Lexer}
    (h : s.token = .ok (r, s')) (h₀ : s.eof_token_generated = true) :
    s'.eof_token_generated = true := by
  rcases token_cases s with ⟨s₁, heq, -, hfin⟩ | ⟨t₁, s₁, heq, hflag, -, -⟩ |
    ⟨s₁, heq, hflag, -⟩ | ⟨e, heq, -⟩ <;> rw [heq] at h
  · obtain ⟨rfl, rfl⟩ : (none : Option BNF_Token) = r ∧ s₁ = s' := by simpa using h
    rw [hfin]
  · obtain ⟨rfl, rfl⟩ : (some t₁ : Option BNF_Token) = r ∧ s₁ = s' := by simpa using h
    rw [hflag, h₀]
  · rw [hflag] at h₀
    exact Bool.noConfusion h₀
  · exact Except.noConfusion h

theorem token_noflip_shrink {s : BNF_Lexer} {t : BNF_Token} {s' : BNF_Lexer}
    (h : s.token = .ok (some t, s')) (hfl : s'.eof_token_generated = s.eof_token_generated) :
    s'.rest.length < s.rest.length := by
  rcases token_cases s with ⟨s₁, heq, -, -⟩ | ⟨t₁, s₁, heq, -, hlen, -⟩ |
    ⟨s₁, heq, hflag, hfin⟩ | ⟨e, heq, -⟩ <;> rw [heq] at h
  · simp at h
  · obtain ⟨rfl, rfl⟩ : t₁ = t ∧ s₁ = s' := by simpa using h
    exact hlen
  · obtain ⟨rfl, rfl⟩ : BNF_Token.RULE_END = t ∧ s₁ = s' := by simpa using h
    rw [hfin] at hfl
    simp only [BNF_Lexer.eof_token_generated] at hfl
    rw [hflag] at hfl
    exact Bool.noConfusion hfl
  · exact Except.noConfusion h

theorem token_empty_flip {s : BNF_Lexer} (hrest : s.rest = [])
    (hflag : s.eof_token_generated = false) :
    s.token = .ok (some .RULE_END, ⟨none, [], true⟩) := by
  obtain ⟨cc, rest, flag⟩ := s
  simp only at hrest hflag
  subst hrest
  subst hflag
  rfl

theorem stateAfter_front {s : BNF_Lexer} {r : Option BNF_Token} {s₁ : BNF_Lexer}
    (h : s.token = .ok (r, s₁)) : ∀ n, stateAfter s (n + 1) = stateAfter s₁ n := by
  intro n
  induction n with
  | zero => simp [stateAfter, h]
  | succ k ih =>
    show (match stateAfter s (k + 1) with
      | none => none
      | some s' => match s'.token with
        | .error _ => none
        | .ok (_, s'') => some s'') = stateAfter s₁ (k + 1)
    rw [ih]
    rfl

theorem stateAfter_final : ∀ k, stateAfter ⟨none, [], true⟩ k = some ⟨none, [], true⟩ := by
  intro k
  induction k with
  | zero => rfl
  | succ n ih => simp [stateAfter, ih, token_final]

theorem emitsEofAt_final_after {s : BNF_Lexer} {n : Nat}
    (h : emitsEofAt s n = true) : ∀ k, n < k → stateAfter s k = some ⟨none, [], true⟩ := by
  unfold emitsEofAt at h
  split at h
  · exact Bool.noConfusion h
  · rename_i s₁ hst
    rw [Bool.and_eq_true] at h
    obtain ⟨hfl, htok⟩ := h
    split at htok
    · rename_i t s₂ htoke
      have hflip : s₂ = ⟨none, [], true⟩ :=
        token_flip_final htoke (by simpa using hfl) htok
      have hn1 : stateAfter s (n + 1) = some ⟨none, [], true⟩ := by
        show (match stateAfter s n with
          | none => none
          | some s' => match s'.token with
            | .error _ => none
            | .ok (_, s'') => some s'') = some ⟨none, [], true⟩
        rw [hst]
        dsimp only
        rw [htoke]
        dsimp only
        rw [hflip]
      intro k hk
      obtain ⟨j, rfl⟩ : ∃ j, k = (n + 1) + j := ⟨k - (n + 1), by omega⟩
      induction j with
      | zero => exact hn1
      | succ i ihj =>
        have hprev : stateAfter s (n + 1 + i) = some ⟨none, [], true⟩ := by
          exact ihj (by omega)
        show (match stateAfter s (n + 1 + i) with
          | none => none
          | some s' => match s'.token with
            | .error _ => none
            | .ok (_, s'') => some s'') = some ⟨none, [], true⟩
        rw [hprev]
        dsimp only
        rw [token_final]
    · exact Bool.noConfusion htok

/-- C4: over the whole stream of repeated `token` calls, the synthesized
end-of-fragment RULE_END is emitted at most once; once it has been
emitted, every later call returns the `None` end marker; and if the
first `fragment.length + 1` calls all succeed (lexing reports no error,
the only case in which the stream exists), it is emitted exactly once,
within those calls — even when the fragment does not end in blank
lines. -/
theorem c4_synthesized_rule_end (fragment : List Char) :
    (∀ m n, emitsEofAt (initLexer fragment) m = true →
      emitsEofAt (initLexer fragment) n = true → m = n) ∧
    (∀ n, emitsEofAt (initLexer fragment) n = true →
      ∀ k, n < k → returnsNoneAt (initLexer fragment) k = true) ∧
    ((∀ i, i ≤ fragment.length → callSucceeds (initLexer fragment) i = true) →
      ∃ n, n ≤ fragment.length ∧ emitsEofAt (initLexer fragment) n = true) := by
  have hflip_flag : ∀ (s : BNF_Lexer) (n : Nat), emitsEofAt s n = true →
      ∃ s₁, stateAfter s n = some s₁ ∧ s₁.eof_token_generated = false := by
    intro s n h
    unfold emitsEofAt at h
    split at h
    · exact Bool.noConfusion h
    · rename_i s₁ hst
      rw [Bool.and_eq_true] at h
      exact ⟨s₁, hst, by simpa using h.1⟩
  refine ⟨?_, ?_, ?_⟩
  · -- uniqueness
    intro m n hm hn
    rcases Nat.lt_trichotomy m n with hlt | heq | hgt
    · exfalso
      have hfin := emitsEofAt_final_after hm n hlt
      obtain ⟨s₁, hst, hfl⟩ := hflip_flag _ n hn
      rw [hfin] at hst
      obtain rfl : (⟨none, [], true⟩ : BNF_Lexer) = s₁ := by simpa using hst
      exact Bool.noConfusion hfl
    · exact heq
    · exfalso
      have hfin := emitsEofAt_final_after hn m hgt
      obtain ⟨s₁, hst, hfl⟩ := hflip_flag _ m hm
      rw [hfin] at hst
      obtain rfl : (⟨none, [], true⟩ : BNF_Lexer) = s₁ := by simpa using hst
      exact Bool.noConfusion hfl
  · -- every later call returns None
    intro n hn k hk
    have hfin := emitsEofAt_final_after hn k hk
    unfold returnsNoneAt
    rw [hfin]
    dsimp only
    rw [token_final]
  · -- existence
    intro hsucc
    have main : ∀ (bound : Nat) (s : BNF_Lexer), s.eof_token_generated = false →
        s.rest.length ≤ bound →
        (∀ i, i ≤ bound → callSucceeds s i = true) →
        ∃ n, n ≤ bound ∧ emitsEofAt s n = true := by
      intro bound
      induction bound with
      | zero =>
        intro s hflag hlen hcall
        have hrest : s.rest = [] := by
          cases hr : s.rest with
          | nil => rfl
          | cons a l => rw [hr] at hlen; simp at hlen
        refine ⟨0, le_refl _, ?_⟩
        unfold emitsEofAt
        simp only [stateAfter]
        rw [token_empty_flip hrest hflag, hflag]
        rfl
      | succ b ih =>
        intro s hflag hlen hcall
        have h0 := hcall 0 (by omega)
        unfold callSucceeds at h0
        simp only [stateAfter] at h0
        split at h0
        · rename_i r htok
          obtain ⟨r', s₁⟩ := r
          cases r' with
          | none =>
            exfalso
            have := (token_none_final htok).1
            rw [hflag] at this
            exact Bool.noConfusion this
          | some t =>
            cases hfl₁ : s₁.eof_token_generated with
            | true =>
              refine ⟨0, by omega, ?_⟩
              unfold emitsEofAt
              simp only [stateAfter]
              rw [htok]
              dsimp only
              rw [hflag, hfl₁]
              rfl
            | false =>
              have hshrink : s₁.rest.length < s.rest.length :=
                token_noflip_shrink htok (by rw [hfl₁, hflag])
              have hcall₁ : ∀ i, i ≤ b → callSucceeds s₁ i = true := by
                intro i hi
                have := hcall (i + 1) (by omega)
                unfold callSucceeds at this ⊢
                rw [stateAfter_front htok] at this
                exact this
              obtain ⟨n, hn, hflip⟩ := ih s₁ hfl₁ (by omega) hcall₁
              refine ⟨n + 1, by omega, ?_⟩
              unfold emitsEofAt at hflip ⊢
              rw [stateAfter_front htok]
              exact hflip
        · exact Bool.noConfusion h0
    exact main fragment.length (initLexer fragment) rfl (by simp [initLexer]) hsucc

/-- Witness for C4, at the one-character fragment `a`: the first two
calls succeed, the synthesized RULE_END is emitted at call 1, and call 2
returns the end marker. -/
theorem c4_synthesized_rule_end_witness :
    (∃ n, n ≤ 1 ∧ emitsEofAt (initLexer ['a']) n = true) ∧
    returnsNoneAt (initLexer ['a']) 2 = true := by
  have hex := (c4_synthesized_rule_end ['a']).2.2 (by decide)
  refine ⟨hex, ?_⟩
  exact (c4_synthesized_rule_end ['a']).2.1 1 (by decide) 2 (by decide)

/-!
## Claim C1: round-trip of the canonical rendering

Helper lemmas: bind reduction on the goal side, algebra of `atomsJoin`
and `altLoopToks`, the collapse returns, loop-exit behaviour of the two
collection loops, and atom-count positivity for shape-conformant trees.
-/

theorem except_ok_bind {α β : Type} (x : α) (f : α → Except GenError β) :
    (Except.ok x >>= f) = f x := rfl

theorem atomsJoin_one (sep : List BNF_Atom) (m : BNF_Expansion) :
    atomsJoin sep [m] = atomsOf m := rfl

theorem atomsJoin_cons₂ (sep : List BNF_Atom) (m m' : BNF_Expansion)
    (ms : List BNF_Expansion) :
    atomsJoin sep (m :: m' :: ms) = atomsOf m ++ sep ++ atomsJoin sep (m' :: ms) := rfl

theorem strJoin_map_cons (m : BNF_Expansion) (ms : List BNF_Expansion) :
    (atomsJoin [] (m :: ms)).map atomToken =
      tokensOf m ++ (atomsJoin [] ms).map atomToken := by
  cases ms with
  | nil => simp [atomsJoin_one, atomsJoin, tokensOf]
  | cons m' ms => simp [atomsJoin_cons₂, tokensOf]

theorem altJoin_map_cons (m : BNF_Expansion) (ms : List BNF_Expansion) :
    (atomsJoin [.alt] (m :: ms)).map atomToken = tokensOf m ++ altLoopToks ms := by
  cases ms with
  | nil => simp [atomsJoin_one, altLoopToks, tokensOf]
  | cons m' ms => simp [atomsJoin_cons₂, altLoopToks, tokensOf, atomToken]

theorem collapse_members_two (mk : List BNF_Expansion → BNF_Expansion)
    (l : List BNF_Expansion) (h : 2 ≤ l.length) : collapse_members mk l = mk l := by
  rcases l with - | ⟨a, - | ⟨b, l⟩⟩
  · simp at h
  · simp at h
  · rfl

theorem parse_string_loop_exit (fuel : Nat) (rv : List BNF_Expansion)
    (ct : Option BNF_Token) (t : BNF_Token) (ts : List BNF_Token)
    (hrv : rv ≠ []) (h : t.kind ∉ fragmentStartKinds) (hf : 1 ≤ fuel) :
    parse_string_loop fuel rv (ct, t :: ts) =
      .ok (collapse_members .string rv, (ct, t :: ts)) := by
  obtain ⟨f, rfl⟩ : ∃ f, fuel = f + 1 := ⟨fuel - 1, by omega⟩
  rw [parse_string_loop_eq]
  dsimp only
  rw [if_neg h]
  rcases rv with - | ⟨a, - | ⟨b, rv⟩⟩
  · exact absurd rfl hrv
  · rfl
  · rfl

theorem parse_expansion_loop_exit (fuel : Nat) (rv : List BNF_Expansion)
    (ct : Option BNF_Token) (t : BNF_Token) (ts : List BNF_Token)
    (hrv : rv ≠ []) (h : t.kind ≠ .ALTERNATIVE) (hf : 1 ≤ fuel) :
    parse_expansion_loop fuel rv (ct, t :: ts) =
      .ok (collapse_members .alternatives rv, (ct, t :: ts)) := by
  obtain ⟨f, rfl⟩ : ∃ f, fuel = f + 1 := ⟨fuel - 1, by omega⟩
  rw [parse_expansion_loop_eq]
  rw [if_neg (by simp [peekKind, h])]
  rcases rv with - | ⟨a, - | ⟨b, rv⟩⟩
  · exact absurd rfl hrv
  · rfl
  · rfl

theorem atomsOf_head_start (m : BNF_Expansion) (h : fragShape m = true) :
    ∃ a as, atomsOf m = a :: as ∧ (atomToken a).kind ∈ fragmentStartKinds := by
  cases m with
  | literal k v n =>
    cases k with
    | SYMBOL =>
      refine ⟨.sym v, [], rfl, ?_⟩
      show TokKind.SYMBOL ∈ fragmentStartKinds
      decide
    | TERMINAL =>
      refine ⟨.word v, [], rfl, ?_⟩
      show TokKind.TERMINAL ∈ fragmentStartKinds
      decide
    | NONTERMINAL =>
      refine ⟨.word v, [], rfl, ?_⟩
      show TokKind.TERMINAL ∈ fragmentStartKinds
      decide
  | optional e =>
    refine ⟨.sbra, atomsOf e ++ [BNF_Atom.sket], rfl, ?_⟩
    show TokKind.S_BRA ∈ fragmentStartKinds
    decide
  | one_or_more e =>
    refine ⟨.cbra, atomsOf e ++ [BNF_Atom.cket], rfl, ?_⟩
    show TokKind.C_BRA ∈ fragmentStartKinds
    decide
  | string ms => simp [fragShape] at h
  | alternatives ms => simp [fragShape] at h

mutual

theorem atomsOf_pos : (e : BNF_Expansion) → expShape e = true → 1 ≤ (atomsOf e).length
  | .literal k v n, _ => by cases k <;> simp [atomsOf]
  | .optional e, _ => by simp [atomsOf]
  | .one_or_more e, _ => by simp [atomsOf]
  | .string ms, h => by
    simp only [expShape, Bool.and_eq_true, decide_eq_true_eq] at h
    have hne : ms ≠ [] := by
      intro hc
      subst hc
      simp at h
    simpa [atomsOf] using (atomsJoin_pos ms [] hne).1 h.2
  | .alternatives ms, h => by
    simp only [expShape, Bool.and_eq_true, decide_eq_true_eq] at h
    have hne : ms ≠ [] := by
      intro hc
      subst hc
      simp at h
    simpa [atomsOf] using (atomsJoin_pos ms [.alt] hne).2 h.2

theorem atomsJoin_pos : (ms : List BNF_Expansion) → ∀ (sep : List BNF_Atom), ms ≠ [] →
    ((fragShapeAll ms = true → 1 ≤ (atomsJoin sep ms).length) ∧
     (strShapeAll ms = true → 1 ≤ (atomsJoin sep ms).length))
  | [], _, hne => absurd rfl hne
  | [m], sep, _ => by
    constructor <;> intro h
    · have hm : fragShape m = true := by
        simp only [fragShapeAll, Bool.and_eq_true] at h
        exact h.1
      simpa [atomsJoin_one] using
        atomsOf_pos m (strShape_expShape (fragShape_strShape hm))
    · have hm : strShape m = true := by
        simp only [strShapeAll, Bool.and_eq_true] at h
        exact h.1
      simpa [atomsJoin_one] using atomsOf_pos m (strShape_expShape hm)
  | m :: m' :: ms, sep, _ => by
    constructor <;> intro h
    · have hm : fragShape m = true := by
        simp only [fragShapeAll, Bool.and_eq_true] at h
        exact h.1
      have := atomsOf_pos m (strShape_expShape (fragShape_strShape hm))
      simp only [atomsJoin_cons₂, List.length_append]
      omega
    · have hm : strShape m = true := by
        simp only [strShapeAll, Bool.and_eq_true] at h
        exact h.1
      have := atomsOf_pos m (strShape_expShape hm)
      simp only [atomsJoin_cons₂, List.length_append]
      omega

end

theorem invStr_of_invFrag (e : BNF_Expansion)
    (hshape : strShape e = true → fragShape e = true)
    (hA : 1 ≤ (atomsOf e).length) (hF : InvFrag e) : InvStr e := by
  intro hsh hlv hnh ct t ts fuel hfr hfuel
  obtain ⟨f, rfl⟩ : ∃ f, fuel = f + 1 := ⟨fuel - 1, by omega⟩
  obtain ⟨ct₁, hfrag⟩ := hF (hshape hsh) hlv hnh ct (t :: ts) f (by omega)
  refine ⟨ct₁, ?_⟩
  unfold parse_string
  rw [hfrag, except_ok_bind]
  dsimp only
  exact parse_string_loop_exit f [e] ct₁ t ts (by simp) hfr (by omega)

theorem invExp_of_invStr (e : BNF_Expansion)
    (hshape : expShape e = true → strShape e = true)
    (hS : InvStr e) : InvExp e := by
  intro hsh hlv hnh ct t ts fuel hfr halt hfuel
  obtain ⟨f, rfl⟩ : ∃ f, fuel = f + 1 := ⟨fuel - 1, by omega⟩
  obtain ⟨ct₁, hstr⟩ := hS (hshape hsh) hlv hnh ct t ts f hfr (by omega)
  refine ⟨ct₁, ?_⟩
  unfold parse_expansion
  rw [hstr, except_ok_bind]
  dsimp only
  exact parse_expansion_loop_exit f [e] ct₁ t ts (by simp) halt (by omega)

mutual

theorem parse_atoms_inv : (e : BNF_Expansion) → InvFrag e ∧ InvStr e ∧ InvExp e
  | .literal k v n => by
    have hF : InvFrag (.literal k v n) := by
      intro hsh hlv hnh ct rest fuel hfuel
      cases k with
      | SYMBOL =>
        have hn : n = none := by
          simp only [leavesOK, Bool.and_eq_true, Option.isNone_iff_eq_none] at hlv
          exact hlv.1
        subst hn
        have hlen : (atomsOf (BNF_Expansion.literal .SYMBOL v none)).length = 1 := rfl
        obtain ⟨f, rfl⟩ : ∃ f, fuel = f + 1 := ⟨fuel - 1, by omega⟩
        exact ⟨some (.SYMBOL v), rfl⟩
      | TERMINAL =>
        have hn : n = none := by
          simp only [noHtml, Option.isNone_iff_eq_none] at hnh
          exact hnh
        subst hn
        have hlen : (atomsOf (BNF_Expansion.literal .TERMINAL v none)).length = 1 := rfl
        obtain ⟨f, rfl⟩ : ∃ f, fuel = f + 1 := ⟨fuel - 1, by omega⟩
        exact ⟨some (.TERMINAL v none), rfl⟩
      | NONTERMINAL => simp [noHtml] at hnh
    have hS := invStr_of_invFrag (BNF_Expansion.literal k v n) (fun _ => rfl)
      (by cases k <;> simp [atomsOf]) hF
    exact ⟨hF, hS, invExp_of_invStr (BNF_Expansion.literal k v n) (fun _ => rfl) hS⟩
  | .optional e => by
    have ih := parse_atoms_inv e
    have hF : InvFrag (.optional e) := by
      intro hsh hlv hnh ct rest fuel hfuel
      simp only [fragShape] at hsh
      simp only [leavesOK] at hlv
      simp only [noHtml] at hnh
      have hlen : (atomsOf (BNF_Expansion.optional e)).length = (atomsOf e).length + 2 := by
        simp [atomsOf]
      obtain ⟨f, rfl⟩ : ∃ f, fuel = f + 1 := ⟨fuel - 1, by omega⟩
      obtain ⟨ct₁, hexp⟩ := ih.2.2 hsh hlv hnh (some .S_BRA) .S_KET rest f
        (by decide) (by decide) (by omega)
      refine ⟨some .S_KET, ?_⟩
      have htok : tokensOf (BNF_Expansion.optional e) ++ rest =
          .S_BRA :: (tokensOf e ++ .S_KET :: rest) := by
        simp [tokensOf, atomsOf, atomToken]
      rw [htok]
      unfold parse_fragment
      simp only [BNF_Token.kind, pmatch, reduceCtorEq, ne_eq, not_true, not_false_iff,
        ite_true, ite_false, if_true, if_false, except_ok_bind, hexp]
    have hS := invStr_of_invFrag (BNF_Expansion.optional e) (fun h => h)
      (by simp [atomsOf]) hF
    exact ⟨hF, hS, invExp_of_invStr (BNF_Expansion.optional e) (fun h => h) hS⟩
  | .one_or_more e => by
    have ih := parse_atoms_inv e
    have hF : InvFrag (.one_or_more e) := by
      intro hsh hlv hnh ct rest fuel hfuel
      simp only [fragShape] at hsh
      simp only [leavesOK] at hlv
      simp only [noHtml] at hnh
      have hlen : (atomsOf (BNF_Expansion.one_or_more e)).length = (atomsOf e).length + 2 := by
        simp [atomsOf]
      obtain ⟨f, rfl⟩ : ∃ f, fuel = f + 1 := ⟨fuel - 1, by omega⟩
      obtain ⟨ct₁, hexp⟩ := ih.2.2 hsh hlv hnh (some .C_BRA) .C_KET rest f
        (by decide) (by decide) (by omega)
      refine ⟨some .C_KET, ?_⟩
      have htok : tokensOf (BNF_Expansion.one_or_more e) ++ rest =
          .C_BRA :: (tokensOf e ++ .C_KET :: rest) := by
        simp [tokensOf, atomsOf, atomToken]
      rw [htok]
      unfold parse_fragment
      simp only [BNF_Token.kind, pmatch, reduceCtorEq, ne_eq, not_true, not_false_iff,
        ite_true, ite_false, if_true, if_false, except_ok_bind, hexp]
    have hS := invStr_of_invFrag (BNF_Expansion.one_or_more e) (fun h => h)
      (by simp [atomsOf]) hF
    exact ⟨hF, hS, invExp_of_invStr (BNF_Expansion.one_or_more e) (fun h => h) hS⟩
  | .string ms => by
    have hl := parse_inv_loops ms
    have hS : InvStr (.string ms) := by
      intro hsh hlv hnh ct t ts fuel hfr hfuel
      simp only [strShape, Bool.and_eq_true, decide_eq_true_eq] at hsh
      have hne : ms ≠ [] := by
        intro hc
        subst hc
        simp at hsh
      simp only [atomsOf] at hfuel
      obtain ⟨ct', hps⟩ := hl.2.2.1 hne hsh.2 (by simpa [leavesOK] using hlv)
        (by simpa [noHtml] using hnh) ct t ts fuel hfr hfuel
      rw [collapse_members_two _ _ hsh.1] at hps
      exact ⟨ct', hps⟩
    have hE : InvExp (.string ms) :=
      invExp_of_invStr (BNF_Expansion.string ms) (fun h => h) hS
    refine ⟨?_, hS, hE⟩
    intro hsh
    simp [fragShape] at hsh
  | .alternatives ms => by
    have hl := parse_inv_loops ms
    have hE : InvExp (.alternatives ms) := by
      intro hsh hlv hnh ct t ts fuel hfr halt hfuel
      simp only [expShape, Bool.and_eq_true, decide_eq_true_eq] at hsh
      have hne : ms ≠ [] := by
        intro hc
        subst hc
        simp at hsh
      simp only [atomsOf] at hfuel
      obtain ⟨ct', hps⟩ := hl.2.2.2 hne hsh.2 (by simpa [leavesOK] using hlv)
        (by simpa [noHtml] using hnh) ct t ts fuel hfr halt hfuel
      rw [collapse_members_two _ _ hsh.1] at hps
      exact ⟨ct', hps⟩
    refine ⟨?_, ?_, hE⟩
    · intro hsh
      simp [fragShape] at hsh
    · intro hsh
      simp [strShape] at hsh

theorem parse_inv_loops : (ms : List BNF_Expansion) →
    StrLoopInv ms ∧ AltLoopInv ms ∧ StrFullInv ms ∧ AltFullInv ms
  | [] => by
    refine ⟨?_, ?_, ?_, ?_⟩
    · intro hsh hlv hnh rv ct t ts fuel hrv hfr hfuel
      refine ⟨ct, ?_⟩
      have hx := parse_string_loop_exit fuel rv ct t ts hrv hfr (by omega)
      simpa [atomsJoin] using hx
    · intro hsh hlv hnh rv ct t ts fuel hrv hfr halt hfuel
      refine ⟨ct, ?_⟩
      have hx := parse_expansion_loop_exit fuel rv ct t ts hrv halt (by omega)
      simpa [atomsJoin, altLoopToks] using hx
    · intro hne hsh hlv hnh
      exact absurd rfl hne
    · intro hne hsh hlv hnh
      exact absurd rfl hne
  | m :: ms => by
    have hm := parse_atoms_inv m
    have hl := parse_inv_loops ms
    have hSL : StrLoopInv (m :: ms) := by
      intro hsh hlv hnh rv ct t ts fuel hrv hfr hfuel
      have hm1 : fragShape m = true := by
        simp only [fragShapeAll, Bool.and_eq_true] at hsh
        exact hsh.1
      have hms : fragShapeAll ms = true := by
        simp only [fragShapeAll, Bool.and_eq_true] at hsh
        exact hsh.2
      have hlv1 : leavesOK m = true := by
        simp only [leavesOKAll, Bool.and_eq_true] at hlv
        exact hlv.1
      have hlvs : leavesOKAll ms = true := by
        simp only [leavesOKAll, Bool.and_eq_true] at hlv
        exact hlv.2
      have hnh1 : noHtml m = true := by
        simp only [noHtmlAll, Bool.and_eq_true] at hnh
        exact hnh.1
      have hnhs : noHtmlAll ms = true := by
        simp only [noHtmlAll, Bool.and_eq_true] at hnh
        exact hnh.2
      have hAm := atomsOf_pos m (strShape_expShape (fragShape_strShape hm1))
      have hjlen : (atomsJoin [] (m :: ms)).length =
          (atomsOf m).length + (atomsJoin [] ms).length := by
        cases ms with
        | nil => simp [atomsJoin_one, atomsJoin]
        | cons m' ms' => simp [atomsJoin_cons₂]
      obtain ⟨f, rfl⟩ : ∃ f, fuel = f + 1 := ⟨fuel - 1, by omega⟩
      obtain ⟨a, as, hao, hmem⟩ := atomsOf_head_start m hm1
      obtain ⟨ct₁, hfrag⟩ := hm.1 hm1 hlv1 hnh1 ct
        ((atomsJoin [] ms).map atomToken ++ t :: ts) f (by omega)
      have hconsm : tokensOf m ++ ((atomsJoin [] ms).map atomToken ++ t :: ts) =
          atomToken a :: (as.map atomToken ++ ((atomsJoin [] ms).map atomToken ++ t :: ts)) := by
        simp [tokensOf, hao]
      rw [hconsm] at hfrag
      obtain ⟨ct₂, hloop⟩ := hl.1 hms hlvs hnhs (rv ++ [m]) ct₁ t ts f (by simp) hfr (by omega)
      have hassoc : (rv ++ [m]) ++ ms = rv ++ m :: ms := by simp
      rw [hassoc] at hloop
      refine ⟨ct₂, ?_⟩
      have hstream : (atomsJoin [] (m :: ms)).map atomToken ++ t :: ts =
          atomToken a :: (as.map atomToken ++ ((atomsJoin [] ms).map atomToken ++ t :: ts)) := by
        rw [strJoin_map_cons, List.append_assoc, hconsm]
      rw [hstream, parse_string_loop_eq]
      dsimp only
      rw [if_pos hmem]
      rw [hfrag, except_ok_bind]
      dsimp only
      exact hloop
    have hAL : AltLoopInv (m :: ms) := by
      intro hsh hlv hnh rv ct t ts fuel hrv hfr halt hfuel
      have hm1 : strShape m = true := by
        simp only [strShapeAll, Bool.and_eq_true] at hsh
        exact hsh.1
      have hms : strShapeAll ms = true := by
        simp only [strShapeAll, Bool.and_eq_true] at hsh
        exact hsh.2
      have hlv1 : leavesOK m = true := by
        simp only [leavesOKAll, Bool.and_eq_true] at hlv
        exact hlv.1
      have hlvs : leavesOKAll ms = true := by
        simp only [leavesOKAll, Bool.and_eq_true] at hlv
        exact hlv.2
      have hnh1 : noHtml m = true := by
        simp only [noHtmlAll, Bool.and_eq_true] at hnh
        exact hnh.1
      have hnhs : noHtmlAll ms = true := by
        simp only [noHtmlAll, Bool.and_eq_true] at hnh
        exact hnh.2
      have hAm := atomsOf_pos m (strShape_expShape hm1)
      obtain ⟨f, rfl⟩ : ∃ f, fuel = f + 1 := ⟨fuel - 1, by omega⟩
      have hb1 : 3 * (atomsOf m).length + 1 ≤ f := by
        cases ms with
        | nil =>
          simp only [atomsJoin_one] at hfuel
          omega
        | cons m' ms' =>
          simp only [atomsJoin_cons₂, List.length_append, List.length_cons,
            List.length_nil] at hfuel
          omega
      have hb2 : 3 * (atomsJoin [.alt] ms).length + 2 ≤ f := by
        cases ms with
        | nil =>
          simp only [atomsJoin_one] at hfuel
          simp only [atomsJoin, List.length_nil]
          omega
        | cons m' ms' =>
          simp only [atomsJoin_cons₂, List.length_append, List.length_cons,
            List.length_nil] at hfuel
          omega
      obtain ⟨t₀, ts₀, heq, hnfs⟩ :
          ∃ t₀ ts₀, altLoopToks ms ++ t :: ts = t₀ :: ts₀ ∧
            t₀.kind ∉ fragmentStartKinds := by
        cases ms with
        | nil => exact ⟨t, ts, rfl, hfr⟩
        | cons m' ms' =>
          refine ⟨.ALTERNATIVE,
            (atomsJoin [.alt] (m' :: ms')).map atomToken ++ t :: ts, rfl, ?_⟩
          decide
      obtain ⟨ct₁, hstr⟩ := hm.2.1 hm1 hlv1 hnh1 (some .ALTERNATIVE) t₀ ts₀ f hnfs hb1
      rw [← heq] at hstr
      obtain ⟨ct₂, hloop⟩ := hl.2.1 hms hlvs hnhs (rv ++ [m]) ct₁ t ts f (by simp) hfr halt hb2
      have hassoc : (rv ++ [m]) ++ ms = rv ++ m :: ms := by simp
      rw [hassoc] at hloop
      refine ⟨ct₂, ?_⟩
      have hstream : altLoopToks (m :: ms) ++ t :: ts =
          .ALTERNATIVE :: (tokensOf m ++ (altLoopToks ms ++ t :: ts)) := by
        rw [show altLoopToks (m :: ms) =
          BNF_Token.ALTERNATIVE :: (atomsJoin [.alt] (m :: ms)).map atomToken from rfl]
        rw [List.cons_append, altJoin_map_cons, List.append_assoc]
      rw [hstream, parse_expansion_loop_eq]
      rw [if_pos (show peekKind .ALTERNATIVE
        ((ct, BNF_Token.ALTERNATIVE :: (tokensOf m ++ (altLoopToks ms ++ t :: ts))) : Toks) =
          true from rfl)]
      rw [show pmatch .ALTERNATIVE
        ((ct, BNF_Token.ALTERNATIVE :: (tokensOf m ++ (altLoopToks ms ++ t :: ts))) : Toks) =
          .ok (some .ALTERNATIVE, tokensOf m ++ (altLoopToks ms ++ t :: ts)) from rfl]
      rw [except_ok_bind]
      dsimp only
      rw [hstr, except_ok_bind]
      dsimp only
      exact hloop
    have hSF : StrFullInv (m :: ms) := by
      intro hne hsh hlv hnh ct t ts fuel hfr hfuel
      have hm1 : fragShape m = true := by
        simp only [fragShapeAll, Bool.and_eq_true] at hsh
        exact hsh.1
      have hms : fragShapeAll ms = true := by
        simp only [fragShapeAll, Bool.and_eq_true] at hsh
        exact hsh.2
      have hlv1 : leavesOK m = true := by
        simp only [leavesOKAll, Bool.and_eq_true] at hlv
        exact hlv.1
      have hlvs : leavesOKAll ms = true := by
        simp only [leavesOKAll, Bool.and_eq_true] at hlv
        exact hlv.2
      have hnh1 : noHtml m = true := by
        simp only [noHtmlAll, Bool.and_eq_true] at hnh
        exact hnh.1
      have hnhs : noHtmlAll ms = true := by
        simp only [noHtmlAll, Bool.and_eq_true] at hnh
        exact hnh.2
      have hAm := atomsOf_pos m (strShape_expShape (fragShape_strShape hm1))
      have hjlen : (atomsJoin [] (m :: ms)).length =
          (atomsOf m).length + (atomsJoin [] ms).length := by
        cases ms with
        | nil => simp [atomsJoin_one, atomsJoin]
        | cons m' ms' => simp [atomsJoin_cons₂]
      obtain ⟨f, rfl⟩ : ∃ f, fuel = f + 1 := ⟨fuel - 1, by omega⟩
      obtain ⟨ct₁, hfrag⟩ := hm.1 hm1 hlv1 hnh1 ct
        ((atomsJoin [] ms).map atomToken ++ t :: ts) f (by omega)
      obtain ⟨ct₂, hloop⟩ := hl.1 hms hlvs hnhs [m] ct₁ t ts f (by simp) hfr (by omega)
      refine ⟨ct₂, ?_⟩
      have hstream : (atomsJoin [] (m :: ms)).map atomToken ++ t :: ts =
          tokensOf m ++ ((atomsJoin [] ms).map atomToken ++ t :: ts) := by
        rw [strJoin_map_cons, List.append_assoc]
      rw [hstream]
      unfold parse_string
      rw [hfrag, except_ok_bind]
      dsimp only
      exact hloop
    have hAF : AltFullInv (m :: ms) := by
      intro hne hsh hlv hnh ct t ts fuel hfr halt hfuel
      have hm1 : strShape m = true := by
        simp only [strShapeAll, Bool.and_eq_true] at hsh
        exact hsh.1
      have hms : strShapeAll ms = true := by
        simp only [strShapeAll, Bool.and_eq_true] at hsh
        exact hsh.2
      have hlv1 : leavesOK m = true := by
        simp only [leavesOKAll, Bool.and_eq_true] at hlv
        exact hlv.1
      have hlvs : leavesOKAll ms = true := by
        simp only [leavesOKAll, Bool.and_eq_true] at hlv
        exact hlv.2
      have hnh1 : noHtml m = true := by
        simp only [noHtmlAll, Bool.and_eq_true] at hnh
        exact hnh.1
      have hnhs : noHtmlAll ms = true := by
        simp only [noHtmlAll, Bool.and_eq_true] at hnh
        exact hnh.2
      have hAm := atomsOf_pos m (strShape_expShape hm1)
      obtain ⟨f, rfl⟩ : ∃ f, fuel = f + 1 := ⟨fuel - 1, by omega⟩
      have hb1 : 3 * (atomsOf m).length + 1 ≤ f := by
        cases ms with
        | nil =>
          simp only [atomsJoin_one] at hfuel
          omega
        | cons m' ms' =>
          simp only [atomsJoin_cons₂, List.length_append, List.length_cons,
            List.length_nil] at hfuel
          omega
      have hb2 : 3 * (atomsJoin [.alt] ms).length + 2 ≤ f := by
        cases ms with
        | nil =>
          simp only [atomsJoin_one] at hfuel
          simp only [atomsJoin, List.length_nil]
          omega
        | cons m' ms' =>
          simp only [atomsJoin_cons₂, List.length_append, List.length_cons,
            List.length_nil] at hfuel
          omega
      obtain ⟨t₀, ts₀, heq, hnfs⟩ :
          ∃ t₀ ts₀, altLoopToks ms ++ t :: ts = t₀ :: ts₀ ∧
            t₀.kind ∉ fragmentStartKinds := by
        cases ms with
        | nil => exact ⟨t, ts, rfl, hfr⟩
        | cons m' ms' =>
          refine ⟨.ALTERNATIVE,
            (atomsJoin [.alt] (m' :: ms')).map atomToken ++ t :: ts, rfl, ?_⟩
          decide
      obtain ⟨ct₁, hstr⟩ := hm.2.1 hm1 hlv1 hnh1 ct t₀ ts₀ f hnfs hb1
      rw [← heq] at hstr
      obtain ⟨ct₂, hloop⟩ := hl.2.1 hms hlvs hnhs [m] ct₁ t ts f (by simp) hfr halt hb2
      refine ⟨ct₂, ?_⟩
      have hstream : (atomsJoin [.alt] (m :: ms)).map atomToken ++ t :: ts =
          tokensOf m ++ (altLoopToks ms ++ t :: ts) := by
        rw [altJoin_map_cons, List.append_assoc]
      rw [hstream]
      unfold parse_expansion
      rw [hstr, except_ok_bind]
      dsimp only
      exact hloop
    exact ⟨hSL, hAL, hSF, hAF⟩

end

/-!
### Re-lexing the canonical rendering
-/

theorem atomsText_cons₂ (a b : BNF_Atom) (l : List BNF_Atom) :
    atomsText (a :: b :: l) = atomText a ++ ' ' :: atomsText (b :: l) := rfl

theorem isAlpha_not_space {c : Char} (h : c.isAlpha = true) : pyIsSpace c = false := by
  cases hsp : pyIsSpace c with
  | false => rfl
  | true =>
    exfalso
    simp only [pyIsSpace, Bool.or_eq_true, decide_eq_true_eq] at hsp
    rcases hsp with ((((rfl | rfl) | rfl) | rfl) | rfl) | rfl <;> exact absurd h (by decide)

theorem goodWordChar_not_space {c : Char} (h : goodWordChar c = true) : pyIsSpace c = false := by
  simp only [goodWordChar, Bool.and_eq_true, Bool.or_eq_true, decide_eq_true_eq] at h
  rcases h.1 with ha | rfl
  · exact isAlpha_not_space ha
  · decide

theorem consume_word_stops : ∀ (w tl : List Char),
    (∀ c ∈ w, (c.isAlpha || c = '_') = true) →
    (tl = [] ∨ ∃ u, tl = ' ' :: u) →
    consume_word (w ++ tl) = (w, tl) := by
  intro w
  induction w with
  | nil =>
    intro tl _ htl
    rcases htl with rfl | ⟨u, rfl⟩
    · rfl
    · simp [consume_word]
  | cons c w ih =>
    intro tl h htl
    have hc : (c.isAlpha || c = '_') = true := h c (List.mem_cons_self _ _)
    have hrec := ih tl (fun x hx => h x (List.mem_cons_of_mem _ hx)) htl
    simp only [List.cons_append, consume_word, hc, if_true]
    rw [List.append_eq, hrec]

theorem split_terminal_value_all_upper : ∀ (raw acc : List Char),
    (∀ c ∈ raw, c.isLower = false) →
    split_terminal_value acc raw = some (acc ++ raw, none) := by
  intro raw
  induction raw with
  | nil =>
    intro acc _
    simp [split_terminal_value]
  | cons c rs ih =>
    intro acc h
    have hc : c.isLower = false := h c (List.mem_cons_self _ _)
    simp only [split_terminal_value, hc, Bool.false_eq_true, if_false]
    rw [ih (acc ++ [c]) (fun x hx => h x (List.mem_cons_of_mem _ hx))]
    simp

theorem consume_symbol_body_closes : ∀ (v tl : List Char),
    (∀ c ∈ v, c ≠ squote) → consume_symbol_body (v ++ squote :: tl) = some (v, tl) := by
  intro v
  induction v with
  | nil =>
    intro tl _
    simp [consume_symbol_body]
  | cons c v ih =>
    intro tl h
    have hc : c ≠ squote := h c (List.mem_cons_self _ _)
    simp only [List.cons_append, consume_symbol_body, hc, if_false]
    rw [List.append_eq, ih tl (fun x hx => h x (List.mem_cons_of_mem _ hx))]

theorem skip_whitespace_nonspace (cc : Option Char) (c : Char) (rs : List Char)
    (h : pyIsSpace c = false) :
    skip_whitespace cc (c :: rs) 0 = (cc, c :: rs, 0) := by
  simp [skip_whitespace, h]

theorem skip_whitespace_pad (cc : Option Char) (pad : List Char) (c : Char) (rs : List Char)
    (hpad : pad = [] ∨ pad = [' ']) (h : pyIsSpace c = false) :
    skip_whitespace cc (pad ++ c :: rs) 0 = (if pad = [] then cc else some ' ', c :: rs, 0) := by
  rcases hpad with rfl | rfl
  · simpa using skip_whitespace_nonspace cc c rs h
  · rw [show skip_whitespace cc ([' '] ++ c :: rs) 0 = skip_whitespace (some ' ') (c :: rs) 0
      from by simp [skip_whitespace, pyIsSpace]]
    rw [skip_whitespace_nonspace (some ' ') c rs h]
    simp

theorem token_end_pad (cc : Option Char) (pad : List Char) (hpad : pad = [] ∨ pad = [' ']) :
    BNF_Lexer.token ⟨cc, pad, false⟩ = .ok (some .RULE_END, ⟨none, [], true⟩) := by
  rcases hpad with rfl | rfl <;> rfl

theorem token_core_symbol (v tl rest' : List Char) (flag : Bool)
    (hbody : consume_symbol_body rest' = some (v, tl)) :
    token_core 0 ⟨some squote, rest', flag⟩ =
      .ok (some (.SYMBOL v), ⟨some squote, tl, flag⟩) := by
  unfold token_core
  dsimp only
  rw [hbody]
  rfl

theorem token_core_word (c₀ : Char) (w' rest' tl : List Char) (flag : Bool)
    (hup : c₀.isUpper = true) (hlow : c₀.isLower = false)
    (hne : c₀ ≠ '[' ∧ c₀ ≠ ']' ∧ c₀ ≠ '{' ∧ c₀ ≠ '}' ∧ c₀ ≠ '|' ∧ c₀ ≠ ':')
    (hcw : consume_word rest' = (w', tl))
    (hsplit : split_terminal_value [] (c₀ :: w') = some (c₀ :: w', none)) :
    token_core 0 ⟨some c₀, rest', flag⟩ =
      .ok (some (.TERMINAL (c₀ :: w') none), ⟨some (w'.getLastD c₀), tl, flag⟩) := by
  unfold token_core
  dsimp only
  rw [if_neg (by omega : ¬ (0:Nat) ≥ 2), if_neg hne.1, if_neg hne.2.1, if_neg hne.2.2.1,
    if_neg hne.2.2.2.1, if_neg hne.2.2.2.2.1, if_neg hne.2.2.2.2.2,
    if_neg (by simp [hlow]), if_pos hup, hcw]
  dsimp only
  rw [hsplit]

theorem token_atom (a : BNF_Atom) (hg : goodAtom a = true) (cc : Option Char)
    (pad tl : List Char) (hpad : pad = [] ∨ pad = [' '])
    (htl : tl = [] ∨ ∃ u, tl = ' ' :: u) :
    ∃ cc', BNF_Lexer.token ⟨cc, pad ++ (atomText a ++ tl), false⟩ =
      .ok (some (atomToken a), ⟨cc', tl, false⟩) := by
  cases a with
  | sbra => rcases hpad with rfl | rfl <;> exact ⟨some '[', rfl⟩
  | sket => rcases hpad with rfl | rfl <;> exact ⟨some ']', rfl⟩
  | cbra => rcases hpad with rfl | rfl <;> exact ⟨some '{', rfl⟩
  | cket => rcases hpad with rfl | rfl <;> exact ⟨some '}', rfl⟩
  | alt => rcases hpad with rfl | rfl <;> exact ⟨some '|', rfl⟩
  | sym v =>
    have hv : ∀ c ∈ v, c ≠ squote := by
      have h := hg
      simp only [goodAtom, List.all_eq_true, decide_eq_true_eq] at h
      exact h
    have hbody := consume_symbol_body_closes v tl hv
    refine ⟨some squote, ?_⟩
    have htext : atomText (.sym v) ++ tl = squote :: (v ++ squote :: tl) := by
      simp [atomText]
    rw [htext]
    unfold BNF_Lexer.token
    dsimp only
    rw [skip_whitespace_pad cc pad squote (v ++ squote :: tl) hpad (by decide)]
    dsimp only
    rw [if_pos (by omega : (0:Nat) < 2)]
    simp only [List.head?_cons, List.tail_cons]
    rw [token_core_symbol v tl (v ++ squote :: tl) false hbody]
    rfl
  | word w =>
    have hgw : goodWord w = true := by simpa [goodAtom] using hg
    cases w with
    | nil => simp [goodWord] at hgw
    | cons c₀ w' =>
      simp only [goodWord, Bool.and_eq_true] at hgw
      obtain ⟨⟨hup, hgwc⟩, hall⟩ := hgw
      have hallw : ∀ x ∈ w', goodWordChar x = true := fun x hx => List.all_eq_true.mp hall x hx
      have hlow : c₀.isLower = false := by
        simp only [goodWordChar, Bool.and_eq_true, Bool.not_eq_true'] at hgwc
        exact hgwc.2
      have hne : c₀ ≠ '[' ∧ c₀ ≠ ']' ∧ c₀ ≠ '{' ∧ c₀ ≠ '}' ∧ c₀ ≠ '|' ∧ c₀ ≠ ':' := by
        refine ⟨?_, ?_, ?_, ?_, ?_, ?_⟩ <;> (rintro rfl; exact absurd hup (by decide))
      have hspace : pyIsSpace c₀ = false := goodWordChar_not_space hgwc
      have hwchars : ∀ x ∈ w', (x.isAlpha || x = '_') = true := by
        intro x hx
        have := hallw x hx
        simp only [goodWordChar, Bool.and_eq_true] at this
        exact this.1
      have hnolow : ∀ x ∈ (c₀ :: w'), x.isLower = false := by
        intro x hx
        rcases List.mem_cons.mp hx with rfl | hx'
        · exact hlow
        · have := hallw x hx'
          simp only [goodWordChar, Bool.and_eq_true, Bool.not_eq_true'] at this
          exact this.2
      have hcw := consume_word_stops w' tl hwchars htl
      have hsplit : split_terminal_value [] (c₀ :: w') = some (c₀ :: w', none) := by
        simpa using split_terminal_value_all_upper (c₀ :: w') [] hnolow
      refine ⟨some (w'.getLastD c₀), ?_⟩
      have htext : atomText (.word (c₀ :: w')) ++ tl = c₀ :: (w' ++ tl) := by
        simp [atomText]
      rw [htext]
      unfold BNF_Lexer.token
      dsimp only
      rw [skip_whitespace_pad cc pad c₀ (w' ++ tl) hpad hspace]
      dsimp only
      rw [if_pos (by omega : (0:Nat) < 2)]
      simp only [List.head?_cons, List.tail_cons]
      rw [token_core_word c₀ w' (w' ++ tl) tl false hup hlow hne hcw hsplit]
      rfl

theorem atomText_pos : (a : BNF_Atom) → goodAtom a = true → 1 ≤ (atomText a).length
  | .sym v, _ => by simp [atomText]
  | .word w, hg => by
    cases w with
    | nil => simp [goodAtom, goodWord] at hg
    | cons c w => simp [atomText]
  | .sbra, _ => by simp [atomText]
  | .sket, _ => by simp [atomText]
  | .cbra, _ => by simp [atomText]
  | .cket, _ => by simp [atomText]
  | .alt, _ => by simp [atomText]

theorem atomsText_length : (as : List BNF_Atom) → (∀ a ∈ as, goodAtom a = true) →
    as.length ≤ (atomsText as).length
  | [], _ => by simp [atomsText]
  | [a], h => by
    simpa [atomsText] using atomText_pos a (h a (by simp))
  | a :: b :: as, h => by
    have ih := atomsText_length (b :: as) (fun x hx => h x (by simp [List.mem_cons] at hx ⊢; tauto))
    have ha := atomText_pos a (h a (by simp))
    rw [atomsText_cons₂]
    simp only [List.length_append, List.length_cons] at ih ⊢
    omega

theorem lexAllAux_atoms : ∀ (as : List BNF_Atom), (∀ a ∈ as, goodAtom a = true) →
    ∀ (cc : Option Char) (pad : List Char), (pad = [] ∨ pad = [' ']) →
    ∀ fuel, as.length + 2 ≤ fuel →
    lexAllAux fuel ⟨cc, pad ++ atomsText as, false⟩ = .ok (as.map atomToken ++ [.RULE_END]) := by
  intro as
  induction as with
  | nil =>
    intro _ cc pad hpad fuel hfuel
    obtain ⟨f, rfl⟩ : ∃ f, fuel = f + 1 := ⟨fuel - 1, by omega⟩
    obtain ⟨f', rfl⟩ : ∃ f', f = f' + 1 := ⟨f - 1, by omega⟩
    unfold lexAllAux
    rw [show (pad ++ atomsText [] : List Char) = pad by simp [atomsText]]
    rw [token_end_pad cc pad hpad]
    unfold lexAllAux
    rfl
  | cons a as ih =>
    intro h cc pad hpad fuel hfuel
    obtain ⟨f, rfl⟩ : ∃ f, fuel = f + 1 := ⟨fuel - 1, by omega⟩
    have hga : goodAtom a = true := h a (List.mem_cons_self _ _)
    have hrest : ∀ x ∈ as, goodAtom x = true := fun x hx => h x (List.mem_cons_of_mem _ hx)
    cases as with
    | nil =>
      obtain ⟨cc', htok⟩ := token_atom a hga cc pad [] hpad (Or.inl rfl)
      unfold lexAllAux
      rw [show (pad ++ atomsText [a] : List Char) = pad ++ (atomText a ++ []) by
        simp [atomsText]]
      rw [htok]
      dsimp only
      have := ih hrest cc' [] (Or.inl rfl) f (by
        simp only [List.length_cons, List.length_nil] at hfuel ⊢
        omega)
      rw [show ([] ++ atomsText [] : List Char) = [] by simp [atomsText]] at this
      rw [this]
      simp
    | cons b as' =>
      obtain ⟨cc', htok⟩ := token_atom a hga cc pad (' ' :: atomsText (b :: as')) hpad
        (Or.inr ⟨_, rfl⟩)
      unfold lexAllAux
      rw [show (pad ++ atomsText (a :: b :: as') : List Char) =
        pad ++ (atomText a ++ (' ' :: atomsText (b :: as'))) by
        rw [atomsText_cons₂]]
      rw [htok]
      dsimp only
      have := ih hrest cc' [' '] (Or.inr rfl) f (by
        simp only [List.length_cons] at hfuel ⊢
        omega)
      rw [show ([' '] ++ atomsText (b :: as') : List Char) = ' ' :: atomsText (b :: as') from rfl]
        at this
      rw [this]
      simp

theorem ne_nil_of_one_le {α : Type} {l : List α} (h : 1 ≤ l.length) : l ≠ [] := by
  intro hc
  subst hc
  simp at h

theorem atomsText_append : (as : List BNF_Atom) → ∀ (bs : List BNF_Atom),
    as ≠ [] → bs ≠ [] → atomsText (as ++ bs) = atomsText as ++ ' ' :: atomsText bs
  | [], _, ha, _ => absurd rfl ha
  | [a], bs, _, hb => by
    cases bs with
    | nil => exact absurd rfl hb
    | cons b bs => rfl
  | a :: a' :: as, bs, _, hb => by
    have ih := atomsText_append (a' :: as) bs (by simp) hb
    simp only [List.cons_append] at ih ⊢
    rw [atomsText_cons₂, atomsText_cons₂, ih]
    simp

mutual

theorem write_atoms : (e : BNF_Expansion) → expShape e = true → noHtml e = true →
    write_expansion e = atomsText (atomsOf e)
  | .literal k v n, _, hnh => by
    cases k with
    | SYMBOL => rfl
    | TERMINAL =>
      have hn : n = none := by simpa [noHtml, Option.isNone_iff_eq_none] using hnh
      subst hn
      simp [write_expansion, atomsOf, atomsText, atomText]
    | NONTERMINAL => simp [noHtml] at hnh
  | .optional e, hsh, hnh => by
    simp only [expShape] at hsh
    simp only [noHtml] at hnh
    have ih := write_atoms e hsh hnh
    have hne : atomsOf e ≠ [] := ne_nil_of_one_le (atomsOf_pos e hsh)
    rw [show write_expansion (.optional e) = '[' :: ' ' :: write_expansion e ++ [' ', ']']
      from rfl]
    rw [show atomsOf (.optional e) = [BNF_Atom.sbra] ++ (atomsOf e ++ [BNF_Atom.sket])
      from rfl]
    rw [atomsText_append [BNF_Atom.sbra] _ (by simp) (by simp)]
    rw [atomsText_append (atomsOf e) [BNF_Atom.sket] hne (by simp)]
    rw [ih]
    simp [atomsText, atomText]
  | .one_or_more e, hsh, hnh => by
    simp only [expShape] at hsh
    simp only [noHtml] at hnh
    have ih := write_atoms e hsh hnh
    have hne : atomsOf e ≠ [] := ne_nil_of_one_le (atomsOf_pos e hsh)
    rw [show write_expansion (.one_or_more e) = '{' :: ' ' :: write_expansion e ++ [' ', '}']
      from rfl]
    rw [show atomsOf (.one_or_more e) = [BNF_Atom.cbra] ++ (atomsOf e ++ [BNF_Atom.cket])
      from rfl]
    rw [atomsText_append [BNF_Atom.cbra] _ (by simp) (by simp)]
    rw [atomsText_append (atomsOf e) [BNF_Atom.cket] hne (by simp)]
    rw [ih]
    simp [atomsText, atomText]
  | .string ms, hsh, hnh => by
    simp only [expShape, Bool.and_eq_true, decide_eq_true_eq] at hsh
    exact (write_atoms_members ms).1 hsh.2 (by simpa [noHtml] using hnh)
  | .alternatives ms, hsh, hnh => by
    simp only [expShape, Bool.and_eq_true, decide_eq_true_eq] at hsh
    exact (write_atoms_members ms).2 hsh.2 (by simpa [noHtml] using hnh)

theorem write_atoms_members : (ms : List BNF_Expansion) →
    (fragShapeAll ms = true → noHtmlAll ms = true →
      write_members [' '] ms = atomsText (atomsJoin [] ms)) ∧
    (strShapeAll ms = true → noHtmlAll ms = true →
      write_members [' ', '|', ' '] ms = atomsText (atomsJoin [.alt] ms))
  | [] => ⟨fun _ _ => rfl, fun _ _ => rfl⟩
  | [m] => by
    constructor <;> intro hsh hnh
    · have hm : fragShape m = true := by
        simp only [fragShapeAll, Bool.and_eq_true] at hsh
        exact hsh.1
      have hn : noHtml m = true := by
        simp only [noHtmlAll, Bool.and_eq_true] at hnh
        exact hnh.1
      exact write_atoms m (strShape_expShape (fragShape_strShape hm)) hn
    · have hm : strShape m = true := by
        simp only [strShapeAll, Bool.and_eq_true] at hsh
        exact hsh.1
      have hn : noHtml m = true := by
        simp only [noHtmlAll, Bool.and_eq_true] at hnh
        exact hnh.1
      exact write_atoms m (strShape_expShape hm) hn
  | m :: m' :: ms => by
    constructor <;> intro hsh hnh
    · have hm : fragShape m = true := by
        simp only [fragShapeAll, Bool.and_eq_true] at hsh
        exact hsh.1
      have hrest : fragShapeAll (m' :: ms) = true := by
        simp only [fragShapeAll, Bool.and_eq_true] at hsh
        simp only [fragShapeAll, Bool.and_eq_true]
        exact hsh.2
      have hn : noHtml m = true := by
        simp only [noHtmlAll, Bool.and_eq_true] at hnh
        exact hnh.1
      have hnrest : noHtmlAll (m' :: ms) = true := by
        simp only [noHtmlAll, Bool.and_eq_true] at hnh
        simp only [noHtmlAll, Bool.and_eq_true]
        exact hnh.2
      have ihm := write_atoms m (strShape_expShape (fragShape_strShape hm)) hn
      have ihr := (write_atoms_members (m' :: ms)).1 hrest hnrest
      have hnem : atomsOf m ≠ [] :=
        ne_nil_of_one_le (atomsOf_pos m (strShape_expShape (fragShape_strShape hm)))
      have hner : atomsJoin [] (m' :: ms) ≠ [] :=
        ne_nil_of_one_le ((atomsJoin_pos (m' :: ms) [] (by simp)).1 hrest)
      rw [show write_members [' '] (m :: m' :: ms) =
        write_expansion m ++ [' '] ++ write_members [' '] (m' :: ms) from rfl]
      rw [show atomsJoin ([] : List BNF_Atom) (m :: m' :: ms) =
        atomsOf m ++ atomsJoin [] (m' :: ms) from by simp [atomsJoin_cons₂]]
      rw [atomsText_append (atomsOf m) _ hnem hner, ihm, ihr]
      simp
    · have hm : strShape m = true := by
        simp only [strShapeAll, Bool.and_eq_true] at hsh
        exact hsh.1
      have hrest : strShapeAll (m' :: ms) = true := by
        simp only [strShapeAll, Bool.and_eq_true] at hsh
        simp only [strShapeAll, Bool.and_eq_true]
        exact hsh.2
      have hn : noHtml m = true := by
        simp only [noHtmlAll, Bool.and_eq_true] at hnh
        exact hnh.1
      have hnrest : noHtmlAll (m' :: ms) = true := by
        simp only [noHtmlAll, Bool.and_eq_true] at hnh
        simp only [noHtmlAll, Bool.and_eq_true]
        exact hnh.2
      have ihm := write_atoms m (strShape_expShape hm) hn
      have ihr := (write_atoms_members (m' :: ms)).2 hrest hnrest
      have hnem : atomsOf m ≠ [] :=
        ne_nil_of_one_le (atomsOf_pos m (strShape_expShape hm))
      have hner : atomsJoin [.alt] (m' :: ms) ≠ [] :=
        ne_nil_of_one_le ((atomsJoin_pos (m' :: ms) [.alt] (by simp)).2 hrest)
      rw [show write_members [' ', '|', ' '] (m :: m' :: ms) =
        write_expansion m ++ [' ', '|', ' '] ++ write_members [' ', '|', ' '] (m' :: ms)
        from rfl]
      rw [atomsJoin_cons₂]
      rw [atomsText_append (atomsOf m ++ [BNF_Atom.alt]) _ (by simp) hner]
      rw [atomsText_append (atomsOf m) [BNF_Atom.alt] hnem (by simp)]
      rw [ihm, ihr]
      simp [atomsText, atomText]

end

mutual

theorem atomsOf_good : (e : BNF_Expansion) → expShape e = true → leavesOK e = true →
    noHtml e = true → ∀ a ∈ atomsOf e, goodAtom a = true
  | .literal k v n, _, hlv, hnh => by
    cases k with
    | SYMBOL =>
      intro a ha
      simp only [atomsOf, List.mem_singleton] at ha
      subst ha
      simp only [leavesOK, Bool.and_eq_true] at hlv
      simpa [goodAtom] using hlv.2
    | TERMINAL =>
      intro a ha
      simp only [atomsOf, List.mem_singleton] at ha
      subst ha
      have hn : n = none := by simpa [noHtml, Option.isNone_iff_eq_none] using hnh
      subst hn
      have hw : goodWord v = true := by simpa [leavesOK] using hlv
      simpa [goodAtom] using hw
    | NONTERMINAL => simp [noHtml] at hnh
  | .optional e, hsh, hlv, hnh => by
    simp only [expShape] at hsh
    simp only [leavesOK] at hlv
    simp only [noHtml] at hnh
    have ih := atomsOf_good e hsh hlv hnh
    intro a ha
    simp only [atomsOf, List.mem_cons, List.mem_append, List.mem_singleton] at ha
    rcases ha with rfl | ha | rfl | h0
    · rfl
    · exact ih a ha
    · rfl
    · simp at h0
  | .one_or_more e, hsh, hlv, hnh => by
    simp only [expShape] at hsh
    simp only [leavesOK] at hlv
    simp only [noHtml] at hnh
    have ih := atomsOf_good e hsh hlv hnh
    intro a ha
    simp only [atomsOf, List.mem_cons, List.mem_append, List.mem_singleton] at ha
    rcases ha with rfl | ha | rfl | h0
    · rfl
    · exact ih a ha
    · rfl
    · simp at h0
  | .string ms, hsh, hlv, hnh => by
    simp only [expShape, Bool.and_eq_true, decide_eq_true_eq] at hsh
    intro a ha
    exact (atomsJoin_good ms [] (by simp)).1 hsh.2 (by simpa [leavesOK] using hlv)
      (by simpa [noHtml] using hnh) a (by simpa [atomsOf] using ha)
  | .alternatives ms, hsh, hlv, hnh => by
    simp only [expShape, Bool.and_eq_true, decide_eq_true_eq] at hsh
    intro a ha
    refine (atomsJoin_good ms [.alt] ?_).2 hsh.2 (by simpa [leavesOK] using hlv)
      (by simpa [noHtml] using hnh) a (by simpa [atomsOf] using ha)
    intro s hs
    simp only [List.mem_singleton] at hs
    subst hs
    rfl

theorem atomsJoin_good : (ms : List BNF_Expansion) → ∀ (sep : List BNF_Atom),
    (∀ s ∈ sep, goodAtom s = true) →
    ((fragShapeAll ms = true → leavesOKAll ms = true → noHtmlAll ms = true →
      ∀ a ∈ atomsJoin sep ms, goodAtom a = true) ∧
     (strShapeAll ms = true → leavesOKAll ms = true → noHtmlAll ms = true →
      ∀ a ∈ atomsJoin sep ms, goodAtom a = true))
  | [], sep, hsep => by
    constructor <;> (intro _ _ _ a ha; simp [atomsJoin] at ha)
  | [m], sep, hsep => by
    constructor <;> intro hsh hlv hnh a ha
    · have hm : fragShape m = true := by
        simp only [fragShapeAll, Bool.and_eq_true] at hsh
        exact hsh.1
      have hl : leavesOK m = true := by
        simp only [leavesOKAll, Bool.and_eq_true] at hlv
        exact hlv.1
      have hn : noHtml m = true := by
        simp only [noHtmlAll, Bool.and_eq_true] at hnh
        exact hnh.1
      exact atomsOf_good m (strShape_expShape (fragShape_strShape hm)) hl hn a
        (by simpa [atomsJoin_one] using ha)
    · have hm : strShape m = true := by
        simp only [strShapeAll, Bool.and_eq_true] at hsh
        exact hsh.1
      have hl : leavesOK m = true := by
        simp only [leavesOKAll, Bool.and_eq_true] at hlv
        exact hlv.1
      have hn : noHtml m = true := by
        simp only [noHtmlAll, Bool.and_eq_true] at hnh
        exact hnh.1
      exact atomsOf_good m (strShape_expShape hm) hl hn a
        (by simpa [atomsJoin_one] using ha)
  | m :: m' :: ms, sep, hsep => by
    constructor <;> intro hsh hlv hnh a ha
    · have hm : fragShape m = true := by
        simp only [fragShapeAll, Bool.and_eq_true] at hsh
        exact hsh.1
      have hrest : fragShapeAll (m' :: ms) = true := by
        simp only [fragShapeAll, Bool.and_eq_true] at hsh ⊢
        exact hsh.2
      have hl : leavesOK m = true := by
        simp only [leavesOKAll, Bool.and_eq_true] at hlv
        exact hlv.1
      have hlrest : leavesOKAll (m' :: ms) = true := by
        simp only [leavesOKAll, Bool.and_eq_true] at hlv ⊢
        exact hlv.2
      have hn : noHtml m = true := by
        simp only [noHtmlAll, Bool.and_eq_true] at hnh
        exact hnh.1
      have hnrest : noHtmlAll (m' :: ms) = true := by
        simp only [noHtmlAll, Bool.and_eq_true] at hnh ⊢
        exact hnh.2
      rw [atomsJoin_cons₂] at ha
      simp only [List.mem_append] at ha
      rcases ha with (ha | hs) | har
      · exact atomsOf_good m (strShape_expShape (fragShape_strShape hm)) hl hn a ha
      · exact hsep a hs
      · exact (atomsJoin_good (m' :: ms) sep hsep).1 hrest hlrest hnrest a har
    · have hm : strShape m = true := by
        simp only [strShapeAll, Bool.and_eq_true] at hsh
        exact hsh.1
      have hrest : strShapeAll (m' :: ms) = true := by
        simp only [strShapeAll, Bool.and_eq_true] at hsh ⊢
        exact hsh.2
      have hl : leavesOK m = true := by
        simp only [leavesOKAll, Bool.and_eq_true] at hlv
        exact hlv.1
      have hlrest : leavesOKAll (m' :: ms) = true := by
        simp only [leavesOKAll, Bool.and_eq_true] at hlv ⊢
        exact hlv.2
      have hn : noHtml m = true := by
        simp only [noHtmlAll, Bool.and_eq_true] at hnh
        exact hnh.1
      have hnrest : noHtmlAll (m' :: ms) = true := by
        simp only [noHtmlAll, Bool.and_eq_true] at hnh ⊢
        exact hnh.2
      rw [atomsJoin_cons₂] at ha
      simp only [List.mem_append] at ha
      rcases ha with (ha | hs) | har
      · exact atomsOf_good m (strShape_expShape hm) hl hn a ha
      · exact hsep a hs
      · exact (atomsJoin_good (m' :: ms) sep hsep).2 hrest hlrest hnrest a har

end

theorem lexAll_write_expansion (e : BNF_Expansion) (hsh : expShape e = true)
    (hlv : leavesOK e = true) (hnh : noHtml e = true) :
    lexAll (write_expansion e) = .ok (tokensOf e ++ [.RULE_END]) := by
  have hgood := atomsOf_good e hsh hlv hnh
  rw [write_atoms e hsh hnh]
  unfold lexAll initLexer
  have hlen := atomsText_length (atomsOf e) hgood
  have hx := lexAllAux_atoms (atomsOf e) hgood none []
    (Or.inl rfl) ((atomsText (atomsOf e)).length + 2) (by omega)
  simpa [tokensOf] using hx

/-- C1 (counterexample to the claim as stated): round-trip stability
fails for a successfully parsed production whose expansion is a
nonterminal reference.  Parsing the well-delimited fragment
`foo ::= bar` succeeds and registers the AST `bar` (a NONTERMINAL
literal), but its rendered form is an HTML hyperlink
`<a href="#bnf-bar">bar</a>`, and re-lexing that text fails with the
lexical error `unexpected character <` instead of reproducing the AST:
the rendering is not re-parseable, so no structurally equal AST can be
recovered. -/
theorem c1_round_trip_counterexample :
    parse initParserState (['g']) exRawNT = .ok exStateNT ∧
    lookupAssoc exStateNT.productions (['f', 'o', 'o']) = some exAstNT ∧
    lexAll (write_expansion exAstNT) = .error (.trlc (.unexpectedChar '<')) :=
  ⟨rfl, rfl, rfl⟩

/-- C1 (amended): round-trip stability holds for every newly registered
production AST whose canonical rendering is plain BNF text (`noHtml`: no
NONTERMINAL leaves, which render as hyperlinks, and no suffixed TERMINAL
leaves, which render italic markers).  For such an AST, re-lexing the
rendered text yields exactly the AST's canonical token stream followed
by the synthesized RULE_END, and re-parsing that stream with
`parse_expansion` rebuilds a structurally equal (indeed equal) AST,
consuming everything up to the RULE_END: no content is dropped. -/
theorem c1_round_trip_amended
    {p : BNF_ParserState} {objName rawText : List Char} {p' : BNF_ParserState}
    (hp : parse p objName rawText = .ok p')
    (nm : List Char) (ast : BNF_Expansion)
    (hmem : (nm, ast) ∈ p'.productions) (hnew : (nm, ast) ∉ p.productions)
    (hplain : noHtml ast = true) :
    lexAll (write_expansion ast) = .ok (tokensOf ast ++ [.RULE_END]) ∧
    ∀ fuel, 3 * (atomsOf ast).length + 2 ≤ fuel →
      ∃ ct, parse_expansion fuel (none, tokensOf ast ++ [.RULE_END]) =
        .ok (ast, (ct, [.RULE_END])) := by
  obtain ⟨new, -, hprods, -, hfr, -, -, -⟩ := parse_ok_spec hp
  have hmem' : (nm, ast) ∈ new := by
    rw [hprods] at hmem
    rcases List.mem_append.mp hmem with h | h
    · exact absurd h hnew
    · exact h
  obtain ⟨-, hsh, hlv⟩ := hfr (nm, ast) hmem'
  refine ⟨lexAll_write_expansion ast hsh hlv hplain, ?_⟩
  intro fuel hfuel
  exact (parse_atoms_inv ast).2.2 hsh hlv hplain none .RULE_END [] fuel
    (by decide) (by decide) hfuel

/-- Witness for the amended C1, at the fragment registering
`foo ::= 'a' 'b'` (a two-member string of SYMBOL literals, whose
rendering is plain text): the rendered form re-lexes to the canonical
tokens plus RULE_END, and re-parsing rebuilds the same AST. -/
theorem c1_round_trip_amended_witness :
    lexAll (write_expansion exAstSyms) = .ok (tokensOf exAstSyms ++ [.RULE_END]) ∧
    ∃ ct, parse_expansion 20 (none, tokensOf exAstSyms ++ [.RULE_END]) =
      .ok (exAstSyms, (ct, [.RULE_END])) := by
  have h := @c1_round_trip_amended initParserState (['g']) exRawSyms exStateSyms
    rfl (['f', 'o', 'o']) exAstSyms (List.mem_singleton.mpr rfl)
    (List.not_mem_nil _) rfl
  exact ⟨h.1, h.2 20 (by decide)⟩

/-!
## Fuel sufficiency

The Python recursive descent has no depth limit, so the fuel the model
threads through `parse_loop` and the `parse_expansion` family must be
provably sufficient: with the bound `3 * tokens + 1` baked into `parse`,
no run of the model ever ends in `fuelOut`, so the model's `parse`
succeeds and fails exactly where the source method does.
-/

theorem pmatch_ne_fuelOut (k : TokKind) (st : Toks) : pmatch k st ≠ .error .fuelOut := by
  rcases st with ⟨ct, ts⟩
  cases ts with
  | nil =>
    unfold pmatch
    cases ct <;> simp
  | cons t rest =>
    unfold pmatch
    dsimp only
    split <;> simp

theorem token_core_ne_fuelOut (numNl : Nat) (s2 : BNF_Lexer) :
    token_core numNl s2 ≠ .error .fuelOut := by
  intro hcontra
  unfold token_core at hcontra
  split at hcontra
  · by_cases hf : s2.eof_token_generated = true
    · rw [if_pos hf] at hcontra
      exact Except.noConfusion hcontra
    · rw [if_neg hf] at hcontra
      exact Except.noConfusion hcontra
  · rename_i c hcc
    by_cases h2 : numNl ≥ 2
    · rw [if_pos h2] at hcontra
      exact Except.noConfusion hcontra
    · rw [if_neg h2] at hcontra
      by_cases hc1 : c = '['
      · rw [if_pos hc1] at hcontra
        exact Except.noConfusion hcontra
      · rw [if_neg hc1] at hcontra
        by_cases hc2 : c = ']'
        · rw [if_pos hc2] at hcontra
          exact Except.noConfusion hcontra
        · rw [if_neg hc2] at hcontra
          by_cases hc3 : c = '{'
          · rw [if_pos hc3] at hcontra
            exact Except.noConfusion hcontra
          · rw [if_neg hc3] at hcontra
            by_cases hc4 : c = '}'
            · rw [if_pos hc4] at hcontra
              exact Except.noConfusion hcontra
            · rw [if_neg hc4] at hcontra
              by_cases hc5 : c = '|'
              · rw [if_pos hc5] at hcontra
                exact Except.noConfusion hcontra
              · rw [if_neg hc5] at hcontra
                by_cases hc6 : c = ':'
                · rw [if_pos hc6] at hcontra
                  dsimp only at hcontra
                  by_cases hp1 : s2.advance.cc ≠ some ':'
                  · rw [if_pos hp1] at hcontra
                    injection hcontra with h
                    exact GenError.noConfusion h
                  · rw [if_neg hp1] at hcontra
                    by_cases hp2 : s2.advance.advance.cc ≠ some '='
                    · rw [if_pos hp2] at hcontra
                      injection hcontra with h
                      exact GenError.noConfusion h
                    · rw [if_neg hp2] at hcontra
                      exact Except.noConfusion hcontra
                · rw [if_neg hc6] at hcontra
                  by_cases hlo : c.isLower = true
                  · rw [if_pos hlo] at hcontra
                    rcases hw : consume_word s2.rest with ⟨w, rest'⟩
                    rw [hw] at hcontra
                    dsimp only at hcontra
                    cases hsp : split_nonterminal_value [] (c :: w) with
                    | none =>
                      rw [hsp] at hcontra
                      exact absurd hcontra (by simp)
                    | some bs =>
                      rw [hsp] at hcontra
                      rcases bs with ⟨base, suffix⟩
                      exact absurd hcontra (by simp)
                  · rw [if_neg hlo] at hcontra
                    by_cases hup : c.isUpper = true
                    · rw [if_pos hup] at hcontra
                      rcases hw : consume_word s2.rest with ⟨w, rest'⟩
                      rw [hw] at hcontra
                      dsimp only at hcontra
                      cases hsp : split_terminal_value [] (c :: w) with
                      | none =>
                        rw [hsp] at hcontra
                        exact absurd hcontra (by simp)
                      | some bs =>
                        rw [hsp] at hcontra
                        rcases bs with ⟨base, suffix⟩
                        exact absurd hcontra (by simp)
                    · rw [if_neg hup] at hcontra
                      by_cases hsq : c = squote
                      · rw [if_pos hsq] at hcontra
                        cases hsp : consume_symbol_body s2.rest with
                        | none =>
                          rw [hsp] at hcontra
                          exact absurd hcontra (by simp)
                        | some vr =>
                          rw [hsp] at hcontra
                          rcases vr with ⟨v, r⟩
                          exact absurd hcontra (by simp)
                      · rw [if_neg hsq] at hcontra
                        exact absurd hcontra (by simp)

theorem token_ne_fuelOut (s : BNF_Lexer) : s.token ≠ .error .fuelOut := by
  unfold BNF_Lexer.token
  rcases hsk : skip_whitespace s.cc s.rest 0 with ⟨cc1, rest1, numNl⟩
  exact token_core_ne_fuelOut _ _

theorem lexAllAux_final (F : Nat) (h : 1 ≤ F) : lexAllAux F ⟨none, [], true⟩ = .ok [] := by
  obtain ⟨f, rfl⟩ : ∃ f, F = f + 1 := ⟨F - 1, by omega⟩
  rfl

theorem lexAllAux_ne_fuelOut : ∀ (fuel : Nat) (s : BNF_Lexer),
    s.rest.length + 2 ≤ fuel → lexAllAux fuel s ≠ .error .fuelOut := by
  intro fuel
  induction fuel with
  | zero =>
    intro s hb hcontra
    omega
  | succ f ih =>
    intro s hb hcontra
    unfold lexAllAux at hcontra
    rcases token_cases s with ⟨s', htok, -, rfl⟩ | ⟨t, s', htok, hfl, hlt, -⟩ |
      ⟨s', htok, -, rfl⟩ | ⟨e, htok, -⟩
    · rw [htok] at hcontra
      simp at hcontra
    · rw [htok] at hcontra
      dsimp only at hcontra
      rcases hrec : lexAllAux f s' with e' | ts
      · rw [hrec] at hcontra
        obtain rfl : e' = .fuelOut := by simpa using hcontra
        exact ih s' (by omega) hrec
      · rw [hrec] at hcontra
        simp at hcontra
    · rw [htok] at hcontra
      dsimp only at hcontra
      rw [lexAllAux_final f (by omega)] at hcontra
      simp at hcontra
    · rw [htok] at hcontra
      obtain rfl : e = .fuelOut := by simpa using hcontra
      exact token_ne_fuelOut s htok

theorem lexAll_ne_fuelOut (fragment : List Char) : lexAll fragment ≠ .error .fuelOut :=
  lexAllAux_ne_fuelOut (fragment.length + 2) (initLexer fragment) (by simp [initLexer])

theorem parse_fragment_shrink {fuel : Nat} {st : Toks} {e : BNF_Expansion} {st' : Toks}
    (h : parse_fragment fuel st = .ok (e, st'))
    (hwf : ∀ t ∈ st.2, tokenWF t = true) :
    st'.2.length < st.2.length := by
  cases fuel with
  | zero => simp [parse_fragment] at h
  | succ f =>
    unfold parse_fragment at h
    rcases st with ⟨ct, toks⟩
    cases toks with
    | nil => simp at h
    | cons t ts =>
      dsimp only at h
      split at h
      · rw [except_bind_ok] at h
        obtain ⟨st₁, hm, h⟩ := h
        obtain ⟨t₁, ts₁, hts₁, -, rfl⟩ := pmatch_ok hm
        have hts₁' : t :: ts = t₁ :: ts₁ := hts₁
        rw [except_bind_ok] at h
        obtain ⟨⟨rv, st₂⟩, he, h⟩ := h
        rw [except_bind_ok] at h
        obtain ⟨st₃, hk, h⟩ := h
        obtain ⟨-, rfl⟩ : BNF_Expansion.one_or_more rv = e ∧ st₃ = st' := by simpa using h
        have hwf₁ : ∀ x ∈ ts₁, tokenWF x = true := by
          intro x hx
          exact hwf x (hts₁' ▸ List.mem_cons_of_mem t₁ hx)
        obtain ⟨-, -, hsfx⟩ := (parse_inv f).2.2.2.1 _ _ _ he hwf₁
        obtain ⟨t₂, ts₂, hts₂, -, rfl⟩ := pmatch_ok hk
        have h1 : st₂.2.length ≤ ts₁.length := hsfx.length_le
        have h2 : st₂.2.length = ts₂.length + 1 := by rw [hts₂]; rfl
        have h3 : ts.length = ts₁.length := by simpa using congrArg List.length hts₁'
        show ts₂.length < (t :: ts).length
        simp only [List.length_cons]
        omega
      · split at h
        · rw [except_bind_ok] at h
          obtain ⟨st₁, hm, h⟩ := h
          obtain ⟨t₁, ts₁, hts₁, -, rfl⟩ := pmatch_ok hm
          have hts₁' : t :: ts = t₁ :: ts₁ := hts₁
          rw [except_bind_ok] at h
          obtain ⟨⟨rv, st₂⟩, he, h⟩ := h
          rw [except_bind_ok] at h
          obtain ⟨st₃, hk, h⟩ := h
          obtain ⟨-, rfl⟩ : BNF_Expansion.optional rv = e ∧ st₃ = st' := by simpa using h
          have hwf₁ : ∀ x ∈ ts₁, tokenWF x = true := by
            intro x hx
            exact hwf x (hts₁' ▸ List.mem_cons_of_mem t₁ hx)
          obtain ⟨-, -, hsfx⟩ := (parse_inv f).2.2.2.1 _ _ _ he hwf₁
          obtain ⟨t₂, ts₂, hts₂, -, rfl⟩ := pmatch_ok hk
          have h1 : st₂.2.length ≤ ts₁.length := hsfx.length_le
          have h2 : st₂.2.length = ts₂.length + 1 := by rw [hts₂]; rfl
          have h3 : ts.length = ts₁.length := by simpa using congrArg List.length hts₁'
          show ts₂.length < (t :: ts).length
          simp only [List.length_cons]
          omega
        · split at h
          · rw [except_bind_ok] at h
            obtain ⟨st₁, hm, h⟩ := h
            obtain ⟨t₁, ts₁, hts₁, -, rfl⟩ := pmatch_ok hm
            have hts₁' : t :: ts = t₁ :: ts₁ := hts₁
            split at h
            · obtain ⟨-, rfl⟩ : _ ∧ ((some t₁, ts₁) : Toks) = st' := by simpa using h
              have h3 : ts.length = ts₁.length := by simpa using congrArg List.length hts₁'
              show ts₁.length < (t :: ts).length
              simp only [List.length_cons]
              omega
            · exact absurd h (by simp)
          · split at h
            · rw [except_bind_ok] at h
              obtain ⟨st₁, hm, h⟩ := h
              obtain ⟨t₁, ts₁, hts₁, -, rfl⟩ := pmatch_ok hm
              have hts₁' : t :: ts = t₁ :: ts₁ := hts₁
              split at h
              · obtain ⟨-, rfl⟩ : _ ∧ ((some t₁, ts₁) : Toks) = st' := by simpa using h
                have h3 : ts.length = ts₁.length := by simpa using congrArg List.length hts₁'
                show ts₁.length < (t :: ts).length
                simp only [List.length_cons]
                omega
              · exact absurd h (by simp)
            · split at h
              · rw [except_bind_ok] at h
                obtain ⟨st₁, hm, h⟩ := h
                obtain ⟨t₁, ts₁, hts₁, -, rfl⟩ := pmatch_ok hm
                have hts₁' : t :: ts = t₁ :: ts₁ := hts₁
                split at h
                · obtain ⟨-, rfl⟩ : _ ∧ ((some t₁, ts₁) : Toks) = st' := by simpa using h
                  have h3 : ts.length = ts₁.length := by simpa using congrArg List.length hts₁'
                  show ts₁.length < (t :: ts).length
                  simp only [List.length_cons]
                  omega
                · exact absurd h (by simp)
              · exact absurd h (by simp)

theorem parse_fuel_bound : ∀ fuel : Nat,
    (∀ st : Toks, (∀ t ∈ st.2, tokenWF t = true) → 3 * st.2.length + 1 ≤ fuel →
      parse_fragment fuel st ≠ .error .fuelOut) ∧
    (∀ st : Toks, (∀ t ∈ st.2, tokenWF t = true) → 3 * st.2.length + 2 ≤ fuel →
      parse_string fuel st ≠ .error .fuelOut) ∧
    (∀ (rv : List BNF_Expansion) (st : Toks), (∀ t ∈ st.2, tokenWF t = true) →
      3 * st.2.length + 2 ≤ fuel → parse_string_loop fuel rv st ≠ .error .fuelOut) ∧
    (∀ st : Toks, (∀ t ∈ st.2, tokenWF t = true) → 3 * st.2.length + 3 ≤ fuel →
      parse_expansion fuel st ≠ .error .fuelOut) ∧
    (∀ (rv : List BNF_Expansion) (st : Toks), (∀ t ∈ st.2, tokenWF t = true) →
      3 * st.2.length + 1 ≤ fuel → parse_expansion_loop fuel rv st ≠ .error .fuelOut) := by
  intro fuel
  induction fuel with
  | zero =>
    exact ⟨fun st hwf hb => absurd hb (by omega),
      fun st hwf hb => absurd hb (by omega),
      fun rv st hwf hb => absurd hb (by omega),
      fun st hwf hb => absurd hb (by omega),
      fun rv st hwf hb => absurd hb (by omega)⟩
  | succ f ih =>
    obtain ⟨ihF, ihS, ihSL, ihE, ihEL⟩ := ih
    refine ⟨?_, ?_, ?_, ?_, ?_⟩
    · -- parse_fragment
      intro st hwf hb hcontra
      unfold parse_fragment at hcontra
      rcases st with ⟨ct, toks⟩
      cases toks with
      | nil => simp at hcontra
      | cons t ts =>
        dsimp only at hcontra
        split at hcontra
        · rw [except_bind_error] at hcontra
          rcases hcontra with hpm | ⟨st₁, hpm, hcontra⟩
          · exact pmatch_ne_fuelOut _ _ hpm
          · obtain ⟨t₁, ts₁, hts₁, -, rfl⟩ := pmatch_ok hpm
            have hts₁' : t :: ts = t₁ :: ts₁ := hts₁
            rw [except_bind_error] at hcontra
            rcases hcontra with hexp | ⟨⟨rv, st₂⟩, hexp, hcontra⟩
            · refine ihE (some t₁, ts₁) ?_ ?_ hexp
              · intro x hx
                exact hwf x (hts₁' ▸ List.mem_cons_of_mem t₁ hx)
              · have h3 : ts.length = ts₁.length := by
                  simpa using congrArg List.length hts₁'
                show 3 * ts₁.length + 3 ≤ f
                simp only [List.length_cons] at hb
                omega
            · rw [except_bind_error] at hcontra
              rcases hcontra with hpm2 | ⟨st₃, -, hcontra⟩
              · exact pmatch_ne_fuelOut _ _ hpm2
              · simp at hcontra
        · split at hcontra
          · rw [except_bind_error] at hcontra
            rcases hcontra with hpm | ⟨st₁, hpm, hcontra⟩
            · exact pmatch_ne_fuelOut _ _ hpm
            · obtain ⟨t₁, ts₁, hts₁, -, rfl⟩ := pmatch_ok hpm
              have hts₁' : t :: ts = t₁ :: ts₁ := hts₁
              rw [except_bind_error] at hcontra
              rcases hcontra with hexp | ⟨⟨rv, st₂⟩, hexp, hcontra⟩
              · refine ihE (some t₁, ts₁) ?_ ?_ hexp
                · intro x hx
                  exact hwf x (hts₁' ▸ List.mem_cons_of_mem t₁ hx)
                · have h3 : ts.length = ts₁.length := by
                    simpa using congrArg List.length hts₁'
                  show 3 * ts₁.length + 3 ≤ f
                  simp only [List.length_cons] at hb
                  omega
              · rw [except_bind_error] at hcontra
                rcases hcontra with hpm2 | ⟨st₃, -, hcontra⟩
                · exact pmatch_ne_fuelOut _ _ hpm2
                · simp at hcontra
          · split at hcontra
            · rw [except_bind_error] at hcontra
              rcases hcontra with hpm | ⟨st₁, hpm, hcontra⟩
              · exact pmatch_ne_fuelOut _ _ hpm
              · split at hcontra <;> simp at hcontra
            · split at hcontra
              · rw [except_bind_error] at hcontra
                rcases hcontra with hpm | ⟨st₁, hpm, hcontra⟩
                · exact pmatch_ne_fuelOut _ _ hpm
                · split at hcontra <;> simp at hcontra
              · split at hcontra
                · rw [except_bind_error] at hcontra
                  rcases hcontra with hpm | ⟨st₁, hpm, hcontra⟩
                  · exact pmatch_ne_fuelOut _ _ hpm
                  · split at hcontra <;> simp at hcontra
                · simp at hcontra
    · -- parse_string
      intro st hwf hb hcontra
      unfold parse_string at hcontra
      rw [except_bind_error] at hcontra
      rcases hcontra with hfr | ⟨⟨fr, st₁⟩, hfr, hcontra⟩
      · exact ihF st hwf (by omega) hfr
      · have hlt := parse_fragment_shrink hfr hwf
        obtain ⟨-, -, hsfx⟩ := (parse_inv f).1 _ _ _ hfr hwf
        refine ihSL [fr] st₁ ?_ ?_ hcontra
        · intro x hx
          exact hwf x (hsfx.subset hx)
        · omega
    · -- parse_string_loop
      intro rv st hwf hb hcontra
      rw [parse_string_loop_eq] at hcontra
      rcases st with ⟨ct, toks⟩
      cases toks with
      | nil => simp at hcontra
      | cons t ts =>
        dsimp only at hcontra
        split at hcontra
        · rw [except_bind_error] at hcontra
          rcases hcontra with hfr | ⟨⟨fr, st₁⟩, hfr, hcontra⟩
          · refine ihF (ct, t :: ts) hwf ?_ hfr
            show 3 * (t :: ts).length + 1 ≤ f
            simp only [List.length_cons] at hb ⊢
            omega
          · have hlt := parse_fragment_shrink hfr hwf
            obtain ⟨-, -, hsfx⟩ := (parse_inv f).1 _ _ _ hfr hwf
            refine ihSL (rv ++ [fr]) st₁ ?_ ?_ hcontra
            · intro x hx
              exact hwf x (hsfx.subset hx)
            · simp only [List.length_cons] at hb hlt
              omega
        · split at hcontra <;> simp at hcontra
    · -- parse_expansion
      intro st hwf hb hcontra
      unfold parse_expansion at hcontra
      rw [except_bind_error] at hcontra
      rcases hcontra with hstr | ⟨⟨s, st₁⟩, hstr, hcontra⟩
      · exact ihS st hwf (by omega) hstr
      · obtain ⟨-, -, hsfx⟩ := (parse_inv f).2.1 _ _ _ hstr hwf
        have hle : st₁.2.length ≤ st.2.length := hsfx.length_le
        refine ihEL [s] st₁ ?_ ?_ hcontra
        · intro x hx
          exact hwf x (hsfx.subset hx)
        · omega
    · -- parse_expansion_loop
      intro rv st hwf hb hcontra
      rw [parse_expansion_loop_eq] at hcontra
      split at hcontra
      · rw [except_bind_error] at hcontra
        rcases hcontra with hpm | ⟨st₁, hpm, hcontra⟩
        · exact pmatch_ne_fuelOut _ _ hpm
        · obtain ⟨t₁, ts₁, hts₁, -, rfl⟩ := pmatch_ok hpm
          have hwf₁ : ∀ x ∈ ts₁, tokenWF x = true := by
            intro x hx
            exact hwf x (by rw [hts₁]; exact List.mem_cons_of_mem _ hx)
          have h1 : st.2.length = ts₁.length + 1 := by rw [hts₁]; rfl
          rw [except_bind_error] at hcontra
          rcases hcontra with hstr | ⟨⟨s, st₂⟩, hstr, hcontra⟩
          · refine ihS (some t₁, ts₁) hwf₁ ?_ hstr
            show 3 * ts₁.length + 2 ≤ f
            omega
          · obtain ⟨-, -, hsfx⟩ := (parse_inv f).2.1 _ _ _ hstr hwf₁
            have hle : st₂.2.length ≤ ts₁.length := hsfx.length_le
            refine ihEL (rv ++ [s]) st₂ ?_ ?_ hcontra
            · intro x hx
              exact hwf₁ x (hsfx.subset hx)
            · omega
      · split at hcontra <;> simp at hcontra

theorem parse_production_ne_fuelOut (fuel : Nat) (p : BNF_ParserState) (st : Toks)
    (hwf : ∀ t ∈ st.2, tokenWF t = true) (hb : 3 * st.2.length ≤ fuel) :
    parse_production fuel p st ≠ .error .fuelOut := by
  intro hcontra
  unfold parse_production at hcontra
  rw [except_bind_error] at hcontra
  rcases hcontra with hpm | ⟨st₁, hpm, hcontra⟩
  · exact pmatch_ne_fuelOut _ _ hpm
  · obtain ⟨t₁, ts₁, hts₁, -, rfl⟩ := pmatch_ok hpm
    have h1 : st.2.length = ts₁.length + 1 := by rw [hts₁]; rfl
    have hwf₁ : ∀ x ∈ ts₁, tokenWF x = true := by
      intro x hx
      exact hwf x (by rw [hts₁]; exact List.mem_cons_of_mem _ hx)
    split at hcontra
    · split at hcontra
      · simp at hcontra
      · rw [except_bind_error] at hcontra
        rcases hcontra with hpm2 | ⟨st₂, hpm2, hcontra⟩
        · exact pmatch_ne_fuelOut _ _ hpm2
        · obtain ⟨t₂, ts₂, hts₂, -, rfl⟩ := pmatch_ok hpm2
          have h2 : ts₁.length = ts₂.length + 1 := by
            have : ((some t₁, ts₁) : Toks).2 = t₂ :: ts₂ := hts₂
            simpa using congrArg List.length this
          have hwf₂ : ∀ x ∈ ts₂, tokenWF x = true := by
            intro x hx
            refine hwf₁ x ?_
            have : ((some t₁, ts₁) : Toks).2 = t₂ :: ts₂ := hts₂
            rw [show ts₁ = t₂ :: ts₂ from this]
            exact List.mem_cons_of_mem _ hx
          rw [except_bind_error] at hcontra
          rcases hcontra with hexp | ⟨⟨exp, st₃⟩, -, hcontra⟩
          · refine (parse_fuel_bound fuel).2.2.2.1 (some t₂, ts₂) hwf₂ ?_ hexp
            show 3 * ts₂.length + 3 ≤ fuel
            omega
          · simp at hcontra
    · simp at hcontra

theorem parse_loop_ne_fuelOut : ∀ (fuel : Nat) (p : BNF_ParserState) (objName : List Char)
    (st : Toks), (∀ t ∈ st.2, tokenWF t = true) → 3 * st.2.length + 1 ≤ fuel →
    parse_loop fuel p objName st ≠ .error .fuelOut := by
  intro fuel
  induction fuel with
  | zero =>
    intro p objName st hwf hb hcontra
    omega
  | succ f ih =>
    intro p objName st hwf hb hcontra
    unfold parse_loop at hcontra
    rcases st with ⟨ct, toks⟩
    cases toks with
    | nil => simp at hcontra
    | cons t ts =>
      dsimp only at hcontra
      rw [except_bind_error] at hcontra
      rcases hcontra with hpp | ⟨⟨nm, p₁, st₁⟩, hpp, hcontra⟩
      · refine parse_production_ne_fuelOut f p (ct, t :: ts) hwf ?_ hpp
        show 3 * (t :: ts).length ≤ f
        simp only [List.length_cons] at hb ⊢
        omega
      · obtain ⟨exp, -, -, -, -, hsfx⟩ := parse_production_ok hpp hwf
        rw [except_bind_error] at hcontra
        rcases hcontra with hpm | ⟨st₂, hpm, hcontra⟩
        · exact pmatch_ne_fuelOut _ _ hpm
        · obtain ⟨t₂, ts₂, hts₂, -, rfl⟩ := pmatch_ok hpm
          have h1 : st₁.2.length = ts₂.length + 1 := by
            simpa using congrArg List.length hts₂
          have h2 : st₁.2.length ≤ (t :: ts).length := hsfx.length_le
          refine ih _ objName (some t₂, ts₂) ?_ ?_ hcontra
          · intro x hx
            refine hwf x (hsfx.subset ?_)
            rw [hts₂]
            exact List.mem_cons_of_mem _ hx
          · show 3 * ts₂.length + 1 ≤ f
            simp only [List.length_cons] at hb h2
            omega

theorem parse_ne_fuelOut (p : BNF_ParserState) (objName rawText : List Char) :
    parse p objName rawText ≠ .error .fuelOut := by
  intro hcontra
  unfold parse at hcontra
  split at hcontra
  · simp at hcontra
  · dsimp only at hcontra
    split at hcontra
    · rename_i e hlex
      obtain rfl : e = .fuelOut := by simpa using hcontra
      exact lexAll_ne_fuelOut _ hlex
    · rename_i toks hlex
      exact parse_loop_ne_fuelOut _ _ objName (none, toks) (lexAll_tokenWF hlex)
        (le_refl _) hcontra

/-- The fragment `foo ::= {{'a'}}` of nesting depth two parses
successfully in the model (as it does in the source), producing the
doubly nested repetition AST. -/
theorem parse_nested_example :
    parse initParserState (['g']) exRawNested = .ok exStateNested := rfl
